import Mathlib

set_option maxHeartbeats 1000000

/-
Verification development for the open-addressing hash table without
reordering (src/src/hash_table.py).  The Python code is embedded shallowly:

* Python integers hashed through `hash(key)` and `hash(str(key))` are
  abstracted as two arbitrary hash functions `h1 h2 : K → Nat`; keys carry
  decidable equality.
* The Python value domain includes `None`, which doubles as the not-found
  marker of `search`; stored values are therefore modelled as `Option V`
  (with `none` playing the role of the Python `None` object).
* Empty table slots are `none : Option (K × Option V)`.
* A Python `ZeroDivisionError` (modulus zero in a hash function, or the
  load-factor division on a size-zero table) is modelled by an outer
  `Option` layer: `none` means the call raised, `some r` means it returned
  the ordinary value `r`.
* The real-valued formulas `int(log2(log2(n+1)+1))` and the geometric tier
  sizing use exact floor semantics, giving `Nat.log2` and natural division;
  the load-factor comparison `count / size >= 0.9` is the exact rational
  comparison `10 * count ≥ 9 * size`.
* The construction parameter `delta` enters the Python code only through
  `maxProbes = int(log2(1/delta))` and `alpha = int(log2(1/delta)/3)`;
  since `⌊x/3⌋ = ⌊⌊x⌋/3⌋`, a table built from any `delta ∈ (0,1)` is
  exactly a table built from some `maxProbes : Nat` with
  `alpha = maxProbes / 3`, which is how construction is parameterised here.
-/

namespace OpenAddressing

variable {K V : Type}

/-- Python `%` on natural operands; `none` models the `ZeroDivisionError`
raised when the modulus is zero. -/
def pyMod (a b : Nat) : Option Nat := if b = 0 then none else some (a % b)

/-- A slot of the backing storage: empty (`none`), or a stored pair of key
and Python value.  Stored Python values are `Option V` because Python code
may store the `None` object as a value. -/
abbrev Slot (K V : Type) := Option (K × Option V)

/-- Pure double-hashing probe position for capacity `s ≥ 2`:
`(h1 k mod s + i * (1 + h2 k mod (s-1))) mod s`. -/
def probeAt (h1 h2 : K → Nat) (s : Nat) (k : K) (i : Nat) : Nat :=
  (h1 k % s + i * (1 + h2 k % (s - 1))) % s

/-- `SubArray._hash` / `LastSubArray._hash_b`: double hashing; crashes
(`none`) when the capacity is 0 or 1, because Python computes
`hash(key) % size` and `hash(str(key)) % (size - 1)`. -/
def subHash (h1 h2 : K → Nat) (s : Nat) (k : K) (i : Nat) : Option Nat :=
  match pyMod (h1 k) s, pyMod (h2 k) (s - 1) with
  | some a, some b => some ((a + i * (1 + b)) % s)
  | _, _ => none

/-- A uniform tier (`SubArray` in the source).  The Python `_size` field is
the length of `_table` throughout the life of the object, so it is derived
rather than stored. -/
structure SubArray (K V : Type) where
  table : List (Slot K V)
  count : Nat
  deriving DecidableEq, Repr

/-- Declared capacity of a uniform tier (`SubArray._size`). -/
def SubArray.size (a : SubArray K V) : Nat := a.table.length

/-- `SubArray(size)`: a fresh uniform tier of the given capacity. -/
def SubArray.make (s : Nat) : SubArray K V := ⟨List.replicate s none, 0⟩

/-- Phase 1 of `SubArray.insert` (existence/update scan), probing attempts
`i, i+1, ...` with `fuel` attempts left.  `none` = crash, `some none` = fell
through (hit an empty slot or exhausted the probes), `some (some a2)` = the
key was found and its value overwritten. -/
def updateScan [DecidableEq K] (h1 h2 : K → Nat) (k : K) (v : Option V)
    (a : SubArray K V) : Nat → Nat → Option (Option (SubArray K V))
  | _, 0 => some none
  | i, fuel + 1 =>
    match subHash h1 h2 a.size k i with
    | none => none
    | some pos =>
      match a.table.getD pos none with
      | none => some none
      | some (k2, _) =>
        if k2 = k then some (some ⟨a.table.set pos (some (k, v)), a.count⟩)
        else updateScan h1 h2 k v a (i + 1) fuel

/-- Phase 2 of `SubArray.insert` (placement scan): store the new entry at the
first empty probed slot.  `none` = crash, `some none` = no empty slot within
the probe budget, `some (some a2)` = placed (count incremented). -/
def placeScan (h1 h2 : K → Nat) (k : K) (v : Option V)
    (a : SubArray K V) : Nat → Nat → Option (Option (SubArray K V))
  | _, 0 => some none
  | i, fuel + 1 =>
    match subHash h1 h2 a.size k i with
    | none => none
    | some pos =>
      match a.table.getD pos none with
      | none => some (some ⟨a.table.set pos (some (k, v)), a.count + 1⟩)
      | some _ => placeScan h1 h2 k v a (i + 1) fuel

/-- `SubArray.insert(key, value, max_probes)`.  Returns the Python boolean
together with the resulting tier state. -/
def SubArray.insert [DecidableEq K] (h1 h2 : K → Nat) (k : K) (v : Option V)
    (mp : Nat) (a : SubArray K V) : Option (Bool × SubArray K V) :=
  match updateScan h1 h2 k v a 0 mp with
  | none => none
  | some (some a2) => some (true, a2)
  | some none =>
    match placeScan h1 h2 k v a 0 mp with
    | none => none
    | some (some a2) => some (true, a2)
    | some none => some (false, a)

/-- Loop body of `SubArray.search`: probe attempts `i, i+1, ...`; stop at the
first empty slot or at a key match.  The inner `Option V` is the Python
return value (the stored value on a match, the `None` object otherwise). -/
def searchScan [DecidableEq K] (h1 h2 : K → Nat) (k : K)
    (a : SubArray K V) : Nat → Nat → Option (Option V)
  | _, 0 => some none
  | i, fuel + 1 =>
    match subHash h1 h2 a.size k i with
    | none => none
    | some pos =>
      match a.table.getD pos none with
      | none => some none
      | some (k2, w) =>
        if k2 = k then some w
        else searchScan h1 h2 k a (i + 1) fuel

/-- `SubArray.search(key)`: probes up to `size` attempts. -/
def SubArray.search [DecidableEq K] (h1 h2 : K → Nat) (k : K)
    (a : SubArray K V) : Option (Option V) :=
  searchScan h1 h2 k a 0 a.size

/-- Load factor of a uniform tier, as an exact rational. -/
def SubArray.loadFactor (a : SubArray K V) : ℚ := (a.count : ℚ) / (a.size : ℚ)

/-- Fuel-based floor base-2 logarithm (a structurally recursive version of
`Nat.log2`, so that concrete tables reduce by `decide` and `rfl`). -/
def log2Fuel : Nat → Nat → Nat
  | 0, _ => 0
  | fuel + 1, n => if 2 ≤ n then log2Fuel fuel (n / 2) + 1 else 0

/-- Floor base-2 logarithm, `⌊log2 n⌋` for `n ≥ 1` and `0` at `0`. -/
def natLog2 (n : Nat) : Nat := log2Fuel n n

/-- `int(log2(log2(size + 1) + 1))` with exact floor semantics: the number of
probe attempts for part B of the terminal tier. -/
def maxAttemptsB (s : Nat) : Nat := natLog2 (natLog2 (s + 1) + 1)

/-- The terminal tier (`LastSubArray` in the source): a uniform part `b` and
a bucketed two-choice part `c`.  `size` and `bucketSize` are the stored
Python fields `_size` and `_bucket_size`; `_b_size` is `b.length` and the
bucket count is `c.length`. -/
structure LastSubArray (K V : Type) where
  size : Nat
  bucketSize : Nat
  b : List (Slot K V)
  c : List (List (Slot K V))
  count : Nat
  deriving DecidableEq, Repr

/-- `LastSubArray(size)`: part B gets `size / 2` slots, part C is split into
`⌈(size - size/2) / bucketSize⌉` buckets of `bucketSize` slots each, where
`bucketSize = 2 * int(log2(log2(size+1)+1))`. -/
def LastSubArray.make (s : Nat) : LastSubArray K V :=
  let bSize := s / 2
  let cSize := s - bSize
  let bs := 2 * maxAttemptsB s
  let nb := (cSize + bs - 1) / bs
  ⟨s, bs, List.replicate bSize none, List.replicate nb (List.replicate bs none), 0⟩

/-- `LastSubArray._hash_c`: the two candidate bucket indices; crashes when
the bucket count is 0 or 1. -/
def hashC (h1 h2 : K → Nat) (nb : Nat) (k : K) : Option (Nat × Nat) :=
  match pyMod (h1 k) nb, pyMod (h2 k) (nb - 1) with
  | some a, some b => some (a, (a + 1 + b) % nb)
  | _, _ => none

/-- Pure version of the two candidate bucket indices (defined for `nb ≥ 2`). -/
def bucketPair (h1 h2 : K → Nat) (nb : Nat) (k : K) : Nat × Nat :=
  (h1 k % nb, (h1 k % nb + 1 + h2 k % (nb - 1)) % nb)

/-- Index (counting from `i`) of the first slot of the bucket holding the
given key, if any; mirrors `enumerate(bucket)` in the source. -/
def findKeyIdxFrom [DecidableEq K] (k : K) : List (Slot K V) → Nat → Option Nat
  | [], _ => none
  | some (k2, _) :: rest, i =>
    if k2 = k then some i else findKeyIdxFrom k rest (i + 1)
  | none :: rest, i => findKeyIdxFrom k rest (i + 1)

/-- First index in a bucket holding the given key, if any. -/
def bucketFindIdx [DecidableEq K] (k : K) (bucket : List (Slot K V)) : Option Nat :=
  findKeyIdxFrom k bucket 0

/-- Linear scan of a bucket for a key: `some w` = the first slot holding the
key stores Python value `w`; `none` = the key is not in the bucket. -/
def bucketLookup [DecidableEq K] (k : K) : List (Slot K V) → Option (Option V)
  | [] => none
  | some (k2, w) :: rest => if k2 = k then some w else bucketLookup k rest
  | none :: rest => bucketLookup k rest

/-- Number of empty slots in a bucket. -/
def countEmpty : List (Slot K V) → Nat
  | [] => 0
  | none :: rest => countEmpty rest + 1
  | some _ :: rest => countEmpty rest

/-- Index of the first empty slot among positions `i, i+1, ...` with `fuel`
positions still to inspect; mirrors `for i in range(self._bucket_size)` in
the source. -/
def firstEmptyIn (bucket : List (Slot K V)) : Nat → Nat → Option Nat
  | _, 0 => none
  | i, fuel + 1 =>
    match bucket.getD i none with
    | none => some i
    | some _ => firstEmptyIn bucket (i + 1) fuel

/-- Existence/update scan over part B of the terminal tier (first loop of
`LastSubArray.insert`): a full scan of all attempts, with no early exit on
empty slots. -/
def updateScanB [DecidableEq K] (h1 h2 : K → Nat) (k : K) (v : Option V)
    (la : LastSubArray K V) : Nat → Nat → Option (Option (LastSubArray K V))
  | _, 0 => some none
  | i, fuel + 1 =>
    match subHash h1 h2 la.b.length k i with
    | none => none
    | some pos =>
      match la.b.getD pos none with
      | some (k2, _) =>
        if k2 = k then some (some { la with b := la.b.set pos (some (k, v)) })
        else updateScanB h1 h2 k v la (i + 1) fuel
      | none => updateScanB h1 h2 k v la (i + 1) fuel

/-- Existence/update scan over the two candidate buckets of part C (second
loop of `LastSubArray.insert`). -/
def updateScanC [DecidableEq K] (h1 h2 : K → Nat) (k : K) (v : Option V)
    (la : LastSubArray K V) : Option (Option (LastSubArray K V)) :=
  match hashC h1 h2 la.c.length k with
  | none => none
  | some (b1, b2) =>
    match bucketFindIdx k (la.c.getD b1 []) with
    | some i =>
      some (some { la with c := la.c.set b1 ((la.c.getD b1 []).set i (some (k, v))) })
    | none =>
      match bucketFindIdx k (la.c.getD b2 []) with
      | some i =>
        some (some { la with c := la.c.set b2 ((la.c.getD b2 []).set i (some (k, v))) })
      | none => some none

/-- Placement scan over part B of the terminal tier (third loop of
`LastSubArray.insert`): place at the first empty probed slot. -/
def placeScanB (h1 h2 : K → Nat) (k : K) (v : Option V)
    (la : LastSubArray K V) : Nat → Nat → Option (Option (LastSubArray K V))
  | _, 0 => some none
  | i, fuel + 1 =>
    match subHash h1 h2 la.b.length k i with
    | none => none
    | some pos =>
      match la.b.getD pos none with
      | none =>
        some (some { la with b := la.b.set pos (some (k, v)), count := la.count + 1 })
      | some _ => placeScanB h1 h2 k v la (i + 1) fuel

/-- Two-choice placement in part C (final stage of `LastSubArray.insert`):
choose the candidate bucket with the greater empty count, ties to the first
candidate; place at the first empty slot among the first `bucketSize`
positions of the chosen bucket, or fail. -/
def placeScanC [DecidableEq K] (h1 h2 : K → Nat) (k : K) (v : Option V)
    (la : LastSubArray K V) : Option (Bool × LastSubArray K V) :=
  match hashC h1 h2 la.c.length k with
  | none => none
  | some (b1, b2) =>
    let bucket1 := la.c.getD b1 []
    let bucket2 := la.c.getD b2 []
    let target := if countEmpty bucket1 ≥ countEmpty bucket2 then b1 else b2
    let tb := if countEmpty bucket1 ≥ countEmpty bucket2 then bucket1 else bucket2
    match firstEmptyIn tb 0 la.bucketSize with
    | some i =>
      some (true, { la with c := la.c.set target (tb.set i (some (k, v))),
                            count := la.count + 1 })
    | none => some (false, la)

/-- `LastSubArray.insert(key, value)`: update in B, else update in C, else
place in B, else two-choice place in C. -/
def LastSubArray.insert [DecidableEq K] (h1 h2 : K → Nat) (k : K) (v : Option V)
    (la : LastSubArray K V) : Option (Bool × LastSubArray K V) :=
  match updateScanB h1 h2 k v la 0 (maxAttemptsB la.size) with
  | none => none
  | some (some la2) => some (true, la2)
  | some none =>
    match updateScanC h1 h2 k v la with
    | none => none
    | some (some la2) => some (true, la2)
    | some none =>
      match placeScanB h1 h2 k v la 0 (maxAttemptsB la.size) with
      | none => none
      | some (some la2) => some (true, la2)
      | some none => placeScanC h1 h2 k v la

/-- Search loop over part B of the terminal tier: early exit at the first
empty probed slot (`some none` = not found in B, fall through to part C). -/
def searchScanB [DecidableEq K] (h1 h2 : K → Nat) (k : K)
    (la : LastSubArray K V) : Nat → Nat → Option (Option (Option V))
  | _, 0 => some none
  | i, fuel + 1 =>
    match subHash h1 h2 la.b.length k i with
    | none => none
    | some pos =>
      match la.b.getD pos none with
      | none => some none
      | some (k2, w) =>
        if k2 = k then some (some w)
        else searchScanB h1 h2 k la (i + 1) fuel

/-- `LastSubArray.search(key)`: part B with early exit, then both candidate
buckets of part C, scanned fully. -/
def LastSubArray.search [DecidableEq K] (h1 h2 : K → Nat) (k : K)
    (la : LastSubArray K V) : Option (Option V) :=
  match searchScanB h1 h2 k la 0 (maxAttemptsB la.size) with
  | none => none
  | some (some w) => some w
  | some none =>
    match hashC h1 h2 la.c.length k with
    | none => none
    | some (b1, b2) =>
      match bucketLookup k (la.c.getD b1 []) with
      | some w => some w
      | none =>
        match bucketLookup k (la.c.getD b2 []) with
        | some w => some w
        | none => some none

/-- Load factor of the terminal tier, as an exact rational. -/
def LastSubArray.loadFactor (la : LastSubArray K V) : ℚ :=
  (la.count : ℚ) / (la.size : ℚ)

/-- The table (`OpenAddressHashTable`).  `maxProbes` is
`int(log2(1/delta))`, the only way `delta` enters insert; the tier count is
`maxProbes / 3` (see the header comment). -/
structure HashTable (K V : Type) where
  size : Nat
  maxProbes : Nat
  subarrays : List (SubArray K V)
  last : Option (LastSubArray K V)
  count : Nat
  deriving DecidableEq, Repr

/-- Geometrically halving uniform-tier capacities: `m, m/2, m/4, ...`, at
most `fuel` of them, stopping as soon as a capacity reaches 0. -/
def tierSizes : Nat → Nat → List Nat
  | _, 0 => []
  | m, fuel + 1 => if m < 1 then [] else m :: tierSizes (m / 2) fuel

/-- `OpenAddressHashTable(initial_size, delta)`, parameterised by
`mp = int(log2(1/delta))`; the Python `_alpha` is `mp / 3`.  The terminal
tier receives the remaining capacity and exists when it is positive. -/
def mkTable (n mp : Nat) : HashTable K V :=
  let sizes := tierSizes (n / 2) (mp / 3)
  let lastSize := n - sizes.sum
  { size := n
    maxProbes := mp
    subarrays := sizes.map SubArray.make
    last := if 0 < lastSize then some (LastSubArray.make lastSize) else none
    count := 0 }

/-- Existence loop of `OpenAddressHashTable.insert`: search each uniform tier
in order; at the first tier whose search returns a non-`None` Python value,
delegate to that tier and return its result.  `some none` = not visibly
present in any uniform tier. -/
def insertExisting [DecidableEq K] (h1 h2 : K → Nat) (k : K) (v : Option V)
    (mp : Nat) : List (SubArray K V) → Option (Option (Bool × List (SubArray K V)))
  | [] => some none
  | a :: rest =>
    match SubArray.search h1 h2 k a with
    | none => none
    | some (some _) =>
      match SubArray.insert h1 h2 k v mp a with
      | none => none
      | some (ok, a2) => some (some (ok, a2 :: rest))
    | some none =>
      match insertExisting h1 h2 k v mp rest with
      | none => none
      | some none => some none
      | some (some (ok, rest2)) => some (some (ok, a :: rest2))

/-- Placement loop of `OpenAddressHashTable.insert`: try each uniform tier in
order, keeping the (possibly unchanged) tier state on failure. -/
def insertNew [DecidableEq K] (h1 h2 : K → Nat) (k : K) (v : Option V)
    (mp : Nat) : List (SubArray K V) → Option (Option (List (SubArray K V)))
  | [] => some none
  | a :: rest =>
    match SubArray.insert h1 h2 k v mp a with
    | none => none
    | some (true, a2) => some (some (a2 :: rest))
    | some (false, a2) =>
      match insertNew h1 h2 k v mp rest with
      | none => none
      | some none => some none
      | some (some rest2) => some (some (a2 :: rest2))

/-- The fresh-key path of `OpenAddressHashTable.insert`: load-factor guard
(crashing on a size-zero table, like `count / size` does), then the uniform
tiers, then the terminal tier. -/
def insertFresh [DecidableEq K] (h1 h2 : K → Nat) (k : K) (v : Option V)
    (t : HashTable K V) : Option (Bool × HashTable K V) :=
  if t.size = 0 then none
  else if 10 * t.count ≥ 9 * t.size then some (false, t)
  else
    match insertNew h1 h2 k v t.maxProbes t.subarrays with
    | none => none
    | some (some subs2) =>
      some (true, { t with subarrays := subs2, count := t.count + 1 })
    | some none =>
      match t.last with
      | some la =>
        match LastSubArray.insert h1 h2 k v la with
        | none => none
        | some (true, la2) =>
          some (true, { t with last := some la2, count := t.count + 1 })
        | some (false, la2) => some (false, { t with last := some la2 })
      | none => some (false, t)

/-- `OpenAddressHashTable.insert(key, value)`. -/
def HashTable.insert [DecidableEq K] (h1 h2 : K → Nat) (k : K) (v : Option V)
    (t : HashTable K V) : Option (Bool × HashTable K V) :=
  match insertExisting h1 h2 k v t.maxProbes t.subarrays with
  | none => none
  | some (some (ok, subs2)) => some (ok, { t with subarrays := subs2 })
  | some none =>
    match t.last with
    | some la =>
      match LastSubArray.search h1 h2 k la with
      | none => none
      | some (some _) =>
        match LastSubArray.insert h1 h2 k v la with
        | none => none
        | some (ok, la2) => some (ok, { t with last := some la2 })
      | some none => insertFresh h1 h2 k v t
    | none => insertFresh h1 h2 k v t

/-- Search loop of `OpenAddressHashTable.search` over the uniform tiers:
return the first non-`None` Python result. -/
def searchSubs [DecidableEq K] (h1 h2 : K → Nat) (k : K) :
    List (SubArray K V) → Option (Option V)
  | [] => some none
  | a :: rest =>
    match SubArray.search h1 h2 k a with
    | none => none
    | some (some w) => some (some w)
    | some none => searchSubs h1 h2 k rest

/-- `OpenAddressHashTable.search(key)`. -/
def HashTable.search [DecidableEq K] (h1 h2 : K → Nat) (k : K)
    (t : HashTable K V) : Option (Option V) :=
  match searchSubs h1 h2 k t.subarrays with
  | none => none
  | some (some w) => some (some w)
  | some none =>
    match t.last with
    | some la => LastSubArray.search h1 h2 k la
    | none => some none

/-- `OpenAddressHashTable.load_factor`, as an exact rational. -/
def HashTable.loadFactor (t : HashTable K V) : ℚ := (t.count : ℚ) / (t.size : ℚ)

/-- Sum of the declared capacities of all tiers (uniform tiers plus the
terminal tier when present). -/
def HashTable.totalCap (t : HashTable K V) : Nat :=
  (t.subarrays.map SubArray.size).sum +
    (match t.last with
     | some la => la.size
     | none => 0)

/-- One evolution step of the table: a call to `insert` that returned
normally (searches are pure and do not change state; a raising insert
produces no successor state, matching the fact that every Python mutation
in `insert` is immediately followed by a return). -/
inductive Step [DecidableEq K] (h1 h2 : K → Nat) :
    HashTable K V → HashTable K V → Prop
  | insert (k : K) (v : Option V) (r : Bool) {t t2 : HashTable K V}
      (h : HashTable.insert h1 h2 k v t = some (r, t2)) : Step h1 h2 t t2

/-- Reachability of a table state from another by any sequence of
operations. -/
inductive Reach [DecidableEq K] (h1 h2 : K → Nat) :
    HashTable K V → HashTable K V → Prop
  | refl (t : HashTable K V) : Reach h1 h2 t t
  | tail {t t2 t3 : HashTable K V} :
      Reach h1 h2 t t2 → Step h1 h2 t2 t3 → Reach h1 h2 t t3

/-! ## State predicates, invariants and evolution relations -/

/-- Capacity of the terminal tier, 0 when absent. -/
def HashTable.lastCap (t : HashTable K V) : Nat :=
  match t.last with
  | some la => la.size
  | none => 0

/-- Structure preserved by every returning insert: total size, probe budget,
per-tier capacities and terminal-tier capacity. -/
def SameShape (t t2 : HashTable K V) : Prop :=
  t2.size = t.size ∧ t2.maxProbes = t.maxProbes ∧
    t2.subarrays.map SubArray.size = t.subarrays.map SubArray.size ∧
    t2.lastCap = t.lastCap

/-- Intermediate states of the saturation run for the C5 counterexample. -/
def satT1 : HashTable Nat Nat :=
  ⟨5, 0, [], some ⟨5, 2, [some (0, some 0), none],
    [[none, none], [none, none]], 1⟩, 1⟩

def satT2 : HashTable Nat Nat :=
  ⟨5, 0, [], some ⟨5, 2, [some (0, some 0), some (1, some 1)],
    [[none, none], [none, none]], 2⟩, 2⟩

def satT3 : HashTable Nat Nat :=
  ⟨5, 0, [], some ⟨5, 2, [some (0, some 0), some (1, some 1)],
    [[some (2, some 2), none], [none, none]], 3⟩, 3⟩

def satT4 : HashTable Nat Nat :=
  ⟨5, 0, [], some ⟨5, 2, [some (0, some 0), some (1, some 1)],
    [[some (2, some 2), none], [some (3, some 3), none]], 4⟩, 4⟩

/-- Fully saturated capacity-5 table: five entries, load factor exactly 1. -/
def satT5 : HashTable Nat Nat :=
  ⟨5, 0, [], some ⟨5, 2, [some (0, some 0), some (1, some 1)],
    [[some (2, some 2), some (4, some 4)], [some (3, some 3), none]], 5⟩, 5⟩

/-- The key occupies no slot of the list. -/
def KeyAbsent (tb : List (Slot K V)) (k : K) : Prop :=
  ∀ pos, pos < tb.length → ∀ w, tb.getD pos none ≠ some (k, w)

/-- The key sits, with stored Python value `w`, at probe attempt `i` of a
uniform probe region of capacity `tb.length` and probe budget `mp`: every
earlier probed slot is occupied by a different key (so scans that stop at
empty slots reach it), and no other slot holds the key. -/
def KeyAtProbe (h1 h2 : K → Nat) (mp : Nat) (tb : List (Slot K V)) (k : K)
    (i : Nat) (w : Option V) : Prop :=
  2 ≤ tb.length ∧ i < mp ∧
  tb.getD (probeAt h1 h2 tb.length k i) none = some (k, w) ∧
  (∀ j, j < i → ∃ k2 w2,
    tb.getD (probeAt h1 h2 tb.length k j) none = some (k2, w2) ∧ k2 ≠ k) ∧
  (∀ pos, pos < tb.length → ∀ w2, tb.getD pos none = some (k, w2) →
    pos = probeAt h1 h2 tb.length k i)

/-- Uniform-tier invariant for one key: absent, or placed at some probe
attempt that is also below the tier capacity (so the capacity-bounded
search loop reaches it). -/
def SubTierOk (h1 h2 : K → Nat) (mp : Nat) (a : SubArray K V) (k : K) : Prop :=
  KeyAbsent a.table k ∨
    ∃ i w, KeyAtProbe h1 h2 mp a.table k i w ∧ i < a.size

/-- Terminal-tier invariant for one key. -/
def LastTierOk (h1 h2 : K → Nat) (la : LastSubArray K V) (k : K) : Prop :=
  (KeyAbsent la.b k ∧ ∀ bi, bi < la.c.length → KeyAbsent (la.c.getD bi []) k) ∨
  (∃ i w, KeyAtProbe h1 h2 (maxAttemptsB la.size) la.b k i w ∧
    ∀ bi, bi < la.c.length → KeyAbsent (la.c.getD bi []) k) ∨
  (KeyAbsent la.b k ∧
    ∃ bi j w,
      (bi = (bucketPair h1 h2 la.c.length k).1 ∨
        bi = (bucketPair h1 h2 la.c.length k).2) ∧
      j < (la.c.getD bi []).length ∧
      (la.c.getD bi []).getD j none = some (k, w) ∧
      (∀ bi2 j2 w2, bi2 < la.c.length → j2 < (la.c.getD bi2 []).length →
        (la.c.getD bi2 []).getD j2 none = some (k, w2) → bi2 = bi ∧ j2 = j))

/-- The key has a copy with a non-`None` stored value in the uniform tier. -/
def SubHasSome (a : SubArray K V) (k : K) : Prop :=
  ∃ pos w, pos < a.table.length ∧ a.table.getD pos none = some (k, some w)

/-- The key has a copy with a non-`None` stored value in the terminal tier. -/
def LastHasSome (la : LastSubArray K V) (k : K) : Prop :=
  (∃ pos w, pos < la.b.length ∧ la.b.getD pos none = some (k, some w)) ∨
  (∃ bi j w, bi < la.c.length ∧ j < (la.c.getD bi []).length ∧
    (la.c.getD bi []).getD j none = some (k, some w))

/-- No uniform tier in the list has a visible (non-`None`-valued) copy of
the key. -/
def NoSomeSubs (l : List (SubArray K V)) (k : K) : Prop :=
  ∀ a ∈ l, ¬ SubHasSome a k

/-- At most one uniform tier of the list holds a visible copy of the key. -/
def AtMostOneSubs : List (SubArray K V) → K → Prop
  | [], _ => True
  | a :: rest, k => (SubHasSome a k → NoSomeSubs rest k) ∧ AtMostOneSubs rest k

/-- At most one tier holds a copy of the key with a non-`None` value (the
Python existence check skips `None`-valued copies, so several tiers can
hold stale `None`-valued copies of the same key, but never two visible
ones). -/
def AtMostOne (t : HashTable K V) (k : K) : Prop :=
  AtMostOneSubs t.subarrays k ∧
  ∀ la, t.last = some la → LastHasSome la k → NoSomeSubs t.subarrays k

/-- Crash-free, well-formed table state: every uniform tier has capacity at
least 2, there is a terminal tier whose uniform region and bucket count are
at least 2, buckets have the declared length, every key satisfies the
per-tier placement invariants, and each key is visible in at most one
tier. -/
def GoodState [DecidableEq K] (h1 h2 : K → Nat) (t : HashTable K V) : Prop :=
  (∀ a ∈ t.subarrays, 2 ≤ a.size ∧ ∀ k, SubTierOk h1 h2 t.maxProbes a k) ∧
  (∃ la, t.last = some la ∧ 2 ≤ la.b.length ∧ 2 ≤ la.c.length ∧
    (∀ bk ∈ la.c, bk.length = la.bucketSize) ∧
    ∀ k, LastTierOk h1 h2 la k) ∧
  (∀ k, AtMostOne t k)

/-- The global invariant: a good state, or a dead table on which every
insert raises (the dead case covers degenerate constructions such as
capacity-1 tiers; they can never acquire any entry). -/
def Inv [DecidableEq K] (h1 h2 : K → Nat) (t : HashTable K V) : Prop :=
  GoodState h1 h2 t ∨ ∀ (k : K) (v : Option V), HashTable.insert h1 h2 k v t = none

/-- Everything a successful uniform-tier insert of `(k, v)` guarantees about
the new tier state `a2` relative to the old state `a`. -/
def SubGood [DecidableEq K] (h1 h2 : K → Nat) (mp : Nat) (k : K) (v : Option V)
    (a a2 : SubArray K V) : Prop :=
  a2.size = a.size ∧
  (∀ k2, k2 ≠ k → SubTierOk h1 h2 mp a k2 → SubTierOk h1 h2 mp a2 k2) ∧
  SubTierOk h1 h2 mp a2 k ∧
  SubArray.search h1 h2 k a2 = some v ∧
  (∀ k2, k2 ≠ k → SubTierOk h1 h2 mp a k2 →
    SubArray.search h1 h2 k2 a2 = SubArray.search h1 h2 k2 a) ∧
  (∀ k2, k2 ≠ k → (SubHasSome a2 k2 ↔ SubHasSome a k2)) ∧
  (SubHasSome a2 k → (∃ x, v = some x) ∨ SubHasSome a k)

/-- Everything a successful terminal-tier insert of `(k, v)` guarantees about
the new tier state `la2` relative to the old state `la`. -/
def LastGood [DecidableEq K] (h1 h2 : K → Nat) (k : K) (v : Option V)
    (la la2 : LastSubArray K V) : Prop :=
  2 ≤ la2.b.length ∧ 2 ≤ la2.c.length ∧
  la2.bucketSize = la.bucketSize ∧ la2.size = la.size ∧
  (∀ bk ∈ la2.c, bk.length = la.bucketSize) ∧
  (∀ k2, k2 ≠ k → LastTierOk h1 h2 la k2 → LastTierOk h1 h2 la2 k2) ∧
  LastTierOk h1 h2 la2 k ∧
  LastSubArray.search h1 h2 k la2 = some v ∧
  (∀ k2, k2 ≠ k → LastTierOk h1 h2 la k2 →
    LastSubArray.search h1 h2 k2 la2 = LastSubArray.search h1 h2 k2 la) ∧
  (∀ k2, k2 ≠ k → (LastHasSome la2 k2 ↔ LastHasSome la k2)) ∧
  (LastHasSome la2 k → (∃ x, v = some x) ∨ LastHasSome la k)

/-- One returning insert that is not a successful insert of the avoided
key `k` (the key may be inserted, but only with a `False` return). -/
inductive StepAvoid [DecidableEq K] (h1 h2 : K → Nat) (k : K) :
    HashTable K V → HashTable K V → Prop
  | insert (k2 : K) (v : Option V) (r : Bool) {t t2 : HashTable K V}
      (h : HashTable.insert h1 h2 k2 v t = some (r, t2))
      (havoid : k2 = k → r = false) : StepAvoid h1 h2 k t t2

/-- Reachability by returning inserts none of which is a successful insert
of the avoided key. -/
inductive ReachAvoid [DecidableEq K] (h1 h2 : K → Nat) (k : K) :
    HashTable K V → HashTable K V → Prop
  | refl (t : HashTable K V) : ReachAvoid h1 h2 k t t
  | tail {t t2 t3 : HashTable K V} :
      ReachAvoid h1 h2 k t t2 → StepAvoid h1 h2 k t2 t3 →
      ReachAvoid h1 h2 k t t3

/-- State after `insert(0, 7)` on a capacity-5 table. -/
def c1T1 : HashTable Nat Nat :=
  ⟨5, 0, [], some ⟨5, 2, [some (0, some 7), none],
    [[none, none], [none, none]], 1⟩, 1⟩

/-- State after a further `insert(1, 9)`. -/
def c1T2 : HashTable Nat Nat :=
  ⟨5, 0, [], some ⟨5, 2, [some (0, some 7), some (1, some 9)],
    [[none, none], [none, none]], 2⟩, 2⟩

/-- State after `insert(0, None)` on a capacity-5 table. -/
def c2D1 : HashTable Nat Nat :=
  ⟨5, 0, [], some ⟨5, 2, [some (0, none), none],
    [[none, none], [none, none]], 1⟩, 1⟩

/-- State after repeating `insert(0, None)`: the existence check does not see
the `None`-valued copy, so the global count is incremented again. -/
def c2D2 : HashTable Nat Nat :=
  ⟨5, 0, [], some ⟨5, 2, [some (0, none), none],
    [[none, none], [none, none]], 1⟩, 2⟩

/-- State after `insert(0, 7)`; repeating the same insert leaves it fixed. -/
def c2W1 : HashTable Nat Nat :=
  ⟨5, 0, [], some ⟨5, 2, [some (0, some 7), none],
    [[none, none], [none, none]], 1⟩, 1⟩

/-- A concrete terminal tier used by the two-choice placement witness. -/
def twoChoiceTier : LastSubArray Nat Nat :=
  ⟨5, 2, [none, none], [[none, none], [none, none]], 0⟩

/-- The state after the witnessed two-choice placement. -/
def twoChoiceTier2 : LastSubArray Nat Nat :=
  ⟨5, 2, [none, none], [[some (0, some 5), none], [none, none]], 1⟩

/-! ## Basic facts about the probe functions -/

theorem pyMod_pos (a b : Nat) (hb : b ≠ 0) : pyMod a b = some (a % b) := by
  unfold pyMod
  rw [if_neg hb]

/-- The fuel-based logarithm agrees with `Nat.log2` once the fuel covers the
argument, so `natLog2` is the floor base-2 logarithm. -/
theorem log2Fuel_eq (fuel : Nat) : ∀ n : Nat, n ≤ fuel → log2Fuel fuel n = Nat.log2 n := by
  induction fuel with
  | zero =>
    intro n hn
    have : n = 0 := by omega
    subst this
    rw [Nat.log2, if_neg (by omega)]
    rfl
  | succ f ih =>
    intro n hn
    unfold log2Fuel
    conv_rhs => rw [Nat.log2]
    by_cases h2 : 2 ≤ n
    · rw [if_pos h2, ih (n / 2) (by omega), if_pos h2]
    · rw [if_neg h2, if_neg h2]

/-- `natLog2` is `Nat.log2`. -/
theorem natLog2_eq (n : Nat) : natLog2 n = Nat.log2 n :=
  log2Fuel_eq n n le_rfl

theorem subHash_eq_probeAt (h1 h2 : K → Nat) (s : Nat) (k : K) (i : Nat)
    (hs : 2 ≤ s) : subHash h1 h2 s k i = some (probeAt h1 h2 s k i) := by
  unfold subHash probeAt
  rw [pyMod_pos _ _ (by omega), pyMod_pos _ _ (by omega)]

theorem probeAt_lt (h1 h2 : K → Nat) (s : Nat) (k : K) (i : Nat) (hs : 0 < s) :
    probeAt h1 h2 s k i < s := Nat.mod_lt _ hs

theorem hashC_eq_bucketPair (h1 h2 : K → Nat) (nb : Nat) (k : K) (hnb : 2 ≤ nb) :
    hashC h1 h2 nb k = some (bucketPair h1 h2 nb k) := by
  unfold hashC bucketPair
  rw [pyMod_pos _ _ (by omega), pyMod_pos _ _ (by omega)]

theorem hashC_fst_lt (h1 h2 : K → Nat) (nb : Nat) (k : K) (b1 b2 : Nat)
    (hb : hashC h1 h2 nb k = some (b1, b2)) : b1 < nb ∧ b2 < nb ∧ 2 ≤ nb := by
  unfold hashC pyMod at hb
  by_cases h0 : nb = 0
  · rw [if_pos h0] at hb; cases hb
  · rw [if_neg h0] at hb
    by_cases h1' : nb - 1 = 0
    · rw [if_pos h1'] at hb; cases hb
    · rw [if_neg h1'] at hb
      simp only [Option.some.injEq, Prod.mk.injEq] at hb
      obtain ⟨hb1, hb2⟩ := hb
      refine ⟨?_, ?_, by omega⟩
      · rw [← hb1]; exact Nat.mod_lt _ (by omega)
      · rw [← hb2]; exact Nat.mod_lt _ (by omega)

/-! ## Claim theorems: probe sequence and two-choice hash -/

/-- C9.  Probe sequence: for every key, attempt index and capacity `s ≥ 2`,
`SubArray._hash` returns (without raising) exactly
`(hash1 k mod s + i * (1 + hash2 k mod (s-1))) mod s`.  The function is a
pure Lean function of `(h1, h2, s, k, i)`, and `SubArray.insert` and
`SubArray.search` both invoke this single definition, so insert and search
compute identical positions for the same key, attempt and capacity. -/
theorem probe_sequence_formula (h1 h2 : K → Nat) (s : Nat) (k : K) (i : Nat)
    (hs : 2 ≤ s) :
    subHash h1 h2 s k i = some ((h1 k % s + i * (1 + h2 k % (s - 1))) % s) :=
  subHash_eq_probeAt h1 h2 s k i hs

/-- Witness for C9 at capacity 5, key 3, attempt 2. -/
theorem probe_sequence_formula_witness :
    2 ≤ 5 ∧ subHash (fun n => n) (fun n => n + 1) 5 (3 : Nat) 2 = some 0 :=
  ⟨by decide, probe_sequence_formula (fun n => n) (fun n => n + 1) 5 3 2 (by decide)⟩

/-- C10.  Distinct two-choice candidates: whenever the bucketed region has at
least two buckets, the two candidate bucket indices produced by
`LastSubArray._hash_c` differ, because the second index is the first shifted
by `1 + (hash2 k mod (nb-1)) ∈ [1, nb-1]` modulo `nb`. -/
theorem two_choice_candidates_distinct (h1 h2 : K → Nat) (nb : Nat) (k : K)
    (hnb : 2 ≤ nb) (b1 b2 : Nat) (hb : hashC h1 h2 nb k = some (b1, b2)) :
    b1 ≠ b2 := by
  unfold hashC at hb
  rw [pyMod_pos _ _ (by omega), pyMod_pos _ _ (by omega)] at hb
  simp only [Option.some.injEq, Prod.mk.injEq] at hb
  obtain ⟨hb1, hb2⟩ := hb
  have ha : h1 k % nb < nb := Nat.mod_lt _ (by omega)
  have hd : h2 k % (nb - 1) < nb - 1 := Nat.mod_lt _ (by omega)
  intro heq
  rw [← hb1, ← hb2] at heq
  set x := h1 k % nb with hx
  set y := h2 k % (nb - 1) with hy
  rcases Nat.lt_or_ge (x + 1 + y) nb with hlt | hge
  · rw [Nat.mod_eq_of_lt hlt] at heq; omega
  · have hlt2 : x + 1 + y - nb < nb := by omega
    rw [Nat.mod_eq_sub_mod hge, Nat.mod_eq_of_lt hlt2] at heq
    omega

/-- Witness for C10 with two buckets. -/
theorem two_choice_candidates_distinct_witness : 2 ≤ 2 ∧ (0 : Nat) ≠ 1 :=
  ⟨by decide,
   two_choice_candidates_distinct (fun n => n) (fun n => n) 2 (0 : Nat)
     (by decide) 0 1 (by decide)⟩

/-! ## Claim theorems: construction -/

/-- C3 (code bug).  The constructor performs no validation: with
`initial_size = 1 < 2` (and `delta = 0.5`, hence `maxProbes = 0`), the
Python constructor silently returns a table object instead of raising an
explicit construction error.  This theorem evaluates the embedded
constructor at that failing input and exhibits the table object it
produces. -/
theorem construction_accepts_invalid_params :
    (mkTable 1 0 : HashTable Nat Nat) =
      { size := 1, maxProbes := 0, subarrays := [],
        last := some { size := 1, bucketSize := 2, b := [],
                       c := [[none, none]], count := 0 },
        count := 0 } := by
  decide

/-- C4 (code bug).  With the spec-accepted parameters
`initial_size = 2, delta = 0.1` (so `maxProbes = int(log2 10) = 3`), the
table contains a capacity-1 uniform tier, and every call of `search` or
`insert` raises `ZeroDivisionError` inside `SubArray._hash`
(`hash(str(key)) % (size - 1)` with `size = 1`), instead of returning an
ordinary value. -/
theorem operations_raise_on_spec_valid_params :
    HashTable.search (fun n => n) (fun n => n) 0
        (mkTable 2 3 : HashTable Nat Nat) = none ∧
      HashTable.insert (fun n => n) (fun n => n) 0 (some 7)
        (mkTable 2 3 : HashTable Nat Nat) = none := by
  decide

/-! ## Claim theorem: high-water refusal -/

/-- A table whose uniform tiers all answered `None` to a key takes the
not-found branch of the existence loop in `insert`. -/
theorem insertExisting_of_searchSubs_none [DecidableEq K] (h1 h2 : K → Nat)
    (k : K) (v : Option V) (mp : Nat) :
    ∀ l : List (SubArray K V), searchSubs h1 h2 k l = some none →
      insertExisting h1 h2 k v mp l = some none := by
  intro l
  induction l with
  | nil => intro _; rfl
  | cons a rest ih =>
    intro h
    unfold searchSubs at h
    unfold insertExisting
    cases hsa : SubArray.search h1 h2 k a with
    | none => rw [hsa] at h; cases h
    | some w =>
      rw [hsa] at h
      cases w with
      | some w0 => simp at h
      | none => rw [ih h]

/-- C6.  High-water refusal with atomicity: if the key is absent from every
tier (every per-tier search answers the Python `None`), the table is
nonempty and the load factor has reached `0.9` (`10·count ≥ 9·size`), then
`insert` returns `False` and the resulting state is exactly the input
state — no slot, count or load factor changes. -/
theorem highwater_insert_rejects_unchanged [DecidableEq K] (h1 h2 : K → Nat)
    (k : K) (v : Option V) (t : HashTable K V)
    (habs : HashTable.search h1 h2 k t = some none)
    (hsz : 0 < t.size) (hload : 9 * t.size ≤ 10 * t.count) :
    HashTable.insert h1 h2 k v t = some (false, t) := by
  unfold HashTable.search at habs
  unfold HashTable.insert
  cases hss : searchSubs h1 h2 k t.subarrays with
  | none => rw [hss] at habs; cases habs
  | some w =>
    rw [hss] at habs
    cases w with
    | some w0 => simp at habs
    | none =>
      rw [insertExisting_of_searchSubs_none h1 h2 k v t.maxProbes _ hss]
      cases hl : t.last with
      | none =>
        dsimp only
        unfold insertFresh
        rw [if_neg (by omega), if_pos (by omega)]
      | some la =>
        rw [hl] at habs
        simp only at habs
        dsimp only
        rw [habs]
        unfold insertFresh
        rw [if_neg (by omega), if_pos (by omega)]

/-- Witness for C6: a one-slot table with count 1 rejects a fresh key and is
returned unchanged. -/
theorem highwater_insert_rejects_unchanged_witness :
    HashTable.insert (fun n => n) (fun n => n) 0 none
        ({ size := 1, maxProbes := 0, subarrays := [], last := none,
           count := 1 } : HashTable Nat Nat) =
      some (false, { size := 1, maxProbes := 0, subarrays := [], last := none,
                     count := 1 }) :=
  highwater_insert_rejects_unchanged (fun n => n) (fun n => n) 0 none _
    (by decide) (by decide) (by decide)

/-! ## Structural preservation under insert -/

theorem updateScan_some_size [DecidableEq K] (h1 h2 : K → Nat) (k : K)
    (v : Option V) (a : SubArray K V) :
    ∀ fuel i a2, updateScan h1 h2 k v a i fuel = some (some a2) →
      a2.size = a.size := by
  intro fuel
  induction fuel with
  | zero => intro i a2 h; cases h
  | succ f ih =>
    intro i a2 h
    unfold updateScan at h
    cases hsh : subHash h1 h2 a.size k i with
    | none => simp [hsh] at h
    | some pos =>
      simp only [hsh] at h
      cases hg : a.table.getD pos none with
      | none => simp only [hg] at h; simp at h
      | some p =>
        obtain ⟨k2, w⟩ := p
        simp only [hg] at h
        by_cases hk : k2 = k
        · rw [if_pos hk] at h
          simp only [Option.some.injEq] at h
          subst h
          simp [SubArray.size]
        · rw [if_neg hk] at h
          exact ih (i + 1) a2 h

theorem placeScan_some_size [DecidableEq K] (h1 h2 : K → Nat) (k : K)
    (v : Option V) (a : SubArray K V) :
    ∀ fuel i a2, placeScan h1 h2 k v a i fuel = some (some a2) →
      a2.size = a.size := by
  intro fuel
  induction fuel with
  | zero => intro i a2 h; cases h
  | succ f ih =>
    intro i a2 h
    unfold placeScan at h
    cases hsh : subHash h1 h2 a.size k i with
    | none => simp [hsh] at h
    | some pos =>
      simp only [hsh] at h
      cases hg : a.table.getD pos none with
      | none =>
        simp only [hg, Option.some.injEq] at h
        subst h
        simp [SubArray.size]
      | some p =>
        simp only [hg] at h
        exact ih (i + 1) a2 h

theorem subInsert_size [DecidableEq K] (h1 h2 : K → Nat) (k : K) (v : Option V)
    (mp : Nat) (a : SubArray K V) (r : Bool) (a2 : SubArray K V)
    (h : SubArray.insert h1 h2 k v mp a = some (r, a2)) : a2.size = a.size := by
  unfold SubArray.insert at h
  cases hu : updateScan h1 h2 k v a 0 mp with
  | none => rw [hu] at h; cases h
  | some u =>
    cases u with
    | some a3 =>
      rw [hu] at h
      simp only [Option.some.injEq, Prod.mk.injEq] at h
      obtain ⟨-, rfl⟩ := h
      exact updateScan_some_size h1 h2 k v a mp 0 a3 hu
    | none =>
      rw [hu] at h
      simp only at h
      cases hp : placeScan h1 h2 k v a 0 mp with
      | none => rw [hp] at h; cases h
      | some u2 =>
        cases u2 with
        | some a3 =>
          rw [hp] at h
          simp only [Option.some.injEq, Prod.mk.injEq] at h
          obtain ⟨-, rfl⟩ := h
          exact placeScan_some_size h1 h2 k v a mp 0 a3 hp
        | none =>
          rw [hp] at h
          simp only [Option.some.injEq, Prod.mk.injEq] at h
          obtain ⟨-, rfl⟩ := h
          rfl

theorem insertExisting_sizes [DecidableEq K] (h1 h2 : K → Nat) (k : K)
    (v : Option V) (mp : Nat) :
    ∀ (l : List (SubArray K V)) (ok : Bool) (l2 : List (SubArray K V)),
      insertExisting h1 h2 k v mp l = some (some (ok, l2)) →
        l2.map SubArray.size = l.map SubArray.size := by
  intro l
  induction l with
  | nil => intro ok l2 h; cases h
  | cons a rest ih =>
    intro ok l2 h
    unfold insertExisting at h
    cases hs : SubArray.search h1 h2 k a with
    | none => simp [hs] at h
    | some w =>
      cases w with
      | some w0 =>
        simp only [hs] at h
        cases hins : SubArray.insert h1 h2 k v mp a with
        | none => simp [hins] at h
        | some p =>
          obtain ⟨r, a2⟩ := p
          simp only [hins, Option.some.injEq, Prod.mk.injEq] at h
          obtain ⟨rfl, rfl⟩ := h
          simp [subInsert_size _ _ _ _ _ _ _ _ hins]
      | none =>
        simp only [hs] at h
        cases hrec : insertExisting h1 h2 k v mp rest with
        | none => simp [hrec] at h
        | some u =>
          cases u with
          | none => simp [hrec] at h
          | some p =>
            obtain ⟨r, rest2⟩ := p
            simp only [hrec, Option.some.injEq, Prod.mk.injEq] at h
            obtain ⟨rfl, rfl⟩ := h
            simp [ih _ _ hrec]

theorem insertNew_sizes [DecidableEq K] (h1 h2 : K → Nat) (k : K)
    (v : Option V) (mp : Nat) :
    ∀ (l : List (SubArray K V)) (l2 : List (SubArray K V)),
      insertNew h1 h2 k v mp l = some (some l2) →
        l2.map SubArray.size = l.map SubArray.size := by
  intro l
  induction l with
  | nil => intro l2 h; cases h
  | cons a rest ih =>
    intro l2 h
    unfold insertNew at h
    cases hins : SubArray.insert h1 h2 k v mp a with
    | none => simp [hins] at h
    | some p =>
      obtain ⟨r, a2⟩ := p
      cases r with
      | true =>
        simp only [hins, Option.some.injEq] at h
        subst h
        simp [subInsert_size _ _ _ _ _ _ _ _ hins]
      | false =>
        simp only [hins] at h
        cases hrec : insertNew h1 h2 k v mp rest with
        | none => simp [hrec] at h
        | some u =>
          cases u with
          | none => simp [hrec] at h
          | some rest2 =>
            simp only [hrec, Option.some.injEq] at h
            subst h
            simp [subInsert_size _ _ _ _ _ _ _ _ hins, ih _ hrec]

theorem updateScanB_some_size [DecidableEq K] (h1 h2 : K → Nat) (k : K)
    (v : Option V) (la : LastSubArray K V) :
    ∀ fuel i la2, updateScanB h1 h2 k v la i fuel = some (some la2) →
      la2.size = la.size := by
  intro fuel
  induction fuel with
  | zero => intro i la2 h; cases h
  | succ f ih =>
    intro i la2 h
    unfold updateScanB at h
    cases hsh : subHash h1 h2 la.b.length k i with
    | none => simp [hsh] at h
    | some pos =>
      simp only [hsh] at h
      cases hg : la.b.getD pos none with
      | none =>
        simp only [hg] at h
        exact ih (i + 1) la2 h
      | some p =>
        obtain ⟨k2, w⟩ := p
        simp only [hg] at h
        by_cases hk : k2 = k
        · rw [if_pos hk] at h
          simp only [Option.some.injEq] at h
          subst h
          rfl
        · rw [if_neg hk] at h
          exact ih (i + 1) la2 h

theorem updateScanC_some_size [DecidableEq K] (h1 h2 : K → Nat) (k : K)
    (v : Option V) (la la2 : LastSubArray K V)
    (h : updateScanC h1 h2 k v la = some (some la2)) : la2.size = la.size := by
  unfold updateScanC at h
  cases hc : hashC h1 h2 la.c.length k with
  | none => simp [hc] at h
  | some p =>
    obtain ⟨b1, b2⟩ := p
    simp only [hc] at h
    cases hf1 : bucketFindIdx k (la.c.getD b1 []) with
    | some i =>
      simp only [hf1, Option.some.injEq] at h
      subst h
      rfl
    | none =>
      simp only [hf1] at h
      cases hf2 : bucketFindIdx k (la.c.getD b2 []) with
      | some i =>
        simp only [hf2, Option.some.injEq] at h
        subst h
        rfl
      | none => simp only [hf2] at h; simp at h

theorem placeScanB_some_size [DecidableEq K] (h1 h2 : K → Nat) (k : K)
    (v : Option V) (la : LastSubArray K V) :
    ∀ fuel i la2, placeScanB h1 h2 k v la i fuel = some (some la2) →
      la2.size = la.size := by
  intro fuel
  induction fuel with
  | zero => intro i la2 h; cases h
  | succ f ih =>
    intro i la2 h
    unfold placeScanB at h
    cases hsh : subHash h1 h2 la.b.length k i with
    | none => simp [hsh] at h
    | some pos =>
      simp only [hsh] at h
      cases hg : la.b.getD pos none with
      | none =>
        simp only [hg, Option.some.injEq] at h
        subst h
        rfl
      | some p =>
        simp only [hg] at h
        exact ih (i + 1) la2 h

theorem placeScanC_size [DecidableEq K] (h1 h2 : K → Nat) (k : K)
    (v : Option V) (la : LastSubArray K V) (r : Bool) (la2 : LastSubArray K V)
    (h : placeScanC h1 h2 k v la = some (r, la2)) : la2.size = la.size := by
  unfold placeScanC at h
  cases hc : hashC h1 h2 la.c.length k with
  | none => simp [hc] at h
  | some p =>
    obtain ⟨b1, b2⟩ := p
    simp only [hc] at h
    cases hfe : firstEmptyIn
        (if countEmpty (la.c.getD b1 []) ≥ countEmpty (la.c.getD b2 [])
         then la.c.getD b1 [] else la.c.getD b2 []) 0 la.bucketSize with
    | some i =>
      simp only [hfe, Option.some.injEq, Prod.mk.injEq] at h
      obtain ⟨-, rfl⟩ := h
      rfl
    | none =>
      simp only [hfe, Option.some.injEq, Prod.mk.injEq] at h
      obtain ⟨-, rfl⟩ := h
      rfl

theorem lastInsert_size [DecidableEq K] (h1 h2 : K → Nat) (k : K)
    (v : Option V) (la : LastSubArray K V) (r : Bool) (la2 : LastSubArray K V)
    (h : LastSubArray.insert h1 h2 k v la = some (r, la2)) :
    la2.size = la.size := by
  unfold LastSubArray.insert at h
  cases hu : updateScanB h1 h2 k v la 0 (maxAttemptsB la.size) with
  | none => simp [hu] at h
  | some u =>
    cases u with
    | some la3 =>
      simp only [hu, Option.some.injEq, Prod.mk.injEq] at h
      obtain ⟨-, rfl⟩ := h
      exact updateScanB_some_size h1 h2 k v la _ 0 la3 hu
    | none =>
      simp only [hu] at h
      cases hc : updateScanC h1 h2 k v la with
      | none => simp [hc] at h
      | some u2 =>
        cases u2 with
        | some la3 =>
          simp only [hc, Option.some.injEq, Prod.mk.injEq] at h
          obtain ⟨-, rfl⟩ := h
          exact updateScanC_some_size h1 h2 k v la la3 hc
        | none =>
          simp only [hc] at h
          cases hp : placeScanB h1 h2 k v la 0 (maxAttemptsB la.size) with
          | none => simp [hp] at h
          | some u3 =>
            cases u3 with
            | some la3 =>
              simp only [hp, Option.some.injEq, Prod.mk.injEq] at h
              obtain ⟨-, rfl⟩ := h
              exact placeScanB_some_size h1 h2 k v la _ 0 la3 hp
            | none =>
              simp only [hp] at h
              exact placeScanC_size h1 h2 k v la r la2 h

/-- Every returning `insert` preserves the table shape and either leaves the
global count unchanged or increments it under the load-factor guard. -/
theorem insert_shape [DecidableEq K] (h1 h2 : K → Nat) (k : K) (v : Option V)
    (t : HashTable K V) (r : Bool) (t2 : HashTable K V)
    (h : HashTable.insert h1 h2 k v t = some (r, t2)) :
    SameShape t t2 ∧
      (t2.count = t.count ∨
        (t2.count = t.count + 1 ∧ 10 * t.count < 9 * t.size ∧ 0 < t.size)) := by
  have hfresh : ∀ r2 t3, insertFresh h1 h2 k v t = some (r2, t3) →
      SameShape t t3 ∧
        (t3.count = t.count ∨
          (t3.count = t.count + 1 ∧ 10 * t.count < 9 * t.size ∧ 0 < t.size)) := by
    intro r2 t3 hf
    unfold insertFresh at hf
    by_cases hsz : t.size = 0
    · rw [if_pos hsz] at hf; cases hf
    · rw [if_neg hsz] at hf
      by_cases hld : 10 * t.count ≥ 9 * t.size
      · rw [if_pos hld] at hf
        simp only [Option.some.injEq, Prod.mk.injEq] at hf
        obtain ⟨-, rfl⟩ := hf
        exact ⟨⟨rfl, rfl, rfl, rfl⟩, Or.inl rfl⟩
      · rw [if_neg hld] at hf
        cases hn : insertNew h1 h2 k v t.maxProbes t.subarrays with
        | none => simp [hn] at hf
        | some u =>
          cases u with
          | some subs2 =>
            simp only [hn, Option.some.injEq, Prod.mk.injEq] at hf
            obtain ⟨-, rfl⟩ := hf
            refine ⟨⟨rfl, rfl, insertNew_sizes h1 h2 k v t.maxProbes _ _ hn, rfl⟩, ?_⟩
            exact Or.inr ⟨rfl, by omega, by omega⟩
          | none =>
            simp only [hn] at hf
            cases hl : t.last with
            | some la =>
              rw [hl] at hf
              simp only at hf
              cases hli : LastSubArray.insert h1 h2 k v la with
              | none => simp [hli] at hf
              | some p =>
                obtain ⟨rl, la2⟩ := p
                cases rl with
                | true =>
                  simp only [hli, Option.some.injEq, Prod.mk.injEq] at hf
                  obtain ⟨-, rfl⟩ := hf
                  refine ⟨⟨rfl, rfl, rfl, ?_⟩, Or.inr ⟨rfl, by omega, by omega⟩⟩
                  show (match some la2 with
                        | some la => la.size
                        | none => 0) =
                    t.lastCap
                  unfold HashTable.lastCap
                  rw [hl]
                  exact lastInsert_size h1 h2 k v la true la2 hli
                | false =>
                  simp only [hli, Option.some.injEq, Prod.mk.injEq] at hf
                  obtain ⟨-, rfl⟩ := hf
                  refine ⟨⟨rfl, rfl, rfl, ?_⟩, Or.inl rfl⟩
                  show (match some la2 with
                        | some la => la.size
                        | none => 0) =
                    t.lastCap
                  unfold HashTable.lastCap
                  rw [hl]
                  exact lastInsert_size h1 h2 k v la false la2 hli
            | none =>
              rw [hl] at hf
              simp only [Option.some.injEq, Prod.mk.injEq] at hf
              obtain ⟨-, rfl⟩ := hf
              exact ⟨⟨rfl, rfl, rfl, rfl⟩, Or.inl rfl⟩
  unfold HashTable.insert at h
  cases he : insertExisting h1 h2 k v t.maxProbes t.subarrays with
  | none => simp [he] at h
  | some u =>
    cases u with
    | some p =>
      obtain ⟨ok, subs2⟩ := p
      simp only [he, Option.some.injEq, Prod.mk.injEq] at h
      obtain ⟨-, rfl⟩ := h
      exact ⟨⟨rfl, rfl, insertExisting_sizes h1 h2 k v t.maxProbes _ ok _ he, rfl⟩,
        Or.inl rfl⟩
    | none =>
      simp only [he] at h
      cases hl : t.last with
      | some la =>
        rw [hl] at h
        simp only at h
        cases hls : LastSubArray.search h1 h2 k la with
        | none => simp [hls] at h
        | some w =>
          cases w with
          | some w0 =>
            simp only [hls] at h
            cases hli : LastSubArray.insert h1 h2 k v la with
            | none => simp [hli] at h
            | some p =>
              obtain ⟨rl, la2⟩ := p
              simp only [hli, Option.some.injEq, Prod.mk.injEq] at h
              obtain ⟨-, rfl⟩ := h
              refine ⟨⟨rfl, rfl, rfl, ?_⟩, Or.inl rfl⟩
              show (match some la2 with
                    | some la => la.size
                    | none => 0) =
                t.lastCap
              unfold HashTable.lastCap
              rw [hl]
              exact lastInsert_size h1 h2 k v la rl la2 hli
          | none =>
            simp only [hls] at h
            exact hfresh r t2 h
      | none =>
        rw [hl] at h
        simp only at h
        exact hfresh r t2 h

/-! ## Capacity conservation and the load-factor bound -/

theorem tierSizes_sum_le (fuel : Nat) : ∀ m, (tierSizes m fuel).sum ≤ 2 * m := by
  induction fuel with
  | zero => intro m; simp [tierSizes]
  | succ f ih =>
    intro m
    unfold tierSizes
    by_cases hm : m < 1
    · rw [if_pos hm]; simp
    · rw [if_neg hm]
      simp only [List.sum_cons]
      have := ih (m / 2)
      omega

theorem size_make (s : Nat) : (SubArray.make s : SubArray K V).size = s := by
  simp [SubArray.make, SubArray.size]

theorem totalCap_mkTable (n mp : Nat) :
    (mkTable n mp : HashTable K V).totalCap = n := by
  have hsum : (tierSizes (n / 2) (mp / 3)).sum ≤ n := by
    have := tierSizes_sum_le (mp / 3) (n / 2)
    omega
  show ((mkTable n mp : HashTable K V).subarrays.map SubArray.size).sum +
      (mkTable n mp : HashTable K V).lastCap = n
  unfold mkTable HashTable.lastCap
  simp only
  have hmap :
      (((tierSizes (n / 2) (mp / 3)).map
          (SubArray.make (K := K) (V := V))).map SubArray.size) =
        tierSizes (n / 2) (mp / 3) := by
    rw [List.map_map]
    simp [Function.comp_def, size_make]
  rw [hmap]
  by_cases hl : 0 < n - (tierSizes (n / 2) (mp / 3)).sum
  · rw [if_pos hl]
    show (tierSizes (n / 2) (mp / 3)).sum +
        (LastSubArray.make (K := K) (V := V)
          (n - (tierSizes (n / 2) (mp / 3)).sum)).size = n
    unfold LastSubArray.make
    simp only
    omega
  · rw [if_neg hl]
    simp only
    omega

theorem totalCap_eq_of_sameShape (t t2 : HashTable K V) (h : SameShape t t2) :
    t2.totalCap = t.totalCap := by
  obtain ⟨-, -, hsubs, hlast⟩ := h
  show (t2.subarrays.map SubArray.size).sum + t2.lastCap =
      (t.subarrays.map SubArray.size).sum + t.lastCap
  rw [hsubs, hlast]

/-- C8.  Capacity conservation: for every table reachable from a
construction, the sum of the declared capacities of the uniform tiers plus
the terminal tier (when present) equals the configured total capacity, at
all times. -/
theorem capacity_conservation [DecidableEq K] (h1 h2 : K → Nat) (n mp : Nat)
    (t : HashTable K V) (hr : Reach h1 h2 (mkTable n mp) t) :
    HashTable.totalCap t = n := by
  induction hr with
  | refl => exact totalCap_mkTable n mp
  | tail hr2 hs ih =>
    cases hs with
    | insert k v r h =>
      rw [totalCap_eq_of_sameShape _ _ (insert_shape _ _ _ _ _ _ _ h).1]
      exact ih

/-- Witness for C8: the fresh capacity-5 table conserves its capacity. -/
theorem capacity_conservation_witness :
    HashTable.totalCap (mkTable 5 0 : HashTable Nat Nat) = 5 :=
  capacity_conservation (fun n => n) (fun n => n) 5 0 _ (Reach.refl _)

/-- C5 (amended).  Load-factor bound: for every table reachable from a
construction, `count ≤ size` holds, hence the load factor never exceeds 1.
The strict bound `loadFactor < 1` of the original claim is refuted by
`loadfactor_reaches_one` below: the ratio can reach exactly 1. -/
theorem loadfactor_le_one [DecidableEq K] (h1 h2 : K → Nat) (n mp : Nat)
    (t : HashTable K V) (hr : Reach h1 h2 (mkTable n mp) t) :
    t.count ≤ t.size ∧ t.loadFactor ≤ 1 := by
  have hcs : t.count ≤ t.size := by
    induction hr with
    | refl => exact Nat.zero_le _
    | tail hr2 hs ih =>
      cases hs with
      | insert k v r h =>
        obtain ⟨⟨hsz, -, -, -⟩, hcount⟩ := insert_shape _ _ _ _ _ _ _ h
        rcases hcount with hc | ⟨hc, hlt, hpos⟩ <;> omega
  refine ⟨hcs, ?_⟩
  unfold HashTable.loadFactor
  rcases Nat.eq_zero_or_pos t.size with h0 | hpos
  · have hc0 : t.count = 0 := by omega
    rw [h0, hc0]
    norm_num
  · rw [div_le_one (by exact_mod_cast hpos)]
    exact_mod_cast hcs

/-- Witness for C5: the bound instantiated at the fresh capacity-5 table. -/
theorem loadfactor_le_one_witness :
    (mkTable 5 0 : HashTable Nat Nat).count ≤ (mkTable 5 0 : HashTable Nat Nat).size ∧
      (mkTable 5 0 : HashTable Nat Nat).loadFactor ≤ 1 :=
  loadfactor_le_one (fun n => n) (fun n => n) 5 0 _ (Reach.refl _)

/-- Counterexample to C5 as stated: a table constructed with
`initial_size = 5` and `delta ∈ (0.5, 1)` (`maxProbes = 0`) reaches, after
five successful inserts of distinct keys, a state whose load factor is
exactly 1, refuting the strict bound `totalCount / totalCapacity < 1`.  (The
guard only blocks inserts at `loadFactor ≥ 0.9`, and with 5 slots the jump
goes from 4/5 straight to 5/5.) -/
theorem loadfactor_reaches_one :
    Reach (fun n => n) (fun n => n) (mkTable 5 0 : HashTable Nat Nat) satT5 ∧
      ¬ satT5.loadFactor < 1 := by
  constructor
  · have s1 : Step (fun n => n) (fun n => n) (mkTable 5 0 : HashTable Nat Nat) satT1 :=
      Step.insert 0 (some 0) true (by decide)
    have s2 : Step (fun n => n) (fun n => n) satT1 satT2 :=
      Step.insert 1 (some 1) true (by decide)
    have s3 : Step (fun n => n) (fun n => n) satT2 satT3 :=
      Step.insert 2 (some 2) true (by decide)
    have s4 : Step (fun n => n) (fun n => n) satT3 satT4 :=
      Step.insert 3 (some 3) true (by decide)
    have s5 : Step (fun n => n) (fun n => n) satT4 satT5 :=
      Step.insert 4 (some 4) true (by decide)
    exact Reach.tail (Reach.tail (Reach.tail (Reach.tail
      (Reach.tail (Reach.refl _) s1) s2) s3) s4) s5
  · norm_num [HashTable.loadFactor, satT5]

/-! ## Bucket lemmas and the two-choice placement theorem -/

theorem getD_mem_of_lt {α : Type} (l : List α) (i : Nat) (d : α)
    (h : i < l.length) : l.getD i d ∈ l := by
  rw [List.getD_eq_getElem l d h]
  exact List.getElem_mem h

theorem countEmpty_eq_zero_of_full (bk : List (Slot K V))
    (h : ∀ m, m < bk.length → (bk.getD m none).isSome) : countEmpty bk = 0 := by
  induction bk with
  | nil => rfl
  | cons s rest ih =>
    cases s with
    | none =>
      have h0 := h 0 (by simp)
      simp [List.getD] at h0
    | some p =>
      show countEmpty rest = 0
      refine ih fun m hm => ?_
      have := h (m + 1) (by simp; omega)
      simpa [List.getD] using this

theorem firstEmptyIn_some (bk : List (Slot K V)) :
    ∀ fuel i j, firstEmptyIn bk i fuel = some j → bk.getD j none = none := by
  intro fuel
  induction fuel with
  | zero => intro i j h; cases h
  | succ f ih =>
    intro i j h
    unfold firstEmptyIn at h
    cases hg : bk.getD i none with
    | none =>
      simp only [hg] at h
      cases h
      exact hg
    | some p =>
      simp only [hg] at h
      exact ih (i + 1) j h

theorem firstEmptyIn_none (bk : List (Slot K V)) :
    ∀ fuel i, firstEmptyIn bk i fuel = none →
      ∀ m, i ≤ m → m < i + fuel → (bk.getD m none).isSome := by
  intro fuel
  induction fuel with
  | zero => intro i h m h1 h2; omega
  | succ f ih =>
    intro i h m h1 h2
    unfold firstEmptyIn at h
    cases hg : bk.getD i none with
    | none =>
      simp only [hg] at h
      cases h
    | some p =>
      simp only [hg] at h
      rcases Nat.eq_or_lt_of_le h1 with rfl | hlt
      · rw [hg]; rfl
      · exact ih (i + 1) h m hlt (by omega)

/-- C7.  Two-choice placement rule, read off `LastSubArray.insert`'s final
stage: when the first candidate bucket has at least as many empty slots as
the second (ties included), the entry goes into the first candidate and
failure happens exactly when both candidates are completely full; when the
second candidate has strictly more empty slots, the entry goes into the
second candidate.  On failure the tier state is returned unchanged. -/
theorem two_choice_placement [DecidableEq K] (h1 h2 : K → Nat) (k : K)
    (v : Option V) (la : LastSubArray K V) (r : Bool) (la2 : LastSubArray K V)
    (b1 b2 : Nat)
    (hwf : ∀ bk ∈ la.c, bk.length = la.bucketSize)
    (hb : hashC h1 h2 la.c.length k = some (b1, b2))
    (hp : placeScanC h1 h2 k v la = some (r, la2)) :
    (countEmpty (la.c.getD b2 []) ≤ countEmpty (la.c.getD b1 []) →
      (r = true →
        ∃ i, (la.c.getD b1 []).getD i none = none ∧
          la2 = { la with
                  c := la.c.set b1 ((la.c.getD b1 []).set i (some (k, v))),
                  count := la.count + 1 }) ∧
      (r = false → la2 = la ∧ countEmpty (la.c.getD b1 []) = 0 ∧
        countEmpty (la.c.getD b2 []) = 0)) ∧
    (countEmpty (la.c.getD b1 []) < countEmpty (la.c.getD b2 []) →
      (r = true →
        ∃ i, (la.c.getD b2 []).getD i none = none ∧
          la2 = { la with
                  c := la.c.set b2 ((la.c.getD b2 []).set i (some (k, v))),
                  count := la.count + 1 }) ∧
      (r = false → la2 = la ∧ countEmpty (la.c.getD b2 []) = 0 ∧
        countEmpty (la.c.getD b1 []) = 0)) := by
  obtain ⟨hb1lt, hb2lt, hnb⟩ := hashC_fst_lt h1 h2 la.c.length k b1 b2 hb
  have hlen1 : (la.c.getD b1 []).length = la.bucketSize :=
    hwf _ (getD_mem_of_lt la.c b1 [] hb1lt)
  have hlen2 : (la.c.getD b2 []).length = la.bucketSize :=
    hwf _ (getD_mem_of_lt la.c b2 [] hb2lt)
  unfold placeScanC at hp
  rw [hb] at hp
  simp only at hp
  constructor
  · intro hle
    have hge : countEmpty (la.c.getD b1 []) ≥ countEmpty (la.c.getD b2 []) := hle
    simp only [if_pos hge] at hp
    cases hfe : firstEmptyIn (la.c.getD b1 []) 0 la.bucketSize with
    | some i =>
      simp only [hfe] at hp
      obtain ⟨hr, hla⟩ := Prod.mk.injEq .. ▸ Option.some.injEq .. ▸ hp
      constructor
      · intro _
        exact ⟨i, firstEmptyIn_some _ _ _ _ hfe, hla.symm⟩
      · intro hfalse; rw [← hr] at hfalse; cases hfalse
    | none =>
      simp only [hfe] at hp
      obtain ⟨hr, hla⟩ := Prod.mk.injEq .. ▸ Option.some.injEq .. ▸ hp
      have hfull : countEmpty (la.c.getD b1 []) = 0 := by
        refine countEmpty_eq_zero_of_full _ fun m hm => ?_
        exact firstEmptyIn_none _ _ _ hfe m (Nat.zero_le m) (by omega)
      constructor
      · intro htrue; rw [← hr] at htrue; cases htrue
      · intro _; exact ⟨hla.symm, hfull, by omega⟩
  · intro hlt
    have hnge : ¬ countEmpty (la.c.getD b1 []) ≥ countEmpty (la.c.getD b2 []) :=
      not_le.mpr hlt
    simp only [if_neg hnge] at hp
    cases hfe : firstEmptyIn (la.c.getD b2 []) 0 la.bucketSize with
    | some i =>
      simp only [hfe] at hp
      obtain ⟨hr, hla⟩ := Prod.mk.injEq .. ▸ Option.some.injEq .. ▸ hp
      constructor
      · intro _
        exact ⟨i, firstEmptyIn_some _ _ _ _ hfe, hla.symm⟩
      · intro hfalse; rw [← hr] at hfalse; cases hfalse
    | none =>
      simp only [hfe] at hp
      obtain ⟨hr, hla⟩ := Prod.mk.injEq .. ▸ Option.some.injEq .. ▸ hp
      have hfull : countEmpty (la.c.getD b2 []) = 0 := by
        refine countEmpty_eq_zero_of_full _ fun m hm => ?_
        exact firstEmptyIn_none _ _ _ hfe m (Nat.zero_le m) (by omega)
      constructor
      · intro htrue; rw [← hr] at htrue; cases htrue
      · intro _; exact ⟨hla.symm, hfull, by omega⟩

/-! ## Per-key placement invariants -/

/-! ## List and probe-cycle lemmas -/

theorem getD_set_self {α : Type} (l : List α) (p : Nat) (x d : α)
    (h : p < l.length) : (l.set p x).getD p d = x := by
  rw [List.getD_eq_getElem _ d (by simpa using h)]
  simp [List.getElem_set_self]

theorem getD_set_ne {α : Type} (l : List α) (p q : Nat) (x d : α)
    (h : p ≠ q) : (l.set p x).getD q d = l.getD q d := by
  simp [List.getD, List.getElem?_set_ne h]

theorem getD_replicate_none (s i : Nat) :
    (List.replicate s (none : Slot K V)).getD i none = none := by
  rcases Nat.lt_or_ge i s with h | h
  · rw [List.getD_eq_getElem _ _ (by simpa using h)]
    simp
  · exact List.getD_eq_default _ _ (by simpa using h)

theorem keyAbsent_replicate (s : Nat) (k : K) :
    KeyAbsent (List.replicate s (none : Slot K V)) k := by
  intro pos hpos w
  rw [getD_replicate_none]
  exact fun h => Option.noConfusion h

/-- Occupying one slot with the inserted key preserves the placement facts
of every other key: the "without reordering" discipline in slot terms.  The
touched slot is either empty or already holds the inserted key. -/
theorem keyAtProbe_preserved [DecidableEq K] (h1 h2 : K → Nat) (mp : Nat)
    (tb : List (Slot K V)) (k k2 : K) (v : Option V) (p i : Nat)
    (w : Option V) (hp : p < tb.length)
    (hold : tb.getD p none = none ∨ ∃ w0, tb.getD p none = some (k, w0))
    (hne : k2 ≠ k) (h : KeyAtProbe h1 h2 mp tb k2 i w) :
    KeyAtProbe h1 h2 mp (tb.set p (some (k, v))) k2 i w := by
  obtain ⟨hlen, himp, hat, hpre, huniq⟩ := h
  have hlen2 : (tb.set p (some (k, v))).length = tb.length := by
    simp
  have hpos_ne : probeAt h1 h2 tb.length k2 i ≠ p := by
    intro heq
    rw [← heq] at hold
    rcases hold with h0 | ⟨w0, h0⟩
    · rw [h0] at hat; cases hat
    · rw [h0] at hat
      simp only [Option.some.injEq, Prod.mk.injEq] at hat
      exact hne hat.1.symm
  refine ⟨by omega, himp, ?_, ?_, ?_⟩
  · rw [hlen2, getD_set_ne _ _ _ _ _ (fun he => hpos_ne he.symm)]
    exact hat
  · intro j hj
    obtain ⟨k3, w3, hslot, hk3⟩ := hpre j hj
    rw [hlen2]
    by_cases hpj : probeAt h1 h2 tb.length k2 j = p
    · refine ⟨k, v, ?_, fun he => hne he.symm⟩
      rw [hpj]
      exact getD_set_self _ _ _ _ hp
    · refine ⟨k3, w3, ?_, hk3⟩
      rw [getD_set_ne _ _ _ _ _ (fun he => hpj he.symm)]
      exact hslot
  · intro pos hpos w2 hslot
    rw [hlen2] at hpos
    rw [hlen2]
    by_cases hpq : pos = p
    · subst hpq
      rw [getD_set_self _ _ _ _ hp] at hslot
      simp only [Option.some.injEq, Prod.mk.injEq] at hslot
      exact absurd hslot.1.symm hne
    · rw [getD_set_ne _ _ _ _ _ (fun he => hpq he.symm)] at hslot
      exact huniq pos hpos w2 hslot

/-- Same preservation statement for absence of another key. -/
theorem keyAbsent_preserved [DecidableEq K] (tb : List (Slot K V)) (k k2 : K)
    (v : Option V) (p : Nat) (hne : k2 ≠ k) (h : KeyAbsent tb k2) :
    KeyAbsent (tb.set p (some (k, v))) k2 := by
  intro pos hpos w
  simp only [List.length_set] at hpos
  by_cases hpq : pos = p
  · subst hpq
    rw [getD_set_self _ _ _ _ hpos]
    intro hc
    simp only [Option.some.injEq, Prod.mk.injEq] at hc
    exact hne hc.1.symm
  · rw [getD_set_ne _ _ _ _ _ (fun he => hpq he.symm)]
    exact h pos hpos w

/-- Probe-cycle bound: the probe sequence is periodic with period at most
the capacity, so the first empty slot along it (with everything before it
occupied) appears within the first `capacity` attempts. -/
theorem probe_cycle (h1 h2 : K → Nat) (s : Nat) (k : K) (hs : 2 ≤ s)
    (e : Nat) (tb : List (Slot K V))
    (hocc : ∀ j, j < e → tb.getD (probeAt h1 h2 s k j) none ≠ none)
    (hemp : tb.getD (probeAt h1 h2 s k e) none = none) : e < s := by
  by_contra hcon
  push_neg at hcon
  set d := 1 + h2 k % (s - 1) with hd
  set g := Nat.gcd d s with hg
  have hd1 : 1 ≤ d := by omega
  have hg1 : 1 ≤ g := Nat.gcd_pos_of_pos_left s (by omega)
  have hgs : g ∣ s := Nat.gcd_dvd_right d s
  have hgd : g ∣ d := Nat.gcd_dvd_left d s
  set L := s / g with hL
  have hL1 : 1 ≤ L := Nat.div_pos (Nat.le_of_dvd (by omega) hgs) (by omega)
  have hLs : L ≤ s := Nat.div_le_self s g
  have hdvd : s ∣ L * d := by
    obtain ⟨c, hc⟩ := hgd
    refine ⟨c, ?_⟩
    rw [hL, hc, ← Nat.mul_assoc, Nat.div_mul_cancel hgs]
  have hLe : L ≤ e := le_trans hLs hcon
  have hsame : probeAt h1 h2 s k (e - L) = probeAt h1 h2 s k e := by
    unfold probeAt
    obtain ⟨q, hq⟩ := hdvd
    have h1' : (e - L) * d = e * d - s * q := by
      rw [Nat.sub_mul, hq]
    have h2' : s * q ≤ e * d := by
      rw [← hq]
      exact Nat.mul_le_mul_right d hLe
    rw [h1']
    have h3' : h1 k % s + (e * d - s * q) = h1 k % s + e * d - s * q := by omega
    rw [h3']
    conv_rhs => rw [show h1 k % s + e * d = h1 k % s + e * d - s * q + s * q by
      omega]
    rw [Nat.add_mul_mod_self_left]
  exact hocc (e - L) (by omega) (hsame ▸ hemp)

/-! ## Uniform-tier scan characterizations -/

theorem searchScan_absent [DecidableEq K] (h1 h2 : K → Nat) (k : K)
    (a : SubArray K V) (hs : 2 ≤ a.size) (habs : KeyAbsent a.table k) :
    ∀ fuel i, searchScan h1 h2 k a i fuel = some none := by
  intro fuel
  induction fuel with
  | zero => intro i; rfl
  | succ f ih =>
    intro i
    unfold searchScan
    simp only [subHash_eq_probeAt h1 h2 a.size k i hs]
    cases hg : a.table.getD (probeAt h1 h2 a.size k i) none with
    | none => simp only [hg]
    | some p =>
      obtain ⟨k2, w⟩ := p
      simp only [hg]
      have hk2 : ¬ k2 = k := by
        intro heq
        exact habs _ (probeAt_lt h1 h2 a.size k i (by omega)) w (heq ▸ hg)
      rw [if_neg hk2]
      exact ih (i + 1)

theorem searchScan_found [DecidableEq K] (h1 h2 : K → Nat) (k : K)
    (a : SubArray K V) (hs : 2 ≤ a.size) (i0 : Nat) (w : Option V)
    (hat : a.table.getD (probeAt h1 h2 a.size k i0) none = some (k, w))
    (hpre : ∀ j, j < i0 → ∃ k2 w2,
      a.table.getD (probeAt h1 h2 a.size k j) none = some (k2, w2) ∧ k2 ≠ k) :
    ∀ fuel i, i ≤ i0 → i0 - i < fuel → searchScan h1 h2 k a i fuel = some w := by
  intro fuel
  induction fuel with
  | zero => intro i hi hif; omega
  | succ f ih =>
    intro i hi hif
    unfold searchScan
    simp only [subHash_eq_probeAt h1 h2 a.size k i hs]
    rcases Nat.eq_or_lt_of_le hi with rfl | hlt
    · simp only [hat]
      simp
    · obtain ⟨k2, w2, hslot, hk2⟩ := hpre i hlt
      simp only [hslot]
      rw [if_neg hk2]
      exact ih (i + 1) (by omega) (by omega)

theorem subSearch_absent [DecidableEq K] (h1 h2 : K → Nat) (k : K)
    (a : SubArray K V) (hs : 2 ≤ a.size) (habs : KeyAbsent a.table k) :
    SubArray.search h1 h2 k a = some none :=
  searchScan_absent h1 h2 k a hs habs a.size 0

theorem subSearch_found [DecidableEq K] (h1 h2 : K → Nat) (k : K) (mp : Nat)
    (a : SubArray K V) (i : Nat) (w : Option V)
    (hk : KeyAtProbe h1 h2 mp a.table k i w) (hi : i < a.size) :
    SubArray.search h1 h2 k a = some w := by
  obtain ⟨hlen, -, hat, hpre, -⟩ := hk
  exact searchScan_found h1 h2 k a hlen i w hat hpre a.size 0 (Nat.zero_le i)
    (by omega)

theorem updateScan_absent [DecidableEq K] (h1 h2 : K → Nat) (k : K)
    (v : Option V) (a : SubArray K V) (hs : 2 ≤ a.size)
    (habs : KeyAbsent a.table k) :
    ∀ fuel i, updateScan h1 h2 k v a i fuel = some none := by
  intro fuel
  induction fuel with
  | zero => intro i; rfl
  | succ f ih =>
    intro i
    unfold updateScan
    simp only [subHash_eq_probeAt h1 h2 a.size k i hs]
    cases hg : a.table.getD (probeAt h1 h2 a.size k i) none with
    | none => simp only [hg]
    | some p =>
      obtain ⟨k2, w⟩ := p
      simp only [hg]
      have hk2 : ¬ k2 = k := by
        intro heq
        exact habs _ (probeAt_lt h1 h2 a.size k i (by omega)) w (heq ▸ hg)
      rw [if_neg hk2]
      exact ih (i + 1)

theorem updateScan_found [DecidableEq K] (h1 h2 : K → Nat) (k : K)
    (v : Option V) (a : SubArray K V) (hs : 2 ≤ a.size) (i0 : Nat)
    (w : Option V)
    (hat : a.table.getD (probeAt h1 h2 a.size k i0) none = some (k, w))
    (hpre : ∀ j, j < i0 → ∃ k2 w2,
      a.table.getD (probeAt h1 h2 a.size k j) none = some (k2, w2) ∧ k2 ≠ k) :
    ∀ fuel i, i ≤ i0 → i0 - i < fuel →
      updateScan h1 h2 k v a i fuel =
        some (some ⟨a.table.set (probeAt h1 h2 a.size k i0) (some (k, v)),
          a.count⟩) := by
  intro fuel
  induction fuel with
  | zero => intro i hi hif; omega
  | succ f ih =>
    intro i hi hif
    unfold updateScan
    simp only [subHash_eq_probeAt h1 h2 a.size k i hs]
    rcases Nat.eq_or_lt_of_le hi with rfl | hlt
    · simp only [hat]
      simp
    · obtain ⟨k2, w2, hslot, hk2⟩ := hpre i hlt
      simp only [hslot]
      rw [if_neg hk2]
      exact ih (i + 1) (by omega) (by omega)

theorem placeScan_char [DecidableEq K] (h1 h2 : K → Nat) (k : K) (v : Option V)
    (a : SubArray K V) (hs : 2 ≤ a.size) :
    ∀ fuel i res, placeScan h1 h2 k v a i fuel = some res →
      (res = none ∧ ∀ j, i ≤ j → j < i + fuel →
        a.table.getD (probeAt h1 h2 a.size k j) none ≠ none) ∨
      (∃ e, i ≤ e ∧ e < i + fuel ∧
        (∀ j, i ≤ j → j < e →
          a.table.getD (probeAt h1 h2 a.size k j) none ≠ none) ∧
        a.table.getD (probeAt h1 h2 a.size k e) none = none ∧
        res = some ⟨a.table.set (probeAt h1 h2 a.size k e) (some (k, v)),
          a.count + 1⟩) := by
  intro fuel
  induction fuel with
  | zero =>
    intro i res h
    cases h
    exact Or.inl ⟨rfl, fun j h1' h2' => by omega⟩
  | succ f ih =>
    intro i res h
    unfold placeScan at h
    simp only [subHash_eq_probeAt h1 h2 a.size k i hs] at h
    cases hg : a.table.getD (probeAt h1 h2 a.size k i) none with
    | none =>
      simp only [hg, Option.some.injEq] at h
      subst h
      exact Or.inr ⟨i, le_rfl, by omega, fun j h1' h2' => by omega, hg, rfl⟩
    | some p =>
      simp only [hg] at h
      rcases ih (i + 1) res h with ⟨hres, hocc⟩ | ⟨e, he1, he2, hocc, hemp, hres⟩
      · refine Or.inl ⟨hres, fun j h1' h2' => ?_⟩
        rcases Nat.eq_or_lt_of_le h1' with rfl | hlt
        · rw [hg]; exact fun hc => Option.noConfusion hc
        · exact hocc j hlt (by omega)
      · refine Or.inr ⟨e, by omega, by omega, fun j h1' h2' => ?_, hemp, hres⟩
        rcases Nat.eq_or_lt_of_le h1' with rfl | hlt
        · rw [hg]; exact fun hc => Option.noConfusion hc
        · exact hocc j hlt h2'

/-- Building the placement fact for a freshly placed key. -/
theorem keyAtProbe_after_place [DecidableEq K] (h1 h2 : K → Nat) (mp : Nat)
    (tb : List (Slot K V)) (k : K) (v : Option V) (e : Nat)
    (hs : 2 ≤ tb.length) (habs : KeyAbsent tb k) (he : e < mp)
    (hemp : tb.getD (probeAt h1 h2 tb.length k e) none = none)
    (hocc : ∀ j, j < e → tb.getD (probeAt h1 h2 tb.length k j) none ≠ none) :
    KeyAtProbe h1 h2 mp (tb.set (probeAt h1 h2 tb.length k e) (some (k, v)))
      k e v := by
  have hplt : probeAt h1 h2 tb.length k e < tb.length :=
    probeAt_lt h1 h2 tb.length k e (by omega)
  have hlen : (tb.set (probeAt h1 h2 tb.length k e) (some (k, v))).length =
      tb.length := by simp
  refine ⟨by omega, he, ?_, ?_, ?_⟩
  · rw [hlen]
    exact getD_set_self _ _ _ _ hplt
  · intro j hj
    rw [hlen]
    have hne : probeAt h1 h2 tb.length k j ≠ probeAt h1 h2 tb.length k e := by
      intro heq
      exact hocc j hj (heq ▸ hemp)
    rw [getD_set_ne _ _ _ _ _ (fun hx => hne hx.symm)]
    cases hg : tb.getD (probeAt h1 h2 tb.length k j) none with
    | none => exact absurd hg (hocc j hj)
    | some p =>
      obtain ⟨k2, w2⟩ := p
      refine ⟨k2, w2, rfl, ?_⟩
      intro heq
      exact habs _ (probeAt_lt h1 h2 tb.length k j (by omega)) w2 (heq ▸ hg)
  · intro pos hpos w2 hslot
    rw [hlen] at hpos
    rw [hlen]
    by_cases hpq : pos = probeAt h1 h2 tb.length k e
    · exact hpq
    · rw [getD_set_ne _ _ _ _ _ (fun hx => hpq hx.symm)] at hslot
      exact absurd hslot (habs pos hpos w2)

/-- Updating the key value in place keeps the placement fact (with the new
value). -/
theorem keyAtProbe_after_update [DecidableEq K] (h1 h2 : K → Nat) (mp : Nat)
    (tb : List (Slot K V)) (k : K) (i : Nat) (w v : Option V)
    (h : KeyAtProbe h1 h2 mp tb k i w) :
    KeyAtProbe h1 h2 mp (tb.set (probeAt h1 h2 tb.length k i) (some (k, v)))
      k i v := by
  obtain ⟨hlen, himp, hat, hpre, huniq⟩ := h
  have hplt : probeAt h1 h2 tb.length k i < tb.length :=
    probeAt_lt h1 h2 tb.length k i (by omega)
  have hlen2 : (tb.set (probeAt h1 h2 tb.length k i) (some (k, v))).length =
      tb.length := by simp
  refine ⟨by omega, himp, ?_, ?_, ?_⟩
  · rw [hlen2]
    exact getD_set_self _ _ _ _ hplt
  · intro j hj
    rw [hlen2]
    obtain ⟨k2, w2, hslot, hk2⟩ := hpre j hj
    by_cases hpq : probeAt h1 h2 tb.length k j = probeAt h1 h2 tb.length k i
    · rw [hpq, getD_set_self _ _ _ _ hplt]
      rw [hpq] at hslot
      rw [hat] at hslot
      simp only [Option.some.injEq, Prod.mk.injEq] at hslot
      exact absurd hslot.1.symm hk2
    · rw [getD_set_ne _ _ _ _ _ (fun hx => hpq hx.symm)]
      exact ⟨k2, w2, hslot, hk2⟩
  · intro pos hpos w2 hslot
    rw [hlen2] at hpos
    rw [hlen2]
    by_cases hpq : pos = probeAt h1 h2 tb.length k i
    · exact hpq
    · rw [getD_set_ne _ _ _ _ _ (fun hx => hpq hx.symm)] at hslot
      exact huniq pos hpos w2 hslot

/-- `SubArray.insert` when the key is present at probe attempt `i`: phase 1
finds it and overwrites the value in place. -/
theorem subInsert_update [DecidableEq K] (h1 h2 : K → Nat) (k : K)
    (v : Option V) (mp : Nat) (a : SubArray K V) (i : Nat) (w : Option V)
    (hk : KeyAtProbe h1 h2 mp a.table k i w) :
    SubArray.insert h1 h2 k v mp a =
      some (true, ⟨a.table.set (probeAt h1 h2 a.size k i) (some (k, v)),
        a.count⟩) := by
  obtain ⟨hlen, himp, hat, hpre, -⟩ := hk
  unfold SubArray.insert
  rw [updateScan_found h1 h2 k v a hlen i w hat hpre mp 0 (Nat.zero_le i)
    (by omega)]

/-- `SubArray.insert` when the key is absent: phase 1 falls through, phase 2
either places the key at the first empty probed slot or reports failure with
the tier unchanged. -/
theorem subInsert_fresh [DecidableEq K] (h1 h2 : K → Nat) (k : K)
    (v : Option V) (mp : Nat) (a : SubArray K V) (hs : 2 ≤ a.size)
    (habs : KeyAbsent a.table k) (r : Bool) (a2 : SubArray K V)
    (h : SubArray.insert h1 h2 k v mp a = some (r, a2)) :
    (r = false ∧ a2 = a) ∨
    (r = true ∧ ∃ e, e < mp ∧ e < a.size ∧
      a.table.getD (probeAt h1 h2 a.size k e) none = none ∧
      a2.table = a.table.set (probeAt h1 h2 a.size k e) (some (k, v)) ∧
      a2.count = a.count + 1 ∧
      KeyAtProbe h1 h2 mp a2.table k e v) := by
  unfold SubArray.insert at h
  rw [updateScan_absent h1 h2 k v a hs habs mp 0] at h
  simp only at h
  cases hp : placeScan h1 h2 k v a 0 mp with
  | none => rw [hp] at h; cases h
  | some res =>
    rw [hp] at h
    cases res with
    | none =>
      simp only [Option.some.injEq, Prod.mk.injEq] at h
      obtain ⟨hr, ha⟩ := h
      exact Or.inl ⟨hr.symm, ha.symm⟩
    | some a3 =>
      simp only [Option.some.injEq, Prod.mk.injEq] at h
      obtain ⟨hr, ha⟩ := h
      subst ha
      rcases placeScan_char h1 h2 k v a hs mp 0 (some a3) hp with
        ⟨hc, -⟩ | ⟨e, -, he2, hocc, hemp, hres⟩
      · cases hc
      · simp only [Option.some.injEq] at hres
        refine Or.inr ⟨hr.symm, e, by omega, ?_, hemp, ?_, ?_, ?_⟩
        · exact probe_cycle h1 h2 a.size k hs e a.table
            (fun j hj => hocc j (Nat.zero_le j) hj) hemp
        · rw [hres]
        · rw [hres]
        · rw [hres]
          exact keyAtProbe_after_place h1 h2 mp a.table k v e hs habs
            (by omega) hemp (fun j hj => hocc j (Nat.zero_le j) hj)

/-! ## Terminal-tier part-B scan characterizations -/

theorem getD_cons_succ2 {α : Type} (a : α) (l : List α) (i : Nat) (d : α) :
    (a :: l).getD (i + 1) d = l.getD i d := by
  simp [List.getD]

theorem getD_cons_zero2 {α : Type} (a : α) (l : List α) (d : α) :
    (a :: l).getD 0 d = a := rfl

theorem keyAbsent_cons (s : Slot K V) (rest : List (Slot K V)) (k : K)
    (h : KeyAbsent (s :: rest) k) :
    KeyAbsent rest k ∧ ∀ w, s ≠ some (k, w) := by
  constructor
  · intro pos hpos w
    have := h (pos + 1) (by simp; omega) w
    rwa [getD_cons_succ2] at this
  · intro w
    exact h 0 (by simp) w

theorem searchScanB_absent [DecidableEq K] (h1 h2 : K → Nat) (k : K)
    (la : LastSubArray K V) (hs : 2 ≤ la.b.length) (habs : KeyAbsent la.b k) :
    ∀ fuel i, searchScanB h1 h2 k la i fuel = some none := by
  intro fuel
  induction fuel with
  | zero => intro i; rfl
  | succ f ih =>
    intro i
    unfold searchScanB
    simp only [subHash_eq_probeAt h1 h2 la.b.length k i hs]
    cases hg : la.b.getD (probeAt h1 h2 la.b.length k i) none with
    | none => simp only [hg]
    | some p =>
      obtain ⟨k2, w⟩ := p
      simp only [hg]
      have hk2 : ¬ k2 = k := by
        intro heq
        exact habs _ (probeAt_lt h1 h2 la.b.length k i (by omega)) w (heq ▸ hg)
      rw [if_neg hk2]
      exact ih (i + 1)

theorem searchScanB_found [DecidableEq K] (h1 h2 : K → Nat) (k : K)
    (la : LastSubArray K V) (hs : 2 ≤ la.b.length) (i0 : Nat) (w : Option V)
    (hat : la.b.getD (probeAt h1 h2 la.b.length k i0) none = some (k, w))
    (hpre : ∀ j, j < i0 → ∃ k2 w2,
      la.b.getD (probeAt h1 h2 la.b.length k j) none = some (k2, w2) ∧ k2 ≠ k) :
    ∀ fuel i, i ≤ i0 → i0 - i < fuel →
      searchScanB h1 h2 k la i fuel = some (some w) := by
  intro fuel
  induction fuel with
  | zero => intro i hi hif; omega
  | succ f ih =>
    intro i hi hif
    unfold searchScanB
    simp only [subHash_eq_probeAt h1 h2 la.b.length k i hs]
    rcases Nat.eq_or_lt_of_le hi with rfl | hlt
    · simp only [hat]
      simp
    · obtain ⟨k2, w2, hslot, hk2⟩ := hpre i hlt
      simp only [hslot]
      rw [if_neg hk2]
      exact ih (i + 1) (by omega) (by omega)

theorem updateScanB_absent [DecidableEq K] (h1 h2 : K → Nat) (k : K)
    (v : Option V) (la : LastSubArray K V) (hs : 2 ≤ la.b.length)
    (habs : KeyAbsent la.b k) :
    ∀ fuel i, updateScanB h1 h2 k v la i fuel = some none := by
  intro fuel
  induction fuel with
  | zero => intro i; rfl
  | succ f ih =>
    intro i
    unfold updateScanB
    simp only [subHash_eq_probeAt h1 h2 la.b.length k i hs]
    cases hg : la.b.getD (probeAt h1 h2 la.b.length k i) none with
    | none =>
      simp only [hg]
      exact ih (i + 1)
    | some p =>
      obtain ⟨k2, w⟩ := p
      simp only [hg]
      have hk2 : ¬ k2 = k := by
        intro heq
        exact habs _ (probeAt_lt h1 h2 la.b.length k i (by omega)) w (heq ▸ hg)
      rw [if_neg hk2]
      exact ih (i + 1)

theorem updateScanB_found [DecidableEq K] (h1 h2 : K → Nat) (k : K)
    (v : Option V) (la : LastSubArray K V) (hs : 2 ≤ la.b.length) (i0 : Nat)
    (w : Option V)
    (hat : la.b.getD (probeAt h1 h2 la.b.length k i0) none = some (k, w))
    (hpre : ∀ j, j < i0 → ∃ k2 w2,
      la.b.getD (probeAt h1 h2 la.b.length k j) none = some (k2, w2) ∧ k2 ≠ k) :
    ∀ fuel i, i ≤ i0 → i0 - i < fuel →
      updateScanB h1 h2 k v la i fuel =
        some (some { la with
          b := la.b.set (probeAt h1 h2 la.b.length k i0) (some (k, v)) }) := by
  intro fuel
  induction fuel with
  | zero => intro i hi hif; omega
  | succ f ih =>
    intro i hi hif
    unfold updateScanB
    simp only [subHash_eq_probeAt h1 h2 la.b.length k i hs]
    rcases Nat.eq_or_lt_of_le hi with rfl | hlt
    · simp only [hat]
      simp
    · obtain ⟨k2, w2, hslot, hk2⟩ := hpre i hlt
      simp only [hslot]
      rw [if_neg hk2]
      exact ih (i + 1) (by omega) (by omega)

theorem placeScanB_char [DecidableEq K] (h1 h2 : K → Nat) (k : K)
    (v : Option V) (la : LastSubArray K V) (hs : 2 ≤ la.b.length) :
    ∀ fuel i res, placeScanB h1 h2 k v la i fuel = some res →
      (res = none ∧ ∀ j, i ≤ j → j < i + fuel →
        la.b.getD (probeAt h1 h2 la.b.length k j) none ≠ none) ∨
      (∃ e, i ≤ e ∧ e < i + fuel ∧
        (∀ j, i ≤ j → j < e →
          la.b.getD (probeAt h1 h2 la.b.length k j) none ≠ none) ∧
        la.b.getD (probeAt h1 h2 la.b.length k e) none = none ∧
        res = some { la with
          b := la.b.set (probeAt h1 h2 la.b.length k e) (some (k, v)),
          count := la.count + 1 }) := by
  intro fuel
  induction fuel with
  | zero =>
    intro i res h
    cases h
    exact Or.inl ⟨rfl, fun j h1' h2' => by omega⟩
  | succ f ih =>
    intro i res h
    unfold placeScanB at h
    simp only [subHash_eq_probeAt h1 h2 la.b.length k i hs] at h
    cases hg : la.b.getD (probeAt h1 h2 la.b.length k i) none with
    | none =>
      simp only [hg, Option.some.injEq] at h
      subst h
      exact Or.inr ⟨i, le_rfl, by omega, fun j h1' h2' => by omega, hg, rfl⟩
    | some p =>
      simp only [hg] at h
      rcases ih (i + 1) res h with ⟨hres, hocc⟩ | ⟨e, he1, he2, hocc, hemp, hres⟩
      · refine Or.inl ⟨hres, fun j h1' h2' => ?_⟩
        rcases Nat.eq_or_lt_of_le h1' with rfl | hlt
        · rw [hg]; exact fun hc => Option.noConfusion hc
        · exact hocc j hlt (by omega)
      · refine Or.inr ⟨e, by omega, by omega, fun j h1' h2' => ?_, hemp, hres⟩
        rcases Nat.eq_or_lt_of_le h1' with rfl | hlt
        · rw [hg]; exact fun hc => Option.noConfusion hc
        · exact hocc j hlt h2'

/-! ## Bucket scan characterizations -/

theorem findKeyIdxFrom_absent [DecidableEq K] (k : K) :
    ∀ (bucket : List (Slot K V)) (i : Nat), KeyAbsent bucket k →
      findKeyIdxFrom k bucket i = none := by
  intro bucket
  induction bucket with
  | nil => intro i _; rfl
  | cons s rest ih =>
    intro i habs
    obtain ⟨hrest, hhead⟩ := keyAbsent_cons s rest k habs
    cases s with
    | none => exact ih (i + 1) hrest
    | some p =>
      obtain ⟨k2, w⟩ := p
      unfold findKeyIdxFrom
      rw [if_neg ?_]
      · exact ih (i + 1) hrest
      · intro heq
        exact hhead w (by rw [heq])

theorem findKeyIdxFrom_found [DecidableEq K] (k : K) :
    ∀ (bucket : List (Slot K V)) (i j : Nat) (w : Option V),
      j < bucket.length → bucket.getD j none = some (k, w) →
      (∀ j2 w2, j2 < bucket.length → bucket.getD j2 none = some (k, w2) →
        j2 = j) →
      findKeyIdxFrom k bucket i = some (i + j) := by
  intro bucket
  induction bucket with
  | nil => intro i j w hj _ _; simp at hj
  | cons s rest ih =>
    intro i j w hj hat huniq
    cases j with
    | zero =>
      rw [getD_cons_zero2] at hat
      subst hat
      unfold findKeyIdxFrom
      rw [if_pos rfl]
      simp
    | succ j0 =>
      rw [getD_cons_succ2] at hat
      have hstep : findKeyIdxFrom k rest (i + 1) = some (i + 1 + j0) := by
        refine ih (i + 1) j0 w (by simp at hj; omega) hat ?_
        intro j2 w2 hj2 hat2
        have := huniq (j2 + 1) w2 (by simp; omega) (by rwa [getD_cons_succ2])
        omega
      cases s with
      | none =>
        show findKeyIdxFrom k rest (i + 1) = some (i + j0 + 1)
        rw [hstep]
        congr 1
        omega
      | some p =>
        obtain ⟨k2, w2⟩ := p
        unfold findKeyIdxFrom
        rw [if_neg ?_]
        · rw [hstep]
          congr 1
          omega
        · intro heq
          have := huniq 0 w2 (by simp) (by rw [getD_cons_zero2, heq])
          omega

theorem bucketLookup_absent [DecidableEq K] (k : K) :
    ∀ bucket : List (Slot K V), KeyAbsent bucket k →
      bucketLookup k bucket = none := by
  intro bucket
  induction bucket with
  | nil => intro _; rfl
  | cons s rest ih =>
    intro habs
    obtain ⟨hrest, hhead⟩ := keyAbsent_cons s rest k habs
    cases s with
    | none => exact ih hrest
    | some p =>
      obtain ⟨k2, w⟩ := p
      unfold bucketLookup
      rw [if_neg ?_]
      · exact ih hrest
      · intro heq
        exact hhead w (by rw [heq])

theorem bucketLookup_found [DecidableEq K] (k : K) :
    ∀ (bucket : List (Slot K V)) (j : Nat) (w : Option V),
      j < bucket.length → bucket.getD j none = some (k, w) →
      (∀ j2 w2, j2 < bucket.length → bucket.getD j2 none = some (k, w2) →
        j2 = j) →
      bucketLookup k bucket = some w := by
  intro bucket
  induction bucket with
  | nil => intro j w hj _ _; simp at hj
  | cons s rest ih =>
    intro j w hj hat huniq
    cases j with
    | zero =>
      rw [getD_cons_zero2] at hat
      subst hat
      unfold bucketLookup
      rw [if_pos rfl]
    | succ j0 =>
      rw [getD_cons_succ2] at hat
      have hstep : bucketLookup k rest = some w := by
        refine ih j0 w (by simp at hj; omega) hat ?_
        intro j2 w2 hj2 hat2
        have := huniq (j2 + 1) w2 (by simp; omega) (by rwa [getD_cons_succ2])
        omega
      cases s with
      | none => exact hstep
      | some p =>
        obtain ⟨k2, w2⟩ := p
        unfold bucketLookup
        rw [if_neg ?_]
        · exact hstep
        · intro heq
          have := huniq 0 w2 (by simp) (by rw [getD_cons_zero2, heq])
          omega

theorem firstEmptyIn_some_bound (bk : List (Slot K V)) :
    ∀ fuel i j, firstEmptyIn bk i fuel = some j → i ≤ j ∧ j < i + fuel := by
  intro fuel
  induction fuel with
  | zero => intro i j h; cases h
  | succ f ih =>
    intro i j h
    unfold firstEmptyIn at h
    cases hg : bk.getD i none with
    | none =>
      simp only [hg] at h
      cases h
      omega
    | some p =>
      simp only [hg] at h
      have := ih (i + 1) j h
      omega

/-! ## Terminal-tier search and insert characterizations -/

theorem bucketPair_lt (h1 h2 : K → Nat) (nb : Nat) (k : K) (hnb : 2 ≤ nb) :
    (bucketPair h1 h2 nb k).1 < nb ∧ (bucketPair h1 h2 nb k).2 < nb :=
  ⟨Nat.mod_lt _ (by omega), Nat.mod_lt _ (by omega)⟩

theorem bucketPair_ne (h1 h2 : K → Nat) (nb : Nat) (k : K) (hnb : 2 ≤ nb) :
    (bucketPair h1 h2 nb k).1 ≠ (bucketPair h1 h2 nb k).2 := by
  unfold bucketPair
  simp only
  have ha : h1 k % nb < nb := Nat.mod_lt _ (by omega)
  have hd : h2 k % (nb - 1) < nb - 1 := Nat.mod_lt _ (by omega)
  intro heq
  set x := h1 k % nb with hx
  set y := h2 k % (nb - 1) with hy
  rcases Nat.lt_or_ge (x + 1 + y) nb with hlt | hge
  · rw [Nat.mod_eq_of_lt hlt] at heq; omega
  · have hlt2 : x + 1 + y - nb < nb := by omega
    rw [Nat.mod_eq_sub_mod hge, Nat.mod_eq_of_lt hlt2] at heq
    omega

/-- `LastSubArray.search` when the key is absent from the whole tier. -/
theorem lastSearch_absent [DecidableEq K] (h1 h2 : K → Nat) (k : K)
    (la : LastSubArray K V) (hb : 2 ≤ la.b.length) (hc : 2 ≤ la.c.length)
    (habsB : KeyAbsent la.b k)
    (habsC : ∀ bi, bi < la.c.length → KeyAbsent (la.c.getD bi []) k) :
    LastSubArray.search h1 h2 k la = some none := by
  unfold LastSubArray.search
  rw [searchScanB_absent h1 h2 k la hb habsB _ 0]
  simp only
  rw [hashC_eq_bucketPair h1 h2 la.c.length k hc]
  simp only
  obtain ⟨hb1, hb2⟩ := bucketPair_lt h1 h2 la.c.length k hc
  rw [bucketLookup_absent k _ (habsC _ hb1)]
  rw [bucketLookup_absent k _ (habsC _ hb2)]

/-- `LastSubArray.search` when the key sits in the uniform part B. -/
theorem lastSearch_foundB [DecidableEq K] (h1 h2 : K → Nat) (k : K)
    (la : LastSubArray K V) (i : Nat) (w : Option V)
    (hk : KeyAtProbe h1 h2 (maxAttemptsB la.size) la.b k i w) :
    LastSubArray.search h1 h2 k la = some w := by
  obtain ⟨hlen, himp, hat, hpre, -⟩ := hk
  unfold LastSubArray.search
  rw [searchScanB_found h1 h2 k la hlen i w hat hpre _ 0 (Nat.zero_le i)
    (by omega)]

/-- `LastSubArray.search` when the key sits in a candidate bucket. -/
theorem lastSearch_foundC [DecidableEq K] (h1 h2 : K → Nat) (k : K)
    (la : LastSubArray K V) (hb : 2 ≤ la.b.length) (hc : 2 ≤ la.c.length)
    (habsB : KeyAbsent la.b k) (bi j : Nat) (w : Option V)
    (hbi : bi = (bucketPair h1 h2 la.c.length k).1 ∨
      bi = (bucketPair h1 h2 la.c.length k).2)
    (hj : j < (la.c.getD bi []).length)
    (hat : (la.c.getD bi []).getD j none = some (k, w))
    (huniq : ∀ bi2 j2 w2, bi2 < la.c.length →
      j2 < (la.c.getD bi2 []).length →
      (la.c.getD bi2 []).getD j2 none = some (k, w2) → bi2 = bi ∧ j2 = j) :
    LastSubArray.search h1 h2 k la = some w := by
  unfold LastSubArray.search
  rw [searchScanB_absent h1 h2 k la hb habsB _ 0]
  simp only
  rw [hashC_eq_bucketPair h1 h2 la.c.length k hc]
  simp only
  obtain ⟨hb1, hb2⟩ := bucketPair_lt h1 h2 la.c.length k hc
  have hone : ∀ bi2, bi2 < la.c.length → bi2 ≠ bi →
      KeyAbsent (la.c.getD bi2 []) k := by
    intro bi2 hbi2 hne pos hpos w2 hslot
    exact hne (huniq bi2 pos w2 hbi2 hpos hslot).1
  rcases hbi with hbi | hbi
  · rw [← hbi]
    rw [bucketLookup_found k _ j w hj hat
      (fun j2 w2 hj2 hat2 => (huniq bi j2 w2 (hbi ▸ hb1) hj2 hat2).2)]
  · have hneq : (bucketPair h1 h2 la.c.length k).1 ≠ bi := by
      rw [hbi]
      exact bucketPair_ne h1 h2 la.c.length k hc
    rw [bucketLookup_absent k _ (hone _ hb1 hneq)]
    rw [← hbi]
    rw [bucketLookup_found k _ j w hj hat
      (fun j2 w2 hj2 hat2 => (huniq bi j2 w2 (hbi ▸ hb2) hj2 hat2).2)]

theorem updateScanC_absent [DecidableEq K] (h1 h2 : K → Nat) (k : K)
    (v : Option V) (la : LastSubArray K V) (hc : 2 ≤ la.c.length)
    (habsC : ∀ bi, bi < la.c.length → KeyAbsent (la.c.getD bi []) k) :
    updateScanC h1 h2 k v la = some none := by
  unfold updateScanC
  rw [hashC_eq_bucketPair h1 h2 la.c.length k hc]
  simp only
  obtain ⟨hb1, hb2⟩ := bucketPair_lt h1 h2 la.c.length k hc
  unfold bucketFindIdx
  rw [findKeyIdxFrom_absent k _ 0 (habsC _ hb1)]
  rw [findKeyIdxFrom_absent k _ 0 (habsC _ hb2)]

theorem updateScanC_found [DecidableEq K] (h1 h2 : K → Nat) (k : K)
    (v : Option V) (la : LastSubArray K V) (hc : 2 ≤ la.c.length)
    (bi j : Nat) (w : Option V)
    (hbi : bi = (bucketPair h1 h2 la.c.length k).1 ∨
      bi = (bucketPair h1 h2 la.c.length k).2)
    (hj : j < (la.c.getD bi []).length)
    (hat : (la.c.getD bi []).getD j none = some (k, w))
    (huniq : ∀ bi2 j2 w2, bi2 < la.c.length →
      j2 < (la.c.getD bi2 []).length →
      (la.c.getD bi2 []).getD j2 none = some (k, w2) → bi2 = bi ∧ j2 = j) :
    updateScanC h1 h2 k v la =
      some (some { la with
        c := la.c.set bi ((la.c.getD bi []).set j (some (k, v))) }) := by
  unfold updateScanC
  rw [hashC_eq_bucketPair h1 h2 la.c.length k hc]
  simp only
  obtain ⟨hb1, hb2⟩ := bucketPair_lt h1 h2 la.c.length k hc
  have hbilt : bi < la.c.length := by
    rcases hbi with h | h
    · rw [h]; exact hb1
    · rw [h]; exact hb2
  have hfind : bucketFindIdx k (la.c.getD bi []) = some j := by
    unfold bucketFindIdx
    have := findKeyIdxFrom_found k (la.c.getD bi []) 0 j w hj hat
      (fun j2 w2 hj2 hat2 => (huniq bi j2 w2 hbilt hj2 hat2).2)
    simpa using this
  rcases hbi with hbi | hbi
  · subst hbi
    rw [hfind]
  · have hneq : (bucketPair h1 h2 la.c.length k).1 ≠ bi := by
      rw [hbi]
      exact bucketPair_ne h1 h2 la.c.length k hc
    have habs1 : KeyAbsent (la.c.getD (bucketPair h1 h2 la.c.length k).1 []) k := by
      intro pos hpos w2 hslot
      exact hneq (huniq _ pos w2 hb1 hpos hslot).1
    subst hbi
    unfold bucketFindIdx
    rw [findKeyIdxFrom_absent k _ 0 habs1]
    unfold bucketFindIdx at hfind
    rw [hfind]

/-- `LastSubArray.insert` when the key sits in part B: the update scan
overwrites it in place. -/
theorem lastInsert_updateB [DecidableEq K] (h1 h2 : K → Nat) (k : K)
    (v : Option V) (la : LastSubArray K V) (i : Nat) (w : Option V)
    (hk : KeyAtProbe h1 h2 (maxAttemptsB la.size) la.b k i w) :
    LastSubArray.insert h1 h2 k v la =
      some (true, { la with
        b := la.b.set (probeAt h1 h2 la.b.length k i) (some (k, v)) }) := by
  obtain ⟨hlen, himp, hat, hpre, -⟩ := hk
  unfold LastSubArray.insert
  rw [updateScanB_found h1 h2 k v la hlen i w hat hpre _ 0 (Nat.zero_le i)
    (by omega)]

/-- `LastSubArray.insert` when the key sits in a candidate bucket: the
bucket scan overwrites it in place. -/
theorem lastInsert_updateC [DecidableEq K] (h1 h2 : K → Nat) (k : K)
    (v : Option V) (la : LastSubArray K V) (hb : 2 ≤ la.b.length)
    (hc : 2 ≤ la.c.length) (habsB : KeyAbsent la.b k) (bi j : Nat)
    (w : Option V)
    (hbi : bi = (bucketPair h1 h2 la.c.length k).1 ∨
      bi = (bucketPair h1 h2 la.c.length k).2)
    (hj : j < (la.c.getD bi []).length)
    (hat : (la.c.getD bi []).getD j none = some (k, w))
    (huniq : ∀ bi2 j2 w2, bi2 < la.c.length →
      j2 < (la.c.getD bi2 []).length →
      (la.c.getD bi2 []).getD j2 none = some (k, w2) → bi2 = bi ∧ j2 = j) :
    LastSubArray.insert h1 h2 k v la =
      some (true, { la with
        c := la.c.set bi ((la.c.getD bi []).set j (some (k, v))) }) := by
  unfold LastSubArray.insert
  rw [updateScanB_absent h1 h2 k v la hb habsB _ 0]
  simp only
  rw [updateScanC_found h1 h2 k v la hc bi j w hbi hj hat huniq]

/-- `LastSubArray.insert` when the key is absent from the whole terminal
tier: either a placement into part B, a two-choice placement into a
candidate bucket, or failure with the tier unchanged. -/
theorem lastInsert_fresh [DecidableEq K] (h1 h2 : K → Nat) (k : K)
    (v : Option V) (la : LastSubArray K V) (hb : 2 ≤ la.b.length)
    (hc : 2 ≤ la.c.length)
    (hwf : ∀ bk ∈ la.c, bk.length = la.bucketSize)
    (habsB : KeyAbsent la.b k)
    (habsC : ∀ bi, bi < la.c.length → KeyAbsent (la.c.getD bi []) k)
    (r : Bool) (la2 : LastSubArray K V)
    (h : LastSubArray.insert h1 h2 k v la = some (r, la2)) :
    (r = false ∧ la2 = la) ∨
    (r = true ∧ ∃ e, e < maxAttemptsB la.size ∧
      la.b.getD (probeAt h1 h2 la.b.length k e) none = none ∧
      la2 = { la with
        b := la.b.set (probeAt h1 h2 la.b.length k e) (some (k, v)),
        count := la.count + 1 } ∧
      KeyAtProbe h1 h2 (maxAttemptsB la.size) la2.b k e v) ∨
    (r = true ∧ ∃ bi j,
      (bi = (bucketPair h1 h2 la.c.length k).1 ∨
        bi = (bucketPair h1 h2 la.c.length k).2) ∧
      j < (la.c.getD bi []).length ∧
      (la.c.getD bi []).getD j none = none ∧
      la2 = { la with
        c := la.c.set bi ((la.c.getD bi []).set j (some (k, v))),
        count := la.count + 1 }) := by
  unfold LastSubArray.insert at h
  rw [updateScanB_absent h1 h2 k v la hb habsB _ 0] at h
  simp only at h
  rw [updateScanC_absent h1 h2 k v la hc habsC] at h
  simp only at h
  cases hp : placeScanB h1 h2 k v la 0 (maxAttemptsB la.size) with
  | none => rw [hp] at h; cases h
  | some res =>
    rw [hp] at h
    cases res with
    | some la3 =>
      simp only [Option.some.injEq, Prod.mk.injEq] at h
      obtain ⟨hr, hla⟩ := h
      subst hla
      rcases placeScanB_char h1 h2 k v la hb _ 0 (some la3) hp with
        ⟨hcon, -⟩ | ⟨e, -, he2, hocc, hemp, hres⟩
      · cases hcon
      · simp only [Option.some.injEq] at hres
        refine Or.inr (Or.inl ⟨hr.symm, e, by omega, hemp, hres, ?_⟩)
        rw [hres]
        simp only
        exact keyAtProbe_after_place h1 h2 (maxAttemptsB la.size) la.b k v e hb
          habsB (by omega) hemp (fun j hj => hocc j (Nat.zero_le j) hj)
    | none =>
      simp only at h
      unfold placeScanC at h
      rw [hashC_eq_bucketPair h1 h2 la.c.length k hc] at h
      simp only at h
      obtain ⟨hb1, hb2⟩ := bucketPair_lt h1 h2 la.c.length k hc
      set p1 := (bucketPair h1 h2 la.c.length k).1 with hp1
      set p2 := (bucketPair h1 h2 la.c.length k).2 with hp2
      by_cases hge : countEmpty (la.c.getD p1 []) ≥ countEmpty (la.c.getD p2 [])
      · rw [if_pos hge, if_pos hge] at h
        cases hfe : firstEmptyIn (la.c.getD p1 []) 0 la.bucketSize with
        | some i =>
          rw [hfe] at h
          simp only [Option.some.injEq, Prod.mk.injEq] at h
          obtain ⟨hr, hla⟩ := h
          refine Or.inr (Or.inr ⟨hr.symm, p1, i, Or.inl rfl, ?_, ?_, hla.symm⟩)
          · obtain ⟨-, hib⟩ := firstEmptyIn_some_bound _ _ 0 i hfe
            rw [hwf _ (getD_mem_of_lt la.c p1 [] hb1)]
            omega
          · exact firstEmptyIn_some _ _ 0 i hfe
        | none =>
          rw [hfe] at h
          simp only [Option.some.injEq, Prod.mk.injEq] at h
          obtain ⟨hr, hla⟩ := h
          exact Or.inl ⟨hr.symm, hla.symm⟩
      · rw [if_neg hge, if_neg hge] at h
        cases hfe : firstEmptyIn (la.c.getD p2 []) 0 la.bucketSize with
        | some i =>
          rw [hfe] at h
          simp only [Option.some.injEq, Prod.mk.injEq] at h
          obtain ⟨hr, hla⟩ := h
          refine Or.inr (Or.inr ⟨hr.symm, p2, i, Or.inr rfl, ?_, ?_, hla.symm⟩)
          · obtain ⟨-, hib⟩ := firstEmptyIn_some_bound _ _ 0 i hfe
            rw [hwf _ (getD_mem_of_lt la.c p2 [] hb2)]
            omega
          · exact firstEmptyIn_some _ _ 0 i hfe
        | none =>
          rw [hfe] at h
          simp only [Option.some.injEq, Prod.mk.injEq] at h
          obtain ⟨hr, hla⟩ := h
          exact Or.inl ⟨hr.symm, hla.symm⟩

/-! ## Preservation of per-key invariants under single-slot writes -/

theorem subTierOk_preserved [DecidableEq K] (h1 h2 : K → Nat) (mp : Nat)
    (a a2 : SubArray K V) (k k2 : K) (v : Option V) (p : Nat)
    (hset : a2.table = a.table.set p (some (k, v))) (hp : p < a.table.length)
    (hold : a.table.getD p none = none ∨
      ∃ w0, a.table.getD p none = some (k, w0))
    (hne : k2 ≠ k) (h : SubTierOk h1 h2 mp a k2) : SubTierOk h1 h2 mp a2 k2 := by
  have hsz : a2.size = a.size := by
    show a2.table.length = a.table.length
    rw [hset]
    simp
  rcases h with habs | ⟨i, w, hk, hi⟩
  · left
    rw [hset]
    exact keyAbsent_preserved _ _ _ _ _ hne habs
  · right
    refine ⟨i, w, ?_, by omega⟩
    rw [hset]
    exact keyAtProbe_preserved h1 h2 mp _ k k2 v p i w hp hold hne hk

theorem lastTierOk_setB [DecidableEq K] (h1 h2 : K → Nat)
    (la : LastSubArray K V) (k k2 : K) (v : Option V) (p : Nat) (cnt : Nat)
    (hp : p < la.b.length)
    (hold : la.b.getD p none = none ∨ ∃ w0, la.b.getD p none = some (k, w0))
    (hne : k2 ≠ k) (h : LastTierOk h1 h2 la k2) :
    LastTierOk h1 h2
      { la with b := la.b.set p (some (k, v)), count := cnt } k2 := by
  rcases h with ⟨habsB, habsC⟩ | ⟨i, w, hk, habsC⟩ | ⟨habsB, hC⟩
  · exact Or.inl ⟨keyAbsent_preserved _ _ _ _ _ hne habsB, habsC⟩
  · exact Or.inr (Or.inl ⟨i, w,
      keyAtProbe_preserved h1 h2 _ _ k k2 v p i w hp hold hne hk, habsC⟩)
  · exact Or.inr (Or.inr ⟨keyAbsent_preserved _ _ _ _ _ hne habsB, hC⟩)

theorem lastTierOk_setC [DecidableEq K] (h1 h2 : K → Nat)
    (la : LastSubArray K V) (k k2 : K) (v : Option V) (bi j : Nat) (cnt : Nat)
    (hc : 2 ≤ la.c.length)
    (hbi : bi < la.c.length) (hj : j < (la.c.getD bi []).length)
    (hold : (la.c.getD bi []).getD j none = none ∨
      ∃ w0, (la.c.getD bi []).getD j none = some (k, w0))
    (hne : k2 ≠ k) (h : LastTierOk h1 h2 la k2) :
    LastTierOk h1 h2
      { la with c := la.c.set bi ((la.c.getD bi []).set j (some (k, v))),
                count := cnt } k2 := by
  set bk2 := (la.c.getD bi []).set j (some (k, v)) with hbk2
  have hclen : (la.c.set bi bk2).length = la.c.length := by simp
  have hgetD : ∀ bi2, bi2 < la.c.length →
      (la.c.set bi bk2).getD bi2 [] =
        if bi2 = bi then bk2 else la.c.getD bi2 [] := by
    intro bi2 hbi2
    by_cases hx : bi2 = bi
    · rw [if_pos hx, hx]
      exact getD_set_self _ _ _ _ hbi
    · rw [if_neg hx]
      exact getD_set_ne _ _ _ _ _ (fun he => hx he.symm)
  have habs2 : ∀ bi2, bi2 < la.c.length → KeyAbsent (la.c.getD bi2 []) k2 →
      KeyAbsent ((la.c.set bi bk2).getD bi2 []) k2 := by
    intro bi2 hbi2 habs
    rw [hgetD bi2 hbi2]
    by_cases hx : bi2 = bi
    · rw [if_pos hx, hbk2]
      rw [hx] at habs
      exact keyAbsent_preserved _ _ _ _ _ hne habs
    · rw [if_neg hx]
      exact habs
  rcases h with ⟨habsB, habsC⟩ | ⟨i, w, hk, habsC⟩ |
    ⟨habsB, bi0, j0, w0, hbip, hj0, hat0, huniq0⟩
  · refine Or.inl ⟨habsB, ?_⟩
    intro bi2 hbi2
    rw [hclen] at hbi2
    exact habs2 bi2 hbi2 (habsC bi2 hbi2)
  · refine Or.inr (Or.inl ⟨i, w, hk, ?_⟩)
    intro bi2 hbi2
    rw [hclen] at hbi2
    exact habs2 bi2 hbi2 (habsC bi2 hbi2)
  · have hbi0lt : bi0 < la.c.length := by
      obtain ⟨hl1, hl2⟩ := bucketPair_lt h1 h2 la.c.length k2 hc
      rcases hbip with hx | hx
      · rw [hx]; exact hl1
      · rw [hx]; exact hl2
    refine Or.inr (Or.inr ⟨habsB, bi0, j0, w0, ?_, ?_, ?_, ?_⟩)
    · rw [hclen]
      exact hbip
    · rw [hgetD bi0 hbi0lt]
      by_cases hx : bi0 = bi
      · rw [if_pos hx, hbk2]
        rw [hx] at hj0
        simpa using hj0
      · rw [if_neg hx]
        exact hj0
    · rw [hgetD bi0 hbi0lt]
      by_cases hx : bi0 = bi
      · rw [if_pos hx, hbk2]
        rw [hx] at hj0 hat0
        have hjne : j ≠ j0 := by
          intro he
          rw [he] at hold
          rcases hold with h0 | ⟨w1, h0⟩
          · rw [h0] at hat0; cases hat0
          · rw [h0] at hat0
            simp only [Option.some.injEq, Prod.mk.injEq] at hat0
            exact hne hat0.1.symm
        rw [getD_set_ne _ _ _ _ _ hjne]
        exact hat0
      · rw [if_neg hx]
        exact hat0
    · intro bi2 j2 w2 hbi2 hj2 hat2
      rw [hclen] at hbi2
      rw [hgetD bi2 hbi2] at hj2 hat2
      by_cases hx : bi2 = bi
      · rw [if_pos hx, hbk2] at hj2 hat2
        have hj2' : j2 < (la.c.getD bi []).length := by simpa using hj2
        by_cases hxy : j2 = j
        · rw [hxy] at hat2
          rw [getD_set_self _ _ _ _ hj] at hat2
          simp only [Option.some.injEq, Prod.mk.injEq] at hat2
          exact absurd hat2.1.symm hne
        · rw [getD_set_ne _ _ _ _ _ (fun he => hxy he.symm)] at hat2
          refine huniq0 bi2 j2 w2 hbi2 ?_ ?_
          · rw [hx]; exact hj2'
          · rw [hx]; exact hat2
      · rw [if_neg hx] at hj2 hat2
        exact huniq0 bi2 j2 w2 hbi2 hj2 hat2

/-! ## Visible copies: transfer lemmas -/

theorem subHasSome_iff [DecidableEq K] (a a2 : SubArray K V) (k k2 : K)
    (v : Option V) (p : Nat) (hset : a2.table = a.table.set p (some (k, v)))
    (hp : p < a.table.length)
    (hold : a.table.getD p none = none ∨
      ∃ w0, a.table.getD p none = some (k, w0))
    (hne : k2 ≠ k) : (SubHasSome a2 k2 ↔ SubHasSome a k2) := by
  constructor
  · rintro ⟨pos, w, hpos, hslot⟩
    rw [hset] at hpos hslot
    simp only [List.length_set] at hpos
    by_cases hpq : pos = p
    · rw [hpq, getD_set_self _ _ _ _ hp] at hslot
      simp only [Option.some.injEq, Prod.mk.injEq] at hslot
      exact absurd hslot.1.symm hne
    · rw [getD_set_ne _ _ _ _ _ (fun he => hpq he.symm)] at hslot
      exact ⟨pos, w, hpos, hslot⟩
  · rintro ⟨pos, w, hpos, hslot⟩
    have hpq : pos ≠ p := by
      intro he
      rw [he] at hslot
      rcases hold with h0 | ⟨w0, h0⟩
      · rw [h0] at hslot; cases hslot
      · rw [h0] at hslot
        simp only [Option.some.injEq, Prod.mk.injEq] at hslot
        exact hne hslot.1.symm
    refine ⟨pos, w, ?_, ?_⟩
    · rw [hset]; simpa using hpos
    · rw [hset, getD_set_ne _ _ _ _ _ (fun he => hpq he.symm)]
      exact hslot

theorem subHasSome_new [DecidableEq K] (a a2 : SubArray K V) (k : K)
    (v : Option V) (p : Nat) (hset : a2.table = a.table.set p (some (k, v)))
    (hp : p < a.table.length) (h : SubHasSome a2 k) :
    (∃ x, v = some x) ∨ SubHasSome a k := by
  obtain ⟨pos, w, hpos, hslot⟩ := h
  rw [hset] at hpos hslot
  simp only [List.length_set] at hpos
  by_cases hpq : pos = p
  · rw [hpq, getD_set_self _ _ _ _ hp] at hslot
    simp only [Option.some.injEq, Prod.mk.injEq] at hslot
    exact Or.inl ⟨w, hslot.2⟩
  · rw [getD_set_ne _ _ _ _ _ (fun he => hpq he.symm)] at hslot
    exact Or.inr ⟨pos, w, hpos, hslot⟩

theorem lastHasSome_iffB [DecidableEq K] (la : LastSubArray K V) (k k2 : K)
    (v : Option V) (p cnt : Nat) (hp : p < la.b.length)
    (hold : la.b.getD p none = none ∨ ∃ w0, la.b.getD p none = some (k, w0))
    (hne : k2 ≠ k) :
    (LastHasSome { la with b := la.b.set p (some (k, v)), count := cnt } k2 ↔
      LastHasSome la k2) := by
  constructor
  · rintro (⟨pos, w, hpos, hslot⟩ | hC)
    · simp only [List.length_set] at hpos
      by_cases hpq : pos = p
      · rw [hpq] at hslot
        rw [show ({ la with b := la.b.set p (some (k, v)), count := cnt } :
          LastSubArray K V).b = la.b.set p (some (k, v)) from rfl] at hslot
        rw [getD_set_self _ _ _ _ hp] at hslot
        simp only [Option.some.injEq, Prod.mk.injEq] at hslot
        exact absurd hslot.1.symm hne
      · rw [show ({ la with b := la.b.set p (some (k, v)), count := cnt } :
          LastSubArray K V).b = la.b.set p (some (k, v)) from rfl,
          getD_set_ne _ _ _ _ _ (fun he => hpq he.symm)] at hslot
        exact Or.inl ⟨pos, w, hpos, hslot⟩
    · exact Or.inr hC
  · rintro (⟨pos, w, hpos, hslot⟩ | hC)
    · have hpq : pos ≠ p := by
        intro he
        rw [he] at hslot
        rcases hold with h0 | ⟨w0, h0⟩
        · rw [h0] at hslot; cases hslot
        · rw [h0] at hslot
          simp only [Option.some.injEq, Prod.mk.injEq] at hslot
          exact hne hslot.1.symm
      refine Or.inl ⟨pos, w, by simpa using hpos, ?_⟩
      rw [show ({ la with b := la.b.set p (some (k, v)), count := cnt } :
        LastSubArray K V).b = la.b.set p (some (k, v)) from rfl,
        getD_set_ne _ _ _ _ _ (fun he => hpq he.symm)]
      exact hslot
    · exact Or.inr hC

theorem lastHasSome_newB [DecidableEq K] (la : LastSubArray K V) (k : K)
    (v : Option V) (p cnt : Nat) (hp : p < la.b.length)
    (h : LastHasSome { la with b := la.b.set p (some (k, v)), count := cnt } k) :
    (∃ x, v = some x) ∨ LastHasSome la k := by
  rcases h with ⟨pos, w, hpos, hslot⟩ | hC
  · simp only [List.length_set] at hpos
    rw [show ({ la with b := la.b.set p (some (k, v)), count := cnt } :
      LastSubArray K V).b = la.b.set p (some (k, v)) from rfl] at hslot
    by_cases hpq : pos = p
    · rw [hpq, getD_set_self _ _ _ _ hp] at hslot
      simp only [Option.some.injEq, Prod.mk.injEq] at hslot
      exact Or.inl ⟨w, hslot.2⟩
    · rw [getD_set_ne _ _ _ _ _ (fun he => hpq he.symm)] at hslot
      exact Or.inr (Or.inl ⟨pos, w, hpos, hslot⟩)
  · exact Or.inr (Or.inr hC)

theorem lastHasSome_iffC [DecidableEq K] (la : LastSubArray K V) (k k2 : K)
    (v : Option V) (bi j cnt : Nat) (hbi : bi < la.c.length)
    (hj : j < (la.c.getD bi []).length)
    (hold : (la.c.getD bi []).getD j none = none ∨
      ∃ w0, (la.c.getD bi []).getD j none = some (k, w0))
    (hne : k2 ≠ k) :
    (LastHasSome { la with
        c := la.c.set bi ((la.c.getD bi []).set j (some (k, v))),
        count := cnt } k2 ↔ LastHasSome la k2) := by
  set bk2 := (la.c.getD bi []).set j (some (k, v)) with hbk2
  have hget : ∀ bi2, (la.c.set bi bk2).getD bi2 [] =
      if bi2 = bi then bk2 else la.c.getD bi2 [] := by
    intro bi2
    by_cases hx : bi2 = bi
    · rw [if_pos hx, hx]
      exact getD_set_self _ _ _ _ hbi
    · rw [if_neg hx]
      exact getD_set_ne _ _ _ _ _ (fun he => hx he.symm)
  constructor
  · rintro (hB | ⟨bi2, j2, w, hbi2, hj2, hslot⟩)
    · exact Or.inl hB
    · simp only [List.length_set] at hbi2
      rw [show ({ la with c := la.c.set bi bk2, count := cnt } :
        LastSubArray K V).c = la.c.set bi bk2 from rfl] at hj2 hslot
      rw [hget bi2] at hj2 hslot
      by_cases hx : bi2 = bi
      · rw [if_pos hx, hbk2] at hj2 hslot
        have hj2' : j2 < (la.c.getD bi []).length := by simpa using hj2
        by_cases hxy : j2 = j
        · rw [hxy, getD_set_self _ _ _ _ hj] at hslot
          simp only [Option.some.injEq, Prod.mk.injEq] at hslot
          exact absurd hslot.1.symm hne
        · rw [getD_set_ne _ _ _ _ _ (fun he => hxy he.symm)] at hslot
          exact Or.inr ⟨bi, j2, w, hbi, hj2', hslot⟩
      · rw [if_neg hx] at hj2 hslot
        exact Or.inr ⟨bi2, j2, w, hbi2, hj2, hslot⟩
  · rintro (hB | ⟨bi2, j2, w, hbi2, hj2, hslot⟩)
    · exact Or.inl hB
    · refine Or.inr ⟨bi2, j2, w, by simpa using hbi2, ?_, ?_⟩
      · rw [show ({ la with c := la.c.set bi bk2, count := cnt } :
          LastSubArray K V).c = la.c.set bi bk2 from rfl, hget bi2]
        by_cases hx : bi2 = bi
        · rw [if_pos hx, hbk2]
          rw [hx] at hj2
          simpa using hj2
        · rw [if_neg hx]
          exact hj2
      · rw [show ({ la with c := la.c.set bi bk2, count := cnt } :
          LastSubArray K V).c = la.c.set bi bk2 from rfl, hget bi2]
        by_cases hx : bi2 = bi
        · rw [if_pos hx, hbk2]
          rw [hx] at hslot hj2
          have hxy : j2 ≠ j := by
            intro he
            rw [he] at hslot
            rcases hold with h0 | ⟨w0, h0⟩
            · rw [h0] at hslot; cases hslot
            · rw [h0] at hslot
              simp only [Option.some.injEq, Prod.mk.injEq] at hslot
              exact hne hslot.1.symm
          rw [getD_set_ne _ _ _ _ _ (fun he => hxy he.symm)]
          exact hslot
        · rw [if_neg hx]
          exact hslot

theorem lastHasSome_newC [DecidableEq K] (la : LastSubArray K V) (k : K)
    (v : Option V) (bi j cnt : Nat) (hbi : bi < la.c.length)
    (hj : j < (la.c.getD bi []).length)
    (h : LastHasSome { la with
        c := la.c.set bi ((la.c.getD bi []).set j (some (k, v))),
        count := cnt } k) :
    (∃ x, v = some x) ∨ LastHasSome la k := by
  set bk2 := (la.c.getD bi []).set j (some (k, v)) with hbk2
  have hget : ∀ bi2, (la.c.set bi bk2).getD bi2 [] =
      if bi2 = bi then bk2 else la.c.getD bi2 [] := by
    intro bi2
    by_cases hx : bi2 = bi
    · rw [if_pos hx, hx]
      exact getD_set_self _ _ _ _ hbi
    · rw [if_neg hx]
      exact getD_set_ne _ _ _ _ _ (fun he => hx he.symm)
  rcases h with hB | ⟨bi2, j2, w, hbi2, hj2, hslot⟩
  · exact Or.inr (Or.inl hB)
  · simp only [List.length_set] at hbi2
    rw [show ({ la with c := la.c.set bi bk2, count := cnt } :
      LastSubArray K V).c = la.c.set bi bk2 from rfl] at hj2 hslot
    rw [hget bi2] at hj2 hslot
    by_cases hx : bi2 = bi
    · rw [if_pos hx, hbk2] at hj2 hslot
      have hj2' : j2 < (la.c.getD bi []).length := by simpa using hj2
      by_cases hxy : j2 = j
      · rw [hxy, getD_set_self _ _ _ _ hj] at hslot
        simp only [Option.some.injEq, Prod.mk.injEq] at hslot
        exact Or.inl ⟨w, hslot.2⟩
      · rw [getD_set_ne _ _ _ _ _ (fun he => hxy he.symm)] at hslot
        exact Or.inr (Or.inr ⟨bi, j2, w, hbi, hj2', hslot⟩)
    · rw [if_neg hx] at hj2 hslot
      exact Or.inr (Or.inr ⟨bi2, j2, w, hbi2, hj2, hslot⟩)

/-! ## Search results from the per-key invariants -/

theorem subNoSome_of_search_none [DecidableEq K] (h1 h2 : K → Nat) (mp : Nat)
    (a : SubArray K V) (k : K) (hok : SubTierOk h1 h2 mp a k)
    (hsearch : SubArray.search h1 h2 k a = some none) : ¬ SubHasSome a k := by
  rcases hok with habs | ⟨i, w, hk, hi⟩
  · rintro ⟨pos, w, hpos, hslot⟩
    exact habs pos hpos _ hslot
  · have hw := subSearch_found h1 h2 k mp a i w hk hi
    rw [hsearch] at hw
    simp only [Option.some.injEq] at hw
    rintro ⟨pos, x, hpos, hslot⟩
    obtain ⟨-, -, hat, -, huniq⟩ := hk
    have hpq := huniq pos hpos (some x) hslot
    rw [hpq, hat] at hslot
    simp only [Option.some.injEq, Prod.mk.injEq] at hslot
    rw [← hw] at hslot
    exact Option.noConfusion hslot.2

theorem subHasSome_of_search_some [DecidableEq K] (h1 h2 : K → Nat) (mp : Nat)
    (a : SubArray K V) (k : K) (hs : 2 ≤ a.size)
    (hok : SubTierOk h1 h2 mp a k) (w0 : V)
    (hsearch : SubArray.search h1 h2 k a = some (some w0)) :
    SubHasSome a k := by
  rcases hok with habs | ⟨i, w, hk, hi⟩
  · rw [subSearch_absent h1 h2 k a hs habs] at hsearch
    cases hsearch
  · have hw := subSearch_found h1 h2 k mp a i w hk hi
    rw [hsearch] at hw
    simp only [Option.some.injEq] at hw
    obtain ⟨-, -, hat, -, -⟩ := hk
    refine ⟨probeAt h1 h2 a.size k i, w0,
      probeAt_lt h1 h2 a.size k i (by omega), ?_⟩
    rw [← hw] at hat
    exact hat

theorem lastNoSome_of_search_none [DecidableEq K] (h1 h2 : K → Nat)
    (la : LastSubArray K V) (k : K) (hb : 2 ≤ la.b.length)
    (hc : 2 ≤ la.c.length) (hok : LastTierOk h1 h2 la k)
    (hsearch : LastSubArray.search h1 h2 k la = some none) :
    ¬ LastHasSome la k := by
  rcases hok with ⟨habsB, habsC⟩ | ⟨i, w, hk, habsC⟩ |
    ⟨habsB, bi, j, w, hbip, hj, hat, huniq⟩
  · rintro (⟨pos, w, hpos, hslot⟩ | ⟨bi, j, w, hbi, hj, hslot⟩)
    · exact habsB pos hpos _ hslot
    · exact habsC bi hbi j hj _ hslot
  · have hw := lastSearch_foundB h1 h2 k la i w hk
    rw [hsearch] at hw
    simp only [Option.some.injEq] at hw
    rintro (⟨pos, x, hpos, hslot⟩ | ⟨bi, j, x, hbi, hj, hslot⟩)
    · obtain ⟨-, -, hat, -, huniq⟩ := hk
      have hpq := huniq pos hpos (some x) hslot
      rw [hpq, hat] at hslot
      simp only [Option.some.injEq, Prod.mk.injEq] at hslot
      rw [← hw] at hslot
      exact Option.noConfusion hslot.2
    · exact habsC bi hbi j hj _ hslot
  · have hw := lastSearch_foundC h1 h2 k la hb hc habsB bi j w hbip hj hat huniq
    rw [hsearch] at hw
    simp only [Option.some.injEq] at hw
    rintro (⟨pos, x, hpos, hslot⟩ | ⟨bi2, j2, x, hbi2, hj2, hslot⟩)
    · exact habsB pos hpos _ hslot
    · obtain ⟨hbieq, hjeq⟩ := huniq bi2 j2 (some x) hbi2 hj2 hslot
      rw [hbieq, hjeq, hat] at hslot
      simp only [Option.some.injEq, Prod.mk.injEq] at hslot
      rw [← hw] at hslot
      exact Option.noConfusion hslot.2

/-! ## Search preservation for untouched keys -/

theorem subSearch_preserved [DecidableEq K] (h1 h2 : K → Nat) (mp : Nat)
    (a a2 : SubArray K V) (k k2 : K) (v : Option V) (p : Nat)
    (hset : a2.table = a.table.set p (some (k, v))) (hp : p < a.table.length)
    (hold : a.table.getD p none = none ∨
      ∃ w0, a.table.getD p none = some (k, w0))
    (hne : k2 ≠ k) (hs : 2 ≤ a.size) (hok : SubTierOk h1 h2 mp a k2) :
    SubArray.search h1 h2 k2 a2 = SubArray.search h1 h2 k2 a := by
  have hs2 : 2 ≤ a2.size := by
    show 2 ≤ a2.table.length
    rw [hset]
    simpa using hs
  rcases hok with habs | ⟨i, w, hk, hi⟩
  · rw [subSearch_absent h1 h2 k2 a hs habs]
    refine subSearch_absent h1 h2 k2 a2 hs2 ?_
    show KeyAbsent a2.table k2
    rw [hset]
    exact keyAbsent_preserved _ _ _ _ _ hne habs
  · rw [subSearch_found h1 h2 k2 mp a i w hk hi]
    have hk2 : KeyAtProbe h1 h2 mp a2.table k2 i w := by
      rw [hset]
      exact keyAtProbe_preserved h1 h2 mp _ k k2 v p i w hp hold hne hk
    have hi2 : i < a2.size := by
      have : a2.size = a.size := by
        show a2.table.length = a.table.length
        rw [hset]
        simp
      omega
    exact subSearch_found h1 h2 k2 mp a2 i w hk2 hi2

theorem bucketsAbsent_setC [DecidableEq K] (la : LastSubArray K V) (k k2 : K)
    (v : Option V) (bi j : Nat) (hbi : bi < la.c.length) (hne : k2 ≠ k)
    (habsC : ∀ bi2, bi2 < la.c.length → KeyAbsent (la.c.getD bi2 []) k2) :
    ∀ bi2, bi2 < (la.c.set bi ((la.c.getD bi []).set j (some (k, v)))).length →
      KeyAbsent
        ((la.c.set bi ((la.c.getD bi []).set j (some (k, v)))).getD bi2 [])
        k2 := by
  intro bi2 hbi2
  simp only [List.length_set] at hbi2
  by_cases hx : bi2 = bi
  · rw [hx, getD_set_self _ _ _ _ hbi]
    exact keyAbsent_preserved _ _ _ _ _ hne (habsC bi hbi)
  · rw [getD_set_ne _ _ _ _ _ (fun he => hx he.symm)]
    exact habsC bi2 hbi2

theorem cKey_setC_other [DecidableEq K] (h1 h2 : K → Nat)
    (la : LastSubArray K V) (k k2 : K) (v : Option V) (bi j : Nat)
    (_hc : 2 ≤ la.c.length) (hbi : bi < la.c.length)
    (hj : j < (la.c.getD bi []).length)
    (hold : (la.c.getD bi []).getD j none = none ∨
      ∃ w0, (la.c.getD bi []).getD j none = some (k, w0))
    (hne : k2 ≠ k) (bi0 j0 : Nat) (w0 : Option V)
    (hbip : bi0 = (bucketPair h1 h2 la.c.length k2).1 ∨
      bi0 = (bucketPair h1 h2 la.c.length k2).2)
    (hj0 : j0 < (la.c.getD bi0 []).length)
    (hat0 : (la.c.getD bi0 []).getD j0 none = some (k2, w0))
    (huniq0 : ∀ bi2 j2 w2, bi2 < la.c.length →
      j2 < (la.c.getD bi2 []).length →
      (la.c.getD bi2 []).getD j2 none = some (k2, w2) → bi2 = bi0 ∧ j2 = j0) :
    (bi0 = (bucketPair h1 h2
        (la.c.set bi ((la.c.getD bi []).set j (some (k, v)))).length k2).1 ∨
      bi0 = (bucketPair h1 h2
        (la.c.set bi ((la.c.getD bi []).set j (some (k, v)))).length k2).2) ∧
    j0 < ((la.c.set bi ((la.c.getD bi []).set j (some (k, v)))).getD bi0 []).length ∧
    ((la.c.set bi ((la.c.getD bi []).set j (some (k, v)))).getD bi0 []).getD j0
        none = some (k2, w0) ∧
    (∀ bi2 j2 w2,
      bi2 < (la.c.set bi ((la.c.getD bi []).set j (some (k, v)))).length →
      j2 < ((la.c.set bi ((la.c.getD bi []).set j (some (k, v)))).getD bi2 []).length →
      ((la.c.set bi ((la.c.getD bi []).set j (some (k, v)))).getD bi2 []).getD j2
          none = some (k2, w2) → bi2 = bi0 ∧ j2 = j0) := by
  set bk2 := (la.c.getD bi []).set j (some (k, v)) with hbk2
  have hget : ∀ bi2, (la.c.set bi bk2).getD bi2 [] =
      if bi2 = bi then bk2 else la.c.getD bi2 [] := by
    intro bi2
    by_cases hx : bi2 = bi
    · rw [if_pos hx, hx]
      exact getD_set_self _ _ _ _ hbi
    · rw [if_neg hx]
      exact getD_set_ne _ _ _ _ _ (fun he => hx he.symm)
  have hclen : (la.c.set bi bk2).length = la.c.length := by simp
  refine ⟨by rw [hclen]; exact hbip, ?_, ?_, ?_⟩
  · rw [hget bi0]
    by_cases hx : bi0 = bi
    · rw [if_pos hx, hbk2]
      rw [hx] at hj0
      simpa using hj0
    · rw [if_neg hx]
      exact hj0
  · rw [hget bi0]
    by_cases hx : bi0 = bi
    · rw [if_pos hx, hbk2]
      rw [hx] at hj0 hat0
      have hjne : j ≠ j0 := by
        intro he
        rw [he] at hold
        rcases hold with h0 | ⟨w1, h0⟩
        · rw [h0] at hat0; cases hat0
        · rw [h0] at hat0
          simp only [Option.some.injEq, Prod.mk.injEq] at hat0
          exact hne hat0.1.symm
      rw [getD_set_ne _ _ _ _ _ hjne]
      exact hat0
    · rw [if_neg hx]
      exact hat0
  · intro bi2 j2 w2 hbi2 hj2 hat2
    rw [hclen] at hbi2
    rw [hget bi2] at hj2 hat2
    by_cases hx : bi2 = bi
    · rw [if_pos hx, hbk2] at hj2 hat2
      have hj2' : j2 < (la.c.getD bi []).length := by simpa using hj2
      by_cases hxy : j2 = j
      · rw [hxy, getD_set_self _ _ _ _ hj] at hat2
        simp only [Option.some.injEq, Prod.mk.injEq] at hat2
        exact absurd hat2.1.symm hne
      · rw [getD_set_ne _ _ _ _ _ (fun he => hxy he.symm)] at hat2
        refine huniq0 bi2 j2 w2 hbi2 ?_ ?_
        · rw [hx]; exact hj2'
        · rw [hx]; exact hat2
    · rw [if_neg hx] at hj2 hat2
      exact huniq0 bi2 j2 w2 hbi2 hj2 hat2

theorem lastSearch_preserved_setB [DecidableEq K] (h1 h2 : K → Nat)
    (la : LastSubArray K V) (k k2 : K) (v : Option V) (p cnt : Nat)
    (hb : 2 ≤ la.b.length) (hc : 2 ≤ la.c.length) (hp : p < la.b.length)
    (hold : la.b.getD p none = none ∨ ∃ w0, la.b.getD p none = some (k, w0))
    (hne : k2 ≠ k) (hok : LastTierOk h1 h2 la k2) :
    LastSubArray.search h1 h2 k2
        { la with b := la.b.set p (some (k, v)), count := cnt } =
      LastSubArray.search h1 h2 k2 la := by
  set la2 : LastSubArray K V :=
    { la with b := la.b.set p (some (k, v)), count := cnt } with hla2
  have hb2 : 2 ≤ la2.b.length := by
    show 2 ≤ (la.b.set p (some (k, v))).length
    simpa using hb
  rcases hok with ⟨habsB, habsC⟩ | ⟨i, w, hk, habsC⟩ |
    ⟨habsB, bi, j, w, hbip, hj, hat, huniq⟩
  · rw [lastSearch_absent h1 h2 k2 la hb hc habsB habsC]
    refine lastSearch_absent h1 h2 k2 la2 hb2 hc ?_ habsC
    show KeyAbsent (la.b.set p (some (k, v))) k2
    exact keyAbsent_preserved _ _ _ _ _ hne habsB
  · rw [lastSearch_foundB h1 h2 k2 la i w hk]
    refine lastSearch_foundB h1 h2 k2 la2 i w ?_
    show KeyAtProbe h1 h2 (maxAttemptsB la.size) (la.b.set p (some (k, v))) k2 i w
    exact keyAtProbe_preserved h1 h2 _ _ k k2 v p i w hp hold hne hk
  · rw [lastSearch_foundC h1 h2 k2 la hb hc habsB bi j w hbip hj hat huniq]
    refine lastSearch_foundC h1 h2 k2 la2 hb2 hc ?_ bi j w hbip hj hat huniq
    show KeyAbsent (la.b.set p (some (k, v))) k2
    exact keyAbsent_preserved _ _ _ _ _ hne habsB

theorem lastSearch_preserved_setC [DecidableEq K] (h1 h2 : K → Nat)
    (la : LastSubArray K V) (k k2 : K) (v : Option V) (bi j cnt : Nat)
    (hb : 2 ≤ la.b.length) (hc : 2 ≤ la.c.length) (hbi : bi < la.c.length)
    (hj : j < (la.c.getD bi []).length)
    (hold : (la.c.getD bi []).getD j none = none ∨
      ∃ w0, (la.c.getD bi []).getD j none = some (k, w0))
    (hne : k2 ≠ k) (hok : LastTierOk h1 h2 la k2) :
    LastSubArray.search h1 h2 k2
        { la with c := la.c.set bi ((la.c.getD bi []).set j (some (k, v))),
                  count := cnt } =
      LastSubArray.search h1 h2 k2 la := by
  set la2 : LastSubArray K V :=
    { la with c := la.c.set bi ((la.c.getD bi []).set j (some (k, v))),
              count := cnt } with hla2
  have hc2 : 2 ≤ la2.c.length := by
    show 2 ≤ (la.c.set bi ((la.c.getD bi []).set j (some (k, v)))).length
    simpa using hc
  rcases hok with ⟨habsB, habsC⟩ | ⟨i, w, hk, habsC⟩ |
    ⟨habsB, bi0, j0, w0, hbip, hj0, hat0, huniq0⟩
  · rw [lastSearch_absent h1 h2 k2 la hb hc habsB habsC]
    exact lastSearch_absent h1 h2 k2 la2 hb hc2 habsB
      (bucketsAbsent_setC la k k2 v bi j hbi hne habsC)
  · rw [lastSearch_foundB h1 h2 k2 la i w hk]
    exact lastSearch_foundB h1 h2 k2 la2 i w hk
  · rw [lastSearch_foundC h1 h2 k2 la hb hc habsB bi0 j0 w0 hbip hj0 hat0 huniq0]
    obtain ⟨hbip2, hj02, hat02, huniq02⟩ := cKey_setC_other h1 h2 la k k2 v bi j
      hc hbi hj hold hne bi0 j0 w0 hbip hj0 hat0 huniq0
    exact lastSearch_foundC h1 h2 k2 la2 hb hc2 habsB bi0 j0 w0 hbip2 hj02
      hat02 huniq02

/-! ## AtMostOne bookkeeping -/

theorem atMostOneSubs_of_noSome (l : List (SubArray K V)) (k : K)
    (h : NoSomeSubs l k) : AtMostOneSubs l k := by
  induction l with
  | nil => trivial
  | cons a rest ih =>
    refine ⟨fun hsome => absurd hsome (h a (by simp)), ih ?_⟩
    intro b hb
    exact h b (by simp [hb])

theorem noSomeSubs_append (pre post : List (SubArray K V)) (k : K) :
    NoSomeSubs (pre ++ post) k ↔ NoSomeSubs pre k ∧ NoSomeSubs post k := by
  constructor
  · intro h
    exact ⟨fun a ha => h a (by simp [ha]), fun a ha => h a (by simp [ha])⟩
  · rintro ⟨h1', h2'⟩ a ha
    rcases List.mem_append.mp ha with ha | ha
    · exact h1' a ha
    · exact h2' a ha

theorem atMostOneSubs_single (pre post : List (SubArray K V))
    (a2 : SubArray K V) (k : K) (hpre : NoSomeSubs pre k)
    (hpost : NoSomeSubs post k) : AtMostOneSubs (pre ++ a2 :: post) k := by
  induction pre with
  | nil =>
    exact ⟨fun _ => hpost, atMostOneSubs_of_noSome post k hpost⟩
  | cons b pre2 ih =>
    refine ⟨fun hsome => absurd hsome (hpre b (by simp)), ?_⟩
    exact ih fun c hc => hpre c (by simp [hc])

theorem noSomeSubs_replace (pre post : List (SubArray K V))
    (a a2 : SubArray K V) (k : K) (hiff : SubHasSome a2 k ↔ SubHasSome a k)
    (h : NoSomeSubs (pre ++ a :: post) k) : NoSomeSubs (pre ++ a2 :: post) k := by
  intro b hb
  rcases List.mem_append.mp hb with hb | hb
  · exact h b (by simp [hb])
  · rcases List.mem_cons.mp hb with rfl | hb
    · intro hsome
      exact h a (by simp) (hiff.mp hsome)
    · exact h b (by simp [hb])

theorem atMostOneSubs_replace (pre post : List (SubArray K V))
    (a a2 : SubArray K V) (k : K) (hiff : SubHasSome a2 k ↔ SubHasSome a k)
    (h : AtMostOneSubs (pre ++ a :: post) k) :
    AtMostOneSubs (pre ++ a2 :: post) k := by
  induction pre with
  | nil =>
    obtain ⟨h1', h2'⟩ := h
    exact ⟨fun hsome => h1' (hiff.mp hsome), h2'⟩
  | cons b pre2 ih =>
    obtain ⟨h1', h2'⟩ := h
    refine ⟨fun hsome => ?_, ih h2'⟩
    exact noSomeSubs_replace pre2 post a a2 k hiff (h1' hsome)

theorem atMostOneSubs_mid (pre post : List (SubArray K V)) (a : SubArray K V)
    (k : K) (h : AtMostOneSubs (pre ++ a :: post) k) (hsome : SubHasSome a k) :
    NoSomeSubs pre k ∧ NoSomeSubs post k := by
  induction pre with
  | nil =>
    exact ⟨fun b hb => absurd hb (List.not_mem_nil b), h.1 hsome⟩
  | cons b pre2 ih =>
    obtain ⟨h1', h2'⟩ := h
    obtain ⟨hp2, hpost⟩ := ih h2'
    refine ⟨?_, hpost⟩
    intro c hc
    rcases List.mem_cons.mp hc with rfl | hc2
    · intro hcsome
      exact h1' hcsome a (by simp) hsome
    · exact hp2 c hc2

/-! ## Table-level decompositions of insert and search -/

theorem subInsert_false_eq [DecidableEq K] (h1 h2 : K → Nat) (k : K)
    (v : Option V) (mp : Nat) (a a2 : SubArray K V)
    (h : SubArray.insert h1 h2 k v mp a = some (false, a2)) : a2 = a := by
  unfold SubArray.insert at h
  cases hu : updateScan h1 h2 k v a 0 mp with
  | none => rw [hu] at h; cases h
  | some u =>
    cases u with
    | some a3 => rw [hu] at h; simp at h
    | none =>
      rw [hu] at h
      simp only at h
      cases hp : placeScan h1 h2 k v a 0 mp with
      | none => rw [hp] at h; cases h
      | some u2 =>
        cases u2 with
        | some a3 => rw [hp] at h; simp at h
        | none =>
          rw [hp] at h
          simp only [Option.some.injEq, Prod.mk.injEq] at h
          exact h.2.symm

theorem lastInsert_false_eq [DecidableEq K] (h1 h2 : K → Nat) (k : K)
    (v : Option V) (la la2 : LastSubArray K V)
    (h : LastSubArray.insert h1 h2 k v la = some (false, la2)) : la2 = la := by
  unfold LastSubArray.insert at h
  cases hu : updateScanB h1 h2 k v la 0 (maxAttemptsB la.size) with
  | none => rw [hu] at h; cases h
  | some u =>
    cases u with
    | some la3 => rw [hu] at h; simp at h
    | none =>
      rw [hu] at h
      simp only at h
      cases hc : updateScanC h1 h2 k v la with
      | none => rw [hc] at h; cases h
      | some u2 =>
        cases u2 with
        | some la3 => rw [hc] at h; simp at h
        | none =>
          rw [hc] at h
          simp only at h
          cases hp : placeScanB h1 h2 k v la 0 (maxAttemptsB la.size) with
          | none => rw [hp] at h; cases h
          | some u3 =>
            cases u3 with
            | some la3 => rw [hp] at h; simp at h
            | none =>
              rw [hp] at h
              simp only at h
              unfold placeScanC at h
              cases hhc : hashC h1 h2 la.c.length k with
              | none => rw [hhc] at h; cases h
              | some p =>
                obtain ⟨b1, b2⟩ := p
                rw [hhc] at h
                simp only at h
                cases hfe : firstEmptyIn
                    (if countEmpty (la.c.getD b1 []) ≥
                        countEmpty (la.c.getD b2 [])
                     then la.c.getD b1 [] else la.c.getD b2 [])
                    0 la.bucketSize with
                | some i => rw [hfe] at h; simp at h
                | none =>
                  rw [hfe] at h
                  simp only [Option.some.injEq, Prod.mk.injEq] at h
                  exact h.2.symm

theorem insertExisting_none_all [DecidableEq K] (h1 h2 : K → Nat) (k : K)
    (v : Option V) (mp : Nat) :
    ∀ l : List (SubArray K V), insertExisting h1 h2 k v mp l = some none →
      ∀ a ∈ l, SubArray.search h1 h2 k a = some none := by
  intro l
  induction l with
  | nil => intro _ a ha; cases ha
  | cons a rest ih =>
    intro h b hb
    unfold insertExisting at h
    cases hs : SubArray.search h1 h2 k a with
    | none => simp [hs] at h
    | some w =>
      cases w with
      | some w0 =>
        simp only [hs] at h
        cases hins : SubArray.insert h1 h2 k v mp a with
        | none => simp [hins] at h
        | some p =>
          obtain ⟨ok, a2⟩ := p
          simp [hins] at h
      | none =>
        simp only [hs] at h
        rcases List.mem_cons.mp hb with rfl | hb2
        · exact hs
        · cases hrec : insertExisting h1 h2 k v mp rest with
          | none => simp [hrec] at h
          | some u =>
            cases u with
            | none => exact ih hrec b hb2
            | some p =>
              obtain ⟨ok, rest2⟩ := p
              simp [hrec] at h

theorem insertExisting_some_split [DecidableEq K] (h1 h2 : K → Nat) (k : K)
    (v : Option V) (mp : Nat) :
    ∀ (l : List (SubArray K V)) (ok : Bool) (l2 : List (SubArray K V)),
      insertExisting h1 h2 k v mp l = some (some (ok, l2)) →
      ∃ pre a post w0 a2, l = pre ++ a :: post ∧ l2 = pre ++ a2 :: post ∧
        (∀ p ∈ pre, SubArray.search h1 h2 k p = some none) ∧
        SubArray.search h1 h2 k a = some (some w0) ∧
        SubArray.insert h1 h2 k v mp a = some (ok, a2) := by
  intro l
  induction l with
  | nil => intro ok l2 h; cases h
  | cons a rest ih =>
    intro ok l2 h
    unfold insertExisting at h
    cases hs : SubArray.search h1 h2 k a with
    | none => simp [hs] at h
    | some w =>
      cases w with
      | some w0 =>
        simp only [hs] at h
        cases hins : SubArray.insert h1 h2 k v mp a with
        | none => simp [hins] at h
        | some p =>
          obtain ⟨r2, a2⟩ := p
          simp only [hins, Option.some.injEq, Prod.mk.injEq] at h
          obtain ⟨rfl, rfl⟩ := h
          exact ⟨[], a, rest, w0, a2, rfl, rfl, by simp, hs, hins⟩
      | none =>
        simp only [hs] at h
        cases hrec : insertExisting h1 h2 k v mp rest with
        | none => simp [hrec] at h
        | some u =>
          cases u with
          | none => simp [hrec] at h
          | some p =>
            obtain ⟨r2, rest2⟩ := p
            simp only [hrec, Option.some.injEq, Prod.mk.injEq] at h
            obtain ⟨rfl, rfl⟩ := h
            obtain ⟨pre, b, post, w0, b2, hl, hl2, hpre, hsb, hib⟩ :=
              ih r2 rest2 hrec
            refine ⟨a :: pre, b, post, w0, b2, by rw [hl]; rfl,
              by rw [hl2]; rfl, ?_, hsb, hib⟩
            intro p hp
            rcases List.mem_cons.mp hp with rfl | hp2
            · exact hs
            · exact hpre p hp2

theorem insertNew_none_all [DecidableEq K] (h1 h2 : K → Nat) (k : K)
    (v : Option V) (mp : Nat) :
    ∀ l : List (SubArray K V), insertNew h1 h2 k v mp l = some none →
      ∀ a ∈ l, SubArray.insert h1 h2 k v mp a = some (false, a) := by
  intro l
  induction l with
  | nil => intro _ a ha; cases ha
  | cons a rest ih =>
    intro h b hb
    unfold insertNew at h
    cases hins : SubArray.insert h1 h2 k v mp a with
    | none => simp [hins] at h
    | some p =>
      obtain ⟨r2, a2⟩ := p
      cases r2 with
      | true => simp [hins] at h
      | false =>
        simp only [hins] at h
        rcases List.mem_cons.mp hb with rfl | hb2
        · rw [subInsert_false_eq h1 h2 k v mp b a2 hins] at hins
          exact hins
        · cases hrec : insertNew h1 h2 k v mp rest with
          | none => simp [hrec] at h
          | some u =>
            cases u with
            | none => exact ih hrec b hb2
            | some rest2 => simp [hrec] at h

theorem insertNew_some_split [DecidableEq K] (h1 h2 : K → Nat) (k : K)
    (v : Option V) (mp : Nat) :
    ∀ (l : List (SubArray K V)) (l2 : List (SubArray K V)),
      insertNew h1 h2 k v mp l = some (some l2) →
      ∃ pre b post b2, l = pre ++ b :: post ∧ l2 = pre ++ b2 :: post ∧
        (∀ p ∈ pre, SubArray.insert h1 h2 k v mp p = some (false, p)) ∧
        SubArray.insert h1 h2 k v mp b = some (true, b2) := by
  intro l
  induction l with
  | nil => intro l2 h; cases h
  | cons a rest ih =>
    intro l2 h
    unfold insertNew at h
    cases hins : SubArray.insert h1 h2 k v mp a with
    | none => simp [hins] at h
    | some p =>
      obtain ⟨r2, a2⟩ := p
      cases r2 with
      | true =>
        simp only [hins, Option.some.injEq] at h
        subst h
        exact ⟨[], a, rest, a2, rfl, rfl, by simp, hins⟩
      | false =>
        have ha2 : a2 = a := subInsert_false_eq h1 h2 k v mp a a2 hins
        subst ha2
        simp only [hins] at h
        cases hrec : insertNew h1 h2 k v mp rest with
        | none => simp [hrec] at h
        | some u =>
          cases u with
          | none => simp [hrec] at h
          | some rest2 =>
            simp only [hrec, Option.some.injEq] at h
            subst h
            obtain ⟨pre, b, post, b2, hl, hl2, hpre, hib⟩ := ih rest2 hrec
            refine ⟨a2 :: pre, b, post, b2, by rw [hl]; rfl,
              by rw [hl2]; rfl, ?_, hib⟩
            intro p hp
            rcases List.mem_cons.mp hp with rfl | hp2
            · exact hins
            · exact hpre p hp2

theorem searchSubs_cons_none [DecidableEq K] (h1 h2 : K → Nat) (k : K)
    (a : SubArray K V) (rest : List (SubArray K V))
    (ha : SubArray.search h1 h2 k a = some none) :
    searchSubs h1 h2 k (a :: rest) = searchSubs h1 h2 k rest := by
  show (match SubArray.search h1 h2 k a with
        | none => none
        | some (some w) => some (some w)
        | some none => searchSubs h1 h2 k rest) = searchSubs h1 h2 k rest
  rw [ha]

theorem searchSubs_cons_found [DecidableEq K] (h1 h2 : K → Nat) (k : K)
    (a : SubArray K V) (rest : List (SubArray K V)) (w0 : V)
    (ha : SubArray.search h1 h2 k a = some (some w0)) :
    searchSubs h1 h2 k (a :: rest) = some (some w0) := by
  show (match SubArray.search h1 h2 k a with
        | none => none
        | some (some w) => some (some w)
        | some none => searchSubs h1 h2 k rest) = some (some w0)
  rw [ha]

theorem searchSubs_cons_eq [DecidableEq K] (h1 h2 : K → Nat) (k : K)
    (a a2 : SubArray K V) (rest rest2 : List (SubArray K V))
    (ha : SubArray.search h1 h2 k a2 = SubArray.search h1 h2 k a)
    (hr : searchSubs h1 h2 k rest2 = searchSubs h1 h2 k rest) :
    searchSubs h1 h2 k (a2 :: rest2) = searchSubs h1 h2 k (a :: rest) := by
  show (match SubArray.search h1 h2 k a2 with
        | none => none
        | some (some w) => some (some w)
        | some none => searchSubs h1 h2 k rest2) =
      (match SubArray.search h1 h2 k a with
        | none => none
        | some (some w) => some (some w)
        | some none => searchSubs h1 h2 k rest)
  rw [ha, hr]

theorem searchSubs_skip [DecidableEq K] (h1 h2 : K → Nat) (k : K) :
    ∀ (pre rest : List (SubArray K V)),
      (∀ p ∈ pre, SubArray.search h1 h2 k p = some none) →
      searchSubs h1 h2 k (pre ++ rest) = searchSubs h1 h2 k rest := by
  intro pre
  induction pre with
  | nil => intro rest _; rfl
  | cons a pre2 ih =>
    intro rest hall
    rw [show (a :: pre2) ++ rest = a :: (pre2 ++ rest) from rfl]
    rw [searchSubs_cons_none h1 h2 k a _ (hall a (by simp))]
    exact ih rest fun p hp => hall p (by simp [hp])

theorem searchSubs_all_none [DecidableEq K] (h1 h2 : K → Nat) (k : K) :
    ∀ l : List (SubArray K V),
      (∀ p ∈ l, SubArray.search h1 h2 k p = some none) →
      searchSubs h1 h2 k l = some none := by
  intro l
  induction l with
  | nil => intro _; rfl
  | cons a rest ih =>
    intro hall
    rw [searchSubs_cons_none h1 h2 k a _ (hall a (by simp))]
    exact ih fun p hp => hall p (by simp [hp])

theorem searchSubs_replace [DecidableEq K] (h1 h2 : K → Nat) (k : K)
    (a a2 : SubArray K V)
    (heq : SubArray.search h1 h2 k a2 = SubArray.search h1 h2 k a) :
    ∀ (pre post : List (SubArray K V)),
      searchSubs h1 h2 k (pre ++ a2 :: post) =
        searchSubs h1 h2 k (pre ++ a :: post) := by
  intro pre
  induction pre with
  | nil =>
    intro post
    exact searchSubs_cons_eq h1 h2 k a a2 post post heq rfl
  | cons b pre2 ih =>
    intro post
    rw [show (b :: pre2) ++ a2 :: post = b :: (pre2 ++ a2 :: post) from rfl]
    rw [show (b :: pre2) ++ a :: post = b :: (pre2 ++ a :: post) from rfl]
    exact searchSubs_cons_eq h1 h2 k b b _ _ rfl (ih post)

/-! ## Search results for invisible copies, and record bookkeeping -/

theorem subSearch_none_invisible [DecidableEq K] (h1 h2 : K → Nat) (mp : Nat)
    (a : SubArray K V) (k : K) (hs : 2 ≤ a.size)
    (hok : SubTierOk h1 h2 mp a k) (hno : ¬ SubHasSome a k) :
    SubArray.search h1 h2 k a = some none := by
  rcases hok with habs | ⟨i, w, hk, hi⟩
  · exact subSearch_absent h1 h2 k a hs habs
  · cases w with
    | none => exact subSearch_found h1 h2 k mp a i none hk hi
    | some x =>
      exfalso
      apply hno
      obtain ⟨hlen, -, hat, -, -⟩ := hk
      exact ⟨probeAt h1 h2 a.size k i, x,
        probeAt_lt h1 h2 a.size k i (by omega), hat⟩

theorem lastSearch_none_invisible [DecidableEq K] (h1 h2 : K → Nat)
    (la : LastSubArray K V) (k : K) (hb : 2 ≤ la.b.length)
    (hc : 2 ≤ la.c.length) (hok : LastTierOk h1 h2 la k)
    (hno : ¬ LastHasSome la k) :
    LastSubArray.search h1 h2 k la = some none := by
  rcases hok with ⟨habsB, habsC⟩ | ⟨i, w, hk, habsC⟩ |
    ⟨habsB, bi, j, w, hbip, hj, hat, huniq⟩
  · exact lastSearch_absent h1 h2 k la hb hc habsB habsC
  · cases w with
    | none => exact lastSearch_foundB h1 h2 k la i none hk
    | some x =>
      exfalso
      apply hno
      obtain ⟨hlen, -, hat, -, -⟩ := hk
      exact Or.inl ⟨probeAt h1 h2 la.b.length k i, x,
        probeAt_lt h1 h2 la.b.length k i (by omega), hat⟩
  · cases w with
    | none =>
      exact lastSearch_foundC h1 h2 k la hb hc habsB bi j none hbip hj hat huniq
    | some x =>
      exfalso
      apply hno
      have hbilt : bi < la.c.length := by
        obtain ⟨hl1, hl2⟩ := bucketPair_lt h1 h2 la.c.length k hc
        rcases hbip with hx | hx
        · rw [hx]; exact hl1
        · rw [hx]; exact hl2
      exact Or.inr ⟨bi, j, x, hbilt, hj, hat⟩

theorem lastSearch_isSome [DecidableEq K] (h1 h2 : K → Nat)
    (la : LastSubArray K V) (k : K) (hb : 2 ≤ la.b.length)
    (hc : 2 ≤ la.c.length) (hok : LastTierOk h1 h2 la k) :
    ∃ u, LastSubArray.search h1 h2 k la = some u := by
  rcases hok with ⟨habsB, habsC⟩ | ⟨i, w, hk, habsC⟩ |
    ⟨habsB, bi, j, w, hbip, hj, hat, huniq⟩
  · exact ⟨none, lastSearch_absent h1 h2 k la hb hc habsB habsC⟩
  · exact ⟨w, lastSearch_foundB h1 h2 k la i w hk⟩
  · exact ⟨w, lastSearch_foundC h1 h2 k la hb hc habsB bi j w hbip hj hat huniq⟩

theorem cKey_setC_self [DecidableEq K] (la : LastSubArray K V) (k : K)
    (v : Option V) (bi j : Nat)
    (hbi : bi < la.c.length) (hj : j < (la.c.getD bi []).length)
    (huniq : ∀ bi2 j2 w2, bi2 < la.c.length →
      j2 < (la.c.getD bi2 []).length →
      (la.c.getD bi2 []).getD j2 none = some (k, w2) → bi2 = bi ∧ j2 = j) :
    j < ((la.c.set bi ((la.c.getD bi []).set j (some (k, v)))).getD bi []).length ∧
    ((la.c.set bi ((la.c.getD bi []).set j (some (k, v)))).getD bi []).getD j
        none = some (k, v) ∧
    (∀ bi2 j2 w2,
      bi2 < (la.c.set bi ((la.c.getD bi []).set j (some (k, v)))).length →
      j2 < ((la.c.set bi ((la.c.getD bi []).set j (some (k, v)))).getD bi2 []).length →
      ((la.c.set bi ((la.c.getD bi []).set j (some (k, v)))).getD bi2 []).getD j2
          none = some (k, w2) → bi2 = bi ∧ j2 = j) := by
  set bk2 := (la.c.getD bi []).set j (some (k, v)) with hbk2
  have hget : ∀ bi2, (la.c.set bi bk2).getD bi2 [] =
      if bi2 = bi then bk2 else la.c.getD bi2 [] := by
    intro bi2
    by_cases hx : bi2 = bi
    · rw [if_pos hx, hx]
      exact getD_set_self _ _ _ _ hbi
    · rw [if_neg hx]
      exact getD_set_ne _ _ _ _ _ (fun he => hx he.symm)
  refine ⟨?_, ?_, ?_⟩
  · rw [hget bi, if_pos rfl, hbk2]
    simpa using hj
  · rw [hget bi, if_pos rfl, hbk2]
    exact getD_set_self _ _ _ _ hj
  · intro bi2 j2 w2 hbi2 hj2 hat2
    simp only [List.length_set] at hbi2
    rw [hget bi2] at hj2 hat2
    by_cases hx : bi2 = bi
    · rw [if_pos hx, hbk2] at hj2 hat2
      by_cases hxy : j2 = j
      · exact ⟨hx, hxy⟩
      · rw [getD_set_ne _ _ _ _ _ (fun he => hxy he.symm)] at hat2
        have hj2a : j2 < (la.c.getD bi []).length := by simpa using hj2
        refine huniq bi2 j2 w2 hbi2 ?_ ?_
        · rw [hx]; exact hj2a
        · rw [hx]; exact hat2
    · rw [if_neg hx] at hj2 hat2
      exact huniq bi2 j2 w2 hbi2 hj2 hat2

theorem hashTable_eta_last (t : HashTable K V) (la : LastSubArray K V)
    (h : t.last = some la) :
    ({ t with last := some la } : HashTable K V) = t := by
  obtain ⟨s, mp, subs, l, c⟩ := t
  dsimp only at h
  subst h
  rfl

theorem hashTable_eta_subs (t : HashTable K V) (subs : List (SubArray K V))
    (h : t.subarrays = subs) :
    ({ t with subarrays := subs } : HashTable K V) = t := by
  obtain ⟨s, mp, sa, l, c⟩ := t
  dsimp only at h
  subst h
  rfl

/-- Unified effect of a uniform-tier insert under the tier invariant. -/
theorem subInsert_master [DecidableEq K] (h1 h2 : K → Nat) (k : K)
    (v : Option V) (mp : Nat) (a : SubArray K V) (r : Bool) (a2 : SubArray K V)
    (hs : 2 ≤ a.size) (hok : SubTierOk h1 h2 mp a k)
    (hins : SubArray.insert h1 h2 k v mp a = some (r, a2)) :
    (r = false ∧ a2 = a) ∨ (r = true ∧ SubGood h1 h2 mp k v a a2) := by
  rcases hok with habs | ⟨i, w, hk, hi⟩
  · rcases subInsert_fresh h1 h2 k v mp a hs habs r a2 hins with
      ⟨hrf, ha⟩ | ⟨hrt, e, he1, he2, hemp, htab, hcnt, hkap⟩
    · exact Or.inl ⟨hrf, ha⟩
    · have hsz : a2.size = a.size := by
        show a2.table.length = a.table.length
        rw [htab]
        simp
      have hold : a.table.getD (probeAt h1 h2 a.size k e) none = none ∨
          ∃ w0, a.table.getD (probeAt h1 h2 a.size k e) none = some (k, w0) :=
        Or.inl hemp
      have hplt : probeAt h1 h2 a.size k e < a.table.length :=
        probeAt_lt h1 h2 a.size k e (by omega)
      refine Or.inr ⟨hrt, hsz, ?_, ?_, ?_, ?_, ?_, ?_⟩
      · intro k2 hne hok2
        exact subTierOk_preserved h1 h2 mp a a2 k k2 v _ htab hplt hold hne hok2
      · exact Or.inr ⟨e, v, hkap, by omega⟩
      · exact subSearch_found h1 h2 k mp a2 e v hkap (by omega)
      · intro k2 hne hok2
        exact subSearch_preserved h1 h2 mp a a2 k k2 v _ htab hplt hold hne hs
          hok2
      · intro k2 hne
        exact subHasSome_iff a a2 k k2 v _ htab hplt hold hne
      · exact subHasSome_new a a2 k v _ htab hplt
  · have hupd := subInsert_update h1 h2 k v mp a i w hk
    rw [hupd] at hins
    simp only [Option.some.injEq, Prod.mk.injEq] at hins
    obtain ⟨hr, ha2⟩ := hins
    subst ha2
    have hplt : probeAt h1 h2 a.size k i < a.table.length :=
      probeAt_lt h1 h2 a.size k i (by omega)
    have hold : a.table.getD (probeAt h1 h2 a.size k i) none = none ∨
        ∃ w0, a.table.getD (probeAt h1 h2 a.size k i) none = some (k, w0) :=
      Or.inr ⟨w, hk.2.2.1⟩
    have hkap : KeyAtProbe h1 h2 mp
        (a.table.set (probeAt h1 h2 a.size k i) (some (k, v))) k i v :=
      keyAtProbe_after_update h1 h2 mp a.table k i w v hk
    have hsz : (⟨a.table.set (probeAt h1 h2 a.size k i) (some (k, v)),
        a.count⟩ : SubArray K V).size = a.size := by
      show (a.table.set (probeAt h1 h2 a.size k i) (some (k, v))).length =
        a.table.length
      simp
    refine Or.inr ⟨hr.symm, hsz, ?_, ?_, ?_, ?_, ?_, ?_⟩
    · intro k2 hne hok2
      exact subTierOk_preserved h1 h2 mp a _ k k2 v _ rfl hplt hold hne hok2
    · exact Or.inr ⟨i, v, hkap, by omega⟩
    · exact subSearch_found h1 h2 k mp _ i v hkap (by omega)
    · intro k2 hne hok2
      exact subSearch_preserved h1 h2 mp a _ k k2 v _ rfl hplt hold hne hs hok2
    · intro k2 hne
      exact subHasSome_iff a _ k k2 v _ rfl hplt hold hne
    · exact subHasSome_new a _ k v _ rfl hplt

/-- The `LastGood` package for a single-slot write into part B. -/
theorem lastB_master [DecidableEq K] (h1 h2 : K → Nat) (k : K) (v : Option V)
    (la : LastSubArray K V) (i cnt : Nat)
    (hb : 2 ≤ la.b.length) (hc : 2 ≤ la.c.length)
    (hwf : ∀ bk ∈ la.c, bk.length = la.bucketSize)
    (hp : probeAt h1 h2 la.b.length k i < la.b.length)
    (hold : la.b.getD (probeAt h1 h2 la.b.length k i) none = none ∨
      ∃ w0, la.b.getD (probeAt h1 h2 la.b.length k i) none = some (k, w0))
    (hkap : KeyAtProbe h1 h2 (maxAttemptsB la.size)
      (la.b.set (probeAt h1 h2 la.b.length k i) (some (k, v))) k i v)
    (habsC : ∀ bi, bi < la.c.length → KeyAbsent (la.c.getD bi []) k) :
    LastGood h1 h2 k v la
      { la with b := la.b.set (probeAt h1 h2 la.b.length k i) (some (k, v)),
                count := cnt } := by
  refine ⟨by simpa using hb, hc, rfl, rfl, hwf, ?_, ?_, ?_, ?_, ?_, ?_⟩
  · intro k2 hne hok2
    exact lastTierOk_setB h1 h2 la k k2 v _ cnt hp hold hne hok2
  · exact Or.inr (Or.inl ⟨i, v, hkap, habsC⟩)
  · exact lastSearch_foundB h1 h2 k _ i v hkap
  · intro k2 hne hok2
    exact lastSearch_preserved_setB h1 h2 la k k2 v _ cnt hb hc hp hold hne hok2
  · intro k2 hne
    exact lastHasSome_iffB la k k2 v _ cnt hp hold hne
  · exact lastHasSome_newB la k v _ cnt hp

/-- The `LastGood` package for a single-slot write into a candidate bucket. -/
theorem lastC_master [DecidableEq K] (h1 h2 : K → Nat) (k : K) (v : Option V)
    (la : LastSubArray K V) (bi j cnt : Nat)
    (hb : 2 ≤ la.b.length) (hc : 2 ≤ la.c.length)
    (hwf : ∀ bk ∈ la.c, bk.length = la.bucketSize)
    (habsB : KeyAbsent la.b k)
    (hbip : bi = (bucketPair h1 h2 la.c.length k).1 ∨
      bi = (bucketPair h1 h2 la.c.length k).2)
    (hj : j < (la.c.getD bi []).length)
    (hold : (la.c.getD bi []).getD j none = none ∨
      ∃ w0, (la.c.getD bi []).getD j none = some (k, w0))
    (huniq : ∀ bi2 j2 w2, bi2 < la.c.length →
      j2 < (la.c.getD bi2 []).length →
      (la.c.getD bi2 []).getD j2 none = some (k, w2) → bi2 = bi ∧ j2 = j) :
    LastGood h1 h2 k v la
      { la with c := la.c.set bi ((la.c.getD bi []).set j (some (k, v))),
                count := cnt } := by
  have hbilt : bi < la.c.length := by
    obtain ⟨hl1, hl2⟩ := bucketPair_lt h1 h2 la.c.length k hc
    rcases hbip with hx | hx
    · rw [hx]; exact hl1
    · rw [hx]; exact hl2
  obtain ⟨hj2, hat2, huniq2⟩ := cKey_setC_self la k v bi j hbilt hj huniq
  have hclen : (la.c.set bi ((la.c.getD bi []).set j (some (k, v)))).length =
      la.c.length := by simp
  have hbip2 : bi = (bucketPair h1 h2
      (la.c.set bi ((la.c.getD bi []).set j (some (k, v)))).length k).1 ∨
      bi = (bucketPair h1 h2
      (la.c.set bi ((la.c.getD bi []).set j (some (k, v)))).length k).2 := by
    rw [hclen]
    exact hbip
  refine ⟨hb, by simpa using hc, rfl, rfl, ?_, ?_, ?_, ?_, ?_, ?_, ?_⟩
  · intro bk hbk
    rcases List.mem_or_eq_of_mem_set hbk with hmem | rfl
    · exact hwf bk hmem
    · rw [List.length_set]
      exact hwf _ (getD_mem_of_lt la.c bi [] hbilt)
  · intro k2 hne hok2
    exact lastTierOk_setC h1 h2 la k k2 v bi j cnt hc hbilt hj hold hne hok2
  · exact Or.inr (Or.inr ⟨habsB, bi, j, v, hbip2, hj2, hat2, huniq2⟩)
  · exact lastSearch_foundC h1 h2 k
      { la with c := la.c.set bi ((la.c.getD bi []).set j (some (k, v))),
                count := cnt } hb (by simpa using hc) habsB bi j v hbip2
      hj2 hat2 huniq2
  · intro k2 hne hok2
    exact lastSearch_preserved_setC h1 h2 la k k2 v bi j cnt hb hc hbilt hj hold
      hne hok2
  · intro k2 hne
    exact lastHasSome_iffC la k k2 v bi j cnt hbilt hj hold hne
  · exact lastHasSome_newC la k v bi j cnt hbilt hj

/-- Unified effect of a terminal-tier insert under the tier invariant. -/
theorem lastInsert_master [DecidableEq K] (h1 h2 : K → Nat) (k : K)
    (v : Option V) (la : LastSubArray K V) (r : Bool) (la2 : LastSubArray K V)
    (hb : 2 ≤ la.b.length) (hc : 2 ≤ la.c.length)
    (hwf : ∀ bk ∈ la.c, bk.length = la.bucketSize)
    (hok : LastTierOk h1 h2 la k)
    (hins : LastSubArray.insert h1 h2 k v la = some (r, la2)) :
    (r = false ∧ la2 = la) ∨ (r = true ∧ LastGood h1 h2 k v la la2) := by
  rcases hok with ⟨habsB, habsC⟩ | ⟨i, w, hk, habsC⟩ |
    ⟨habsB, bi, j, w, hbip, hj, hat, huniq⟩
  · rcases lastInsert_fresh h1 h2 k v la hb hc hwf habsB habsC r la2 hins with
      ⟨hrf, hla⟩ | ⟨hrt, e, he, hemp, hla2, hkap⟩ |
      ⟨hrt, bi, j, hbip, hj, hemp, hla2⟩
    · exact Or.inl ⟨hrf, hla⟩
    · subst hla2
      refine Or.inr ⟨hrt, ?_⟩
      exact lastB_master h1 h2 k v la e (la.count + 1) hb hc hwf
        (probeAt_lt h1 h2 la.b.length k e (by omega)) (Or.inl hemp) hkap habsC
    · subst hla2
      refine Or.inr ⟨hrt, ?_⟩
      refine lastC_master h1 h2 k v la bi j (la.count + 1) hb hc hwf habsB hbip
        hj (Or.inl hemp) ?_
      intro bi2 j2 w2 hbi2 hj2a hat2a
      exact absurd hat2a (habsC bi2 hbi2 j2 hj2a w2)
  · have hupd := lastInsert_updateB h1 h2 k v la i w hk
    rw [hupd] at hins
    simp only [Option.some.injEq, Prod.mk.injEq] at hins
    obtain ⟨hr, hla2⟩ := hins
    subst hla2
    refine Or.inr ⟨hr.symm, ?_⟩
    have hblen : 2 ≤ la.b.length := hk.1
    exact lastB_master h1 h2 k v la i la.count hb hc hwf
      (probeAt_lt h1 h2 la.b.length k i (by omega))
      (Or.inr ⟨w, hk.2.2.1⟩)
      (keyAtProbe_after_update h1 h2 (maxAttemptsB la.size) la.b k i w v hk)
      habsC
  · have hupd := lastInsert_updateC h1 h2 k v la hb hc habsB bi j w hbip hj hat
      huniq
    rw [hupd] at hins
    simp only [Option.some.injEq, Prod.mk.injEq] at hins
    obtain ⟨hr, hla2⟩ := hins
    subst hla2
    exact Or.inr ⟨hr.symm, lastC_master h1 h2 k v la bi j la.count hb hc hwf
      habsB hbip hj (Or.inr ⟨w, hat⟩) huniq⟩

/-! ## Computation helpers for the table-level search -/

theorem hashSearch_some [DecidableEq K] (h1 h2 : K → Nat) (k : K)
    (t : HashTable K V) (x : V)
    (hss : searchSubs h1 h2 k t.subarrays = some (some x)) :
    HashTable.search h1 h2 k t = some (some x) := by
  unfold HashTable.search
  rw [hss]

theorem hashSearch_last [DecidableEq K] (h1 h2 : K → Nat) (k : K)
    (t : HashTable K V) (la : LastSubArray K V)
    (hss : searchSubs h1 h2 k t.subarrays = some none)
    (hla : t.last = some la) :
    HashTable.search h1 h2 k t = LastSubArray.search h1 h2 k la := by
  unfold HashTable.search
  rw [hss, hla]

theorem hashSearch_congr2 [DecidableEq K] (h1 h2 : K → Nat) (k2 : K)
    (t t2 : HashTable K V)
    (hss : searchSubs h1 h2 k2 t2.subarrays = searchSubs h1 h2 k2 t.subarrays)
    (la la2 : LastSubArray K V) (hla : t.last = some la)
    (hla2 : t2.last = some la2)
    (hl : LastSubArray.search h1 h2 k2 la2 = LastSubArray.search h1 h2 k2 la) :
    HashTable.search h1 h2 k2 t2 = HashTable.search h1 h2 k2 t := by
  unfold HashTable.search
  rw [hss, hla2, hla]
  cases hv : searchSubs h1 h2 k2 t.subarrays with
  | none => rfl
  | some u =>
    cases u with
    | some w => rfl
    | none => exact hl

/-- Effect of the fresh-key path of `OpenAddressHashTable.insert` on a good
state in which the key is not visibly present anywhere. -/
theorem insertFresh_master [DecidableEq K] (h1 h2 : K → Nat) (k : K)
    (v : Option V) (t : HashTable K V) (r : Bool) (t2 : HashTable K V)
    (hg : GoodState h1 h2 t)
    (hallnone : ∀ a ∈ t.subarrays, SubArray.search h1 h2 k a = some none)
    (la : LastSubArray K V) (hla : t.last = some la)
    (hlanone : LastSubArray.search h1 h2 k la = some none)
    (hins : insertFresh h1 h2 k v t = some (r, t2)) :
    GoodState h1 h2 t2 ∧
    (r = true → HashTable.search h1 h2 k t2 = some v) ∧
    (r = false → t2 = t) ∧
    (∀ k2, k2 ≠ k → HashTable.search h1 h2 k2 t2 =
      HashTable.search h1 h2 k2 t) := by
  obtain ⟨hsubs, ⟨la0, hla0, hbla, hcla, hwfla, hokla⟩, hone⟩ := hg
  rw [hla] at hla0
  injection hla0 with hla0
  subst hla0
  have hnosome : NoSomeSubs t.subarrays k := by
    intro x hx
    exact subNoSome_of_search_none h1 h2 t.maxProbes x k ((hsubs x hx).2 k)
      (hallnone x hx)
  have hnolast : ¬ LastHasSome la k :=
    lastNoSome_of_search_none h1 h2 la k hbla hcla (hokla k) hlanone
  unfold insertFresh at hins
  by_cases hsz : t.size = 0
  · rw [if_pos hsz] at hins
    cases hins
  · rw [if_neg hsz] at hins
    by_cases hguard : 10 * t.count ≥ 9 * t.size
    · rw [if_pos hguard] at hins
      simp only [Option.some.injEq, Prod.mk.injEq] at hins
      obtain ⟨hr, ht2⟩ := hins
      subst ht2
      refine ⟨⟨hsubs, ⟨la, hla, hbla, hcla, hwfla, hokla⟩, hone⟩, ?_,
        fun _ => rfl, fun k2 _ => rfl⟩
      intro htr
      rw [htr] at hr
      cases hr
    · rw [if_neg hguard] at hins
      cases hin : insertNew h1 h2 k v t.maxProbes t.subarrays with
      | none => rw [hin] at hins; cases hins
      | some u =>
        rw [hin] at hins
        cases u with
        | some subs2 =>
          simp only [Option.some.injEq, Prod.mk.injEq] at hins
          obtain ⟨hr, ht2⟩ := hins
          subst ht2
          obtain ⟨pre, b, post, b2, hlsub, hlsub2, hprefalse, hib⟩ :=
            insertNew_some_split h1 h2 k v t.maxProbes t.subarrays subs2 hin
          have hbmem : b ∈ t.subarrays := by rw [hlsub]; simp
          obtain ⟨hbsize, hbok⟩ := hsubs b hbmem
          rcases subInsert_master h1 h2 k v t.maxProbes b true b2 hbsize
            (hbok k) hib with ⟨hcontra, -⟩ | ⟨-, hgood⟩
          · cases hcontra
          obtain ⟨hsz2, hpres, hokk, hsearch2, hsprs, hiff, hnew⟩ := hgood
          have hmem_pre : ∀ p ∈ pre, p ∈ t.subarrays := by
            intro p hp
            rw [hlsub]
            simp [hp]
          have hmem_post : ∀ p ∈ post, p ∈ t.subarrays := by
            intro p hp
            rw [hlsub]
            simp [hp]
          have hnppre : NoSomeSubs pre k := fun p hp =>
            hnosome p (hmem_pre p hp)
          have hnppost : NoSomeSubs post k := fun p hp =>
            hnosome p (hmem_post p hp)
          have hprenone : ∀ p ∈ pre, SubArray.search h1 h2 k p = some none :=
            fun p hp => hallnone p (hmem_pre p hp)
          have hpostnone : ∀ p ∈ post, SubArray.search h1 h2 k p = some none :=
            fun p hp => hallnone p (hmem_post p hp)
          refine ⟨?_, ?_, ?_, ?_⟩
          · refine ⟨?_, ⟨la, hla, hbla, hcla, hwfla, hokla⟩, ?_⟩
            · intro x hx
              have hx2 : x ∈ pre ++ b2 :: post := by
                rw [← hlsub2]
                exact hx
              rcases List.mem_append.mp hx2 with hxp | hxc
              · exact hsubs x (hmem_pre x hxp)
              · rcases List.mem_cons.mp hxc with rfl | hxq
                · refine ⟨by rw [hsz2]; exact hbsize, ?_⟩
                  intro k2
                  by_cases hkk : k2 = k
                  · subst hkk
                    exact hokk
                  · exact hpres k2 hkk (hbok k2)
                · exact hsubs x (hmem_post x hxq)
            · intro k2
              constructor
              · show AtMostOneSubs subs2 k2
                rw [hlsub2]
                by_cases hkk : k2 = k
                · subst hkk
                  exact atMostOneSubs_single pre post b2 _ hnppre hnppost
                · refine atMostOneSubs_replace pre post b b2 k2 (hiff k2 hkk) ?_
                  rw [← hlsub]
                  exact (hone k2).1
              · intro la2 hla2 hhs
                have hla2b : t.last = some la2 := hla2
                rw [hla] at hla2b
                injection hla2b with hla2b
                subst hla2b
                by_cases hkk : k2 = k
                · subst hkk
                  exact absurd hhs hnolast
                · have hold := (hone k2).2 la hla hhs
                  rw [hlsub] at hold
                  show NoSomeSubs subs2 k2
                  rw [hlsub2]
                  exact noSomeSubs_replace pre post b b2 k2 (hiff k2 hkk) hold
          · intro _
            cases v with
            | some x =>
              have hss : searchSubs h1 h2 k subs2 = some (some x) := by
                rw [hlsub2, searchSubs_skip h1 h2 k pre (b2 :: post) hprenone]
                exact searchSubs_cons_found h1 h2 k b2 post x hsearch2
              exact hashSearch_some h1 h2 k _ x hss
            | none =>
              have hss : searchSubs h1 h2 k subs2 = some none := by
                rw [hlsub2, searchSubs_skip h1 h2 k pre (b2 :: post) hprenone,
                  searchSubs_cons_none h1 h2 k b2 post hsearch2]
                exact searchSubs_all_none h1 h2 k post hpostnone
              rw [hashSearch_last h1 h2 k
                { t with subarrays := subs2, count := t.count + 1 } la hss hla]
              exact hlanone
          · intro htr
            rw [htr] at hr
            cases hr
          · intro k2 hk2
            have hsseq : searchSubs h1 h2 k2 subs2 =
                searchSubs h1 h2 k2 t.subarrays := by
              rw [hlsub2, hlsub]
              exact searchSubs_replace h1 h2 k2 b b2 (hsprs k2 hk2 (hbok k2))
                pre post
            exact hashSearch_congr2 h1 h2 k2 t _ hsseq la la hla hla rfl
        | none =>
          simp only at hins
          rw [hla] at hins
          simp only at hins
          have hallfalse := insertNew_none_all h1 h2 k v t.maxProbes
            t.subarrays hin
          cases hli : LastSubArray.insert h1 h2 k v la with
          | none => rw [hli] at hins; cases hins
          | some p2 =>
            obtain ⟨rl, la2⟩ := p2
            rw [hli] at hins
            cases rl with
            | true =>
              simp only [Option.some.injEq, Prod.mk.injEq] at hins
              obtain ⟨hr, ht2⟩ := hins
              subst ht2
              rcases lastInsert_master h1 h2 k v la true la2 hbla hcla hwfla
                (hokla k) hli with ⟨hcontra, -⟩ | ⟨-, hlg⟩
              · cases hcontra
              obtain ⟨hb2, hc2, hbs2, hls2, hwf2, hpres2, hok2, hsearch2,
                hsprs2, hiff2, hnew2⟩ := hlg
              refine ⟨?_, ?_, ?_, ?_⟩
              · refine ⟨hsubs, ⟨la2, rfl, hb2, hc2, ?_, ?_⟩, ?_⟩
                · intro bk hbk
                  rw [hbs2]
                  exact hwf2 bk hbk
                · intro k2
                  by_cases hkk : k2 = k
                  · subst hkk
                    exact hok2
                  · exact hpres2 k2 hkk (hokla k2)
                · intro k2
                  refine ⟨(hone k2).1, ?_⟩
                  intro la3 hla3 hhs
                  have hla3b : some la2 = some la3 := hla3
                  injection hla3b with hla3b
                  subst hla3b
                  by_cases hkk : k2 = k
                  · subst hkk
                    exact hnosome
                  · exact (hone k2).2 la hla ((hiff2 k2 hkk).mp hhs)
              · intro _
                have hss : searchSubs h1 h2 k t.subarrays = some none :=
                  searchSubs_all_none h1 h2 k t.subarrays hallnone
                rw [hashSearch_last h1 h2 k
                  { t with last := some la2, count := t.count + 1 } la2 hss rfl]
                exact hsearch2
              · intro htr
                rw [htr] at hr
                cases hr
              · intro k2 hk2
                exact hashSearch_congr2 h1 h2 k2 t _ rfl la la2 hla rfl
                  (hsprs2 k2 hk2 (hokla k2))
            | false =>
              simp only [Option.some.injEq, Prod.mk.injEq] at hins
              obtain ⟨hr, ht2⟩ := hins
              have hlaeq := lastInsert_false_eq h1 h2 k v la la2 hli
              rw [hlaeq] at ht2
              have hteq : t2 = t := by
                rw [← ht2]
                exact hashTable_eta_last t la hla
              subst hteq
              refine ⟨⟨hsubs, ⟨la, hla, hbla, hcla, hwfla, hokla⟩, hone⟩, ?_,
                fun _ => rfl, fun k2 _ => rfl⟩
              intro htr
              rw [htr] at hr
              cases hr

/-- Master theorem for `OpenAddressHashTable.insert` on a good state: the
state stays good, a `true` return makes `search` report the inserted value, a
`false` return leaves the table unchanged, other keys' search results are
untouched, and an insert over a visibly present key never changes the global
count. -/
theorem insert_master [DecidableEq K] (h1 h2 : K → Nat) (k : K) (v : Option V)
    (t : HashTable K V) (r : Bool) (t2 : HashTable K V)
    (hg : GoodState h1 h2 t)
    (hins : HashTable.insert h1 h2 k v t = some (r, t2)) :
    GoodState h1 h2 t2 ∧
    (r = true → HashTable.search h1 h2 k t2 = some v) ∧
    (r = false → t2 = t) ∧
    (∀ k2, k2 ≠ k → HashTable.search h1 h2 k2 t2 =
      HashTable.search h1 h2 k2 t) ∧
    (∀ w0, HashTable.search h1 h2 k t = some (some w0) →
      t2.count = t.count) := by
  have hgkeep := hg
  obtain ⟨hsubs, ⟨la, hla, hbla, hcla, hwfla, hokla⟩, hone⟩ := hg
  unfold HashTable.insert at hins
  cases hie : insertExisting h1 h2 k v t.maxProbes t.subarrays with
  | none => rw [hie] at hins; cases hins
  | some u =>
    rw [hie] at hins
    cases u with
    | some p =>
      obtain ⟨ok, subs2⟩ := p
      simp only [Option.some.injEq, Prod.mk.injEq] at hins
      obtain ⟨hok_r, ht2⟩ := hins
      subst ht2
      obtain ⟨pre, a, post, w0, a2, hlsub, hlsub2, hprenone, hasearch, hains⟩ :=
        insertExisting_some_split h1 h2 k v t.maxProbes t.subarrays ok subs2 hie
      have hamem : a ∈ t.subarrays := by rw [hlsub]; simp
      obtain ⟨hasize, haok⟩ := hsubs a hamem
      have hahas : SubHasSome a k :=
        subHasSome_of_search_some h1 h2 t.maxProbes a k hasize (haok k) w0
          hasearch
      rcases subInsert_master h1 h2 k v t.maxProbes a ok a2 hasize (haok k)
        hains with ⟨hrf, ha2a⟩ | ⟨hrt, hgood⟩
      · rw [hrf] at hok_r
        rw [ha2a] at hlsub2
        have hsubs2 : subs2 = t.subarrays := by rw [hlsub2, ← hlsub]
        have hteq : ({ t with subarrays := subs2 } : HashTable K V) = t :=
          hashTable_eta_subs t subs2 hsubs2.symm
        rw [hteq]
        refine ⟨hgkeep, ?_, fun _ => rfl, fun k2 _ => rfl, fun w1 _ => rfl⟩
        intro htr
        rw [htr] at hok_r
        cases hok_r
      · obtain ⟨hsz2, hpres, hokk, hsearch2, hsprs, hiff, hnew⟩ := hgood
        have hmem_pre : ∀ p2 ∈ pre, p2 ∈ t.subarrays := by
          intro p2 hp
          rw [hlsub]
          simp [hp]
        have hmem_post : ∀ p2 ∈ post, p2 ∈ t.subarrays := by
          intro p2 hp
          rw [hlsub]
          simp [hp]
        have hnpp := atMostOneSubs_mid pre post a k
          (by rw [← hlsub]; exact (hone k).1) hahas
        have hnolast : ¬ LastHasSome la k := fun hhs =>
          (hone k).2 la hla hhs a hamem hahas
        refine ⟨?_, ?_, ?_, ?_, fun w1 _ => rfl⟩
        · refine ⟨?_, ⟨la, hla, hbla, hcla, hwfla, hokla⟩, ?_⟩
          · intro x hx
            have hx2 : x ∈ pre ++ a2 :: post := by
              rw [← hlsub2]
              exact hx
            rcases List.mem_append.mp hx2 with hxp | hxc
            · exact hsubs x (hmem_pre x hxp)
            · rcases List.mem_cons.mp hxc with rfl | hxq
              · refine ⟨by rw [hsz2]; exact hasize, ?_⟩
                intro k2
                by_cases hkk : k2 = k
                · subst hkk
                  exact hokk
                · exact hpres k2 hkk (haok k2)
              · exact hsubs x (hmem_post x hxq)
          · intro k2
            constructor
            · show AtMostOneSubs subs2 k2
              rw [hlsub2]
              by_cases hkk : k2 = k
              · subst hkk
                exact atMostOneSubs_single pre post a2 _ hnpp.1 hnpp.2
              · refine atMostOneSubs_replace pre post a a2 k2 (hiff k2 hkk) ?_
                rw [← hlsub]
                exact (hone k2).1
            · intro la2 hla2 hhs
              have hla2b : t.last = some la2 := hla2
              rw [hla] at hla2b
              injection hla2b with hla2b
              subst hla2b
              by_cases hkk : k2 = k
              · subst hkk
                exact absurd hhs hnolast
              · have holdn := (hone k2).2 la hla hhs
                rw [hlsub] at holdn
                show NoSomeSubs subs2 k2
                rw [hlsub2]
                exact noSomeSubs_replace pre post a a2 k2 (hiff k2 hkk) holdn
        · intro _
          cases v with
          | some x =>
            have hss : searchSubs h1 h2 k subs2 = some (some x) := by
              rw [hlsub2, searchSubs_skip h1 h2 k pre (a2 :: post) hprenone]
              exact searchSubs_cons_found h1 h2 k a2 post x hsearch2
            exact hashSearch_some h1 h2 k _ x hss
          | none =>
            have hpostnone : ∀ p2 ∈ post, SubArray.search h1 h2 k p2 =
                some none := by
              intro p2 hp
              exact subSearch_none_invisible h1 h2 t.maxProbes p2 k
                (hsubs p2 (hmem_post p2 hp)).1 ((hsubs p2 (hmem_post p2 hp)).2 k)
                (hnpp.2 p2 hp)
            have hss : searchSubs h1 h2 k subs2 = some none := by
              rw [hlsub2, searchSubs_skip h1 h2 k pre (a2 :: post) hprenone,
                searchSubs_cons_none h1 h2 k a2 post hsearch2]
              exact searchSubs_all_none h1 h2 k post hpostnone
            rw [hashSearch_last h1 h2 k { t with subarrays := subs2 } la hss
              hla]
            exact lastSearch_none_invisible h1 h2 la k hbla hcla (hokla k)
              hnolast
        · intro hrf2
          rw [hrf2] at hok_r
          rw [hrt] at hok_r
          cases hok_r
        · intro k2 hk2
          have hsseq : searchSubs h1 h2 k2 subs2 =
              searchSubs h1 h2 k2 t.subarrays := by
            rw [hlsub2, hlsub]
            exact searchSubs_replace h1 h2 k2 a a2 (hsprs k2 hk2 (haok k2))
              pre post
          exact hashSearch_congr2 h1 h2 k2 t _ hsseq la la hla hla rfl
    | none =>
      simp only at hins
      rw [hla] at hins
      simp only at hins
      have hallnone := insertExisting_none_all h1 h2 k v t.maxProbes
        t.subarrays hie
      have hnosome : NoSomeSubs t.subarrays k := by
        intro x hx
        exact subNoSome_of_search_none h1 h2 t.maxProbes x k ((hsubs x hx).2 k)
          (hallnone x hx)
      cases hls : LastSubArray.search h1 h2 k la with
      | none => rw [hls] at hins; cases hins
      | some u2 =>
        rw [hls] at hins
        cases u2 with
        | some w0 =>
          simp only at hins
          cases hli : LastSubArray.insert h1 h2 k v la with
          | none => rw [hli] at hins; cases hins
          | some p2 =>
            obtain ⟨rl, la2⟩ := p2
            rw [hli] at hins
            simp only [Option.some.injEq, Prod.mk.injEq] at hins
            obtain ⟨hrr, ht2⟩ := hins
            subst ht2
            rcases lastInsert_master h1 h2 k v la rl la2 hbla hcla hwfla
              (hokla k) hli with ⟨hrf, hlaeq⟩ | ⟨hrt, hlg⟩
            · rw [hrf] at hrr
              rw [hlaeq]
              have hteq : ({ t with last := some la } : HashTable K V) = t :=
                hashTable_eta_last t la hla
              rw [hteq]
              refine ⟨hgkeep, ?_, fun _ => rfl, fun k2 _ => rfl,
                fun w1 _ => rfl⟩
              intro htr
              rw [htr] at hrr
              cases hrr
            · obtain ⟨hb2, hc2, hbs2, hls2, hwf2, hpres2, hok2, hsearch2,
                hsprs2, hiff2, hnew2⟩ := hlg
              refine ⟨?_, ?_, ?_, ?_, fun w1 _ => rfl⟩
              · refine ⟨hsubs, ⟨la2, rfl, hb2, hc2, ?_, ?_⟩, ?_⟩
                · intro bk hbk
                  rw [hbs2]
                  exact hwf2 bk hbk
                · intro k2
                  by_cases hkk : k2 = k
                  · subst hkk
                    exact hok2
                  · exact hpres2 k2 hkk (hokla k2)
                · intro k2
                  refine ⟨(hone k2).1, ?_⟩
                  intro la3 hla3 hhs
                  have hla3b : some la2 = some la3 := hla3
                  injection hla3b with hla3b
                  subst hla3b
                  by_cases hkk : k2 = k
                  · subst hkk
                    exact hnosome
                  · exact (hone k2).2 la hla ((hiff2 k2 hkk).mp hhs)
              · intro _
                have hss : searchSubs h1 h2 k t.subarrays = some none :=
                  searchSubs_all_none h1 h2 k t.subarrays hallnone
                rw [hashSearch_last h1 h2 k { t with last := some la2 } la2
                  hss rfl]
                exact hsearch2
              · intro hrf2
                rw [hrf2] at hrr
                rw [hrt] at hrr
                cases hrr
              · intro k2 hk2
                exact hashSearch_congr2 h1 h2 k2 t _ rfl la la2 hla rfl
                  (hsprs2 k2 hk2 (hokla k2))
        | none =>
          simp only at hins
          obtain ⟨hg2, hs2, hf2, hp2⟩ := insertFresh_master h1 h2 k v t r t2
            hgkeep hallnone la hla hls hins
          refine ⟨hg2, hs2, hf2, hp2, ?_⟩
          intro w1 hw1
          have hss : searchSubs h1 h2 k t.subarrays = some none :=
            searchSubs_all_none h1 h2 k t.subarrays hallnone
          have hsn : HashTable.search h1 h2 k t = some none := by
            rw [hashSearch_last h1 h2 k t la hss hla]
            exact hls
          rw [hsn] at hw1
          simp at hw1

/-! ## Construction-time facts and degenerate-table crash lemmas -/

theorem tierSizes_zero (fuel : Nat) : tierSizes 0 fuel = [] := by
  cases fuel with
  | zero => rfl
  | succ f => rfl

theorem tierSizes_sum_le2 : ∀ (fuel m : Nat), 1 ≤ m →
    (tierSizes m fuel).sum + 1 ≤ 2 * m := by
  intro fuel
  induction fuel with
  | zero =>
    intro m hm
    show 0 + 1 ≤ 2 * m
    omega
  | succ f ih =>
    intro m hm
    show (if m < 1 then [] else m :: tierSizes (m / 2) f).sum + 1 ≤ 2 * m
    rw [if_neg (by omega)]
    by_cases hm2 : m / 2 = 0
    · rw [hm2, tierSizes_zero]
      simp
      omega
    · have := ih (m / 2) (by omega)
      simp only [List.sum_cons]
      omega

theorem tierSizes_split : ∀ (fuel m : Nat),
    (∀ s ∈ tierSizes m fuel, 2 ≤ s) ∨
    (∃ pre, tierSizes m fuel = pre ++ [1] ∧ ∀ s ∈ pre, 2 ≤ s) := by
  intro fuel
  induction fuel with
  | zero =>
    intro m
    left
    intro s hs
    cases hs
  | succ f ih =>
    intro m
    show (∀ s ∈ (if m < 1 then [] else m :: tierSizes (m / 2) f), 2 ≤ s) ∨ _
    by_cases hm : m < 1
    · rw [if_pos hm]
      left
      intro s hs
      cases hs
    · rw [if_neg hm]
      by_cases hm1 : m = 1
      · right
        refine ⟨[], ?_, by simp⟩
        subst hm1
        show 1 :: tierSizes 0 f = [] ++ [1]
        rw [tierSizes_zero]
        rfl
      · rcases ih (m / 2) with hall | ⟨pre, heq, hpre⟩
        · left
          intro s hs
          rcases List.mem_cons.mp hs with rfl | hs2
          · omega
          · exact hall s hs2
        · right
          refine ⟨m :: pre, ?_, ?_⟩
          · show (if m < 1 then [] else m :: tierSizes (m / 2) f) =
              m :: pre ++ [1]
            rw [if_neg hm, heq]
            rfl
          · intro s hs
            rcases List.mem_cons.mp hs with rfl | hs2
            · omega
            · exact hpre s hs2

theorem getD_replicate2 {α : Type} (n i : Nat) (x d : α) (h : i < n) :
    (List.replicate n x).getD i d = x := by
  rw [List.getD_eq_getElem _ _ (by simpa using h)]
  simp

theorem keyAbsent_nil (k : K) : KeyAbsent ([] : List (Slot K V)) k := by
  intro pos hpos
  simp at hpos

theorem keyAbsent_c_replicate (nb bs bi : Nat) (k : K) :
    KeyAbsent
      ((List.replicate nb (List.replicate bs (none : Slot K V))).getD bi []) k := by
  by_cases h : bi < nb
  · rw [getD_replicate2 _ _ _ _ h]
    exact keyAbsent_replicate bs k
  · rw [List.getD_eq_default _ _ (by simpa using Nat.le_of_not_lt h)]
    exact keyAbsent_nil k

theorem subHash_small (h1 h2 : K → Nat) (s : Nat) (k : K) (i : Nat)
    (hs : s ≤ 1) : subHash h1 h2 s k i = none := by
  rcases Nat.le_one_iff_eq_zero_or_eq_one.mp hs with rfl | rfl
  · rfl
  · rfl

theorem hashC_small (h1 h2 : K → Nat) (nb : Nat) (k : K) (h : nb ≤ 1) :
    hashC h1 h2 nb k = none := by
  rcases Nat.le_one_iff_eq_zero_or_eq_one.mp h with rfl | rfl
  · rfl
  · rfl

theorem subSearch_crash_one [DecidableEq K] (h1 h2 : K → Nat) (k : K)
    (a : SubArray K V) (ha : a.size = 1) :
    SubArray.search h1 h2 k a = none := by
  unfold SubArray.search
  rw [ha]
  unfold searchScan
  rw [subHash_small h1 h2 a.size k 0 (by omega)]

theorem maxAttemptsB_pos (s : Nat) (hs : 1 ≤ s) : 1 ≤ maxAttemptsB s := by
  unfold maxAttemptsB
  rw [natLog2_eq, natLog2_eq]
  have h1a : 1 ≤ Nat.log2 (s + 1) :=
    (Nat.le_log2 (by omega)).mpr (by simpa using (by omega : 2 ≤ s + 1))
  exact (Nat.le_log2 (by omega)).mpr
    (by simpa using (by omega : 2 ≤ Nat.log2 (s + 1) + 1))

theorem lastSearch_crash_smallB [DecidableEq K] (h1 h2 : K → Nat) (k : K)
    (la : LastSubArray K V) (hb : la.b.length ≤ 1)
    (hf : 1 ≤ maxAttemptsB la.size) :
    LastSubArray.search h1 h2 k la = none := by
  unfold LastSubArray.search
  cases hmf : maxAttemptsB la.size with
  | zero => omega
  | succ f =>
    have hscan : searchScanB h1 h2 k la 0 (f + 1) = none := by
      unfold searchScanB
      rw [subHash_small h1 h2 la.b.length k 0 hb]
    rw [hscan]

theorem lastSearch_crash_smallC [DecidableEq K] (h1 h2 : K → Nat) (k : K)
    (la : LastSubArray K V) (hb : 2 ≤ la.b.length)
    (habsB : KeyAbsent la.b k) (hnb : la.c.length ≤ 1) :
    LastSubArray.search h1 h2 k la = none := by
  unfold LastSubArray.search
  rw [searchScanB_absent h1 h2 k la hb habsB _ 0,
    hashC_small h1 h2 la.c.length k hnb]

theorem insertExisting_skip [DecidableEq K] (h1 h2 : K → Nat) (k : K)
    (v : Option V) (mp : Nat) :
    ∀ l : List (SubArray K V),
      (∀ a ∈ l, SubArray.search h1 h2 k a = some none) →
      insertExisting h1 h2 k v mp l = some none := by
  intro l
  induction l with
  | nil => intro _; rfl
  | cons a rest ih =>
    intro hall
    show (match SubArray.search h1 h2 k a with
          | none => none
          | some (some _) =>
            match SubArray.insert h1 h2 k v mp a with
            | none => none
            | some (ok, a2) => some (some (ok, a2 :: rest))
          | some none =>
            match insertExisting h1 h2 k v mp rest with
            | none => none
            | some none => some none
            | some (some (ok, rest2)) => some (some (ok, a :: rest2))) =
        some none
    rw [hall a (by simp), ih fun p hp => hall p (by simp [hp])]

theorem insertExisting_crash [DecidableEq K] (h1 h2 : K → Nat) (k : K)
    (v : Option V) (mp : Nat) (b : SubArray K V) (post : List (SubArray K V))
    (hcrash : SubArray.search h1 h2 k b = none) :
    ∀ pre : List (SubArray K V),
      (∀ p ∈ pre, SubArray.search h1 h2 k p = some none) →
      insertExisting h1 h2 k v mp (pre ++ b :: post) = none := by
  intro pre
  induction pre with
  | nil =>
    intro _
    show (match SubArray.search h1 h2 k b with
          | none => none
          | some (some _) =>
            match SubArray.insert h1 h2 k v mp b with
            | none => none
            | some (ok, a2) => some (some (ok, a2 :: post))
          | some none =>
            match insertExisting h1 h2 k v mp post with
            | none => none
            | some none => some none
            | some (some (ok, rest2)) => some (some (ok, b :: rest2))) = none
    rw [hcrash]
  | cons a pre2 ih =>
    intro hall
    show (match SubArray.search h1 h2 k a with
          | none => none
          | some (some _) =>
            match SubArray.insert h1 h2 k v mp a with
            | none => none
            | some (ok, a2) => some (some (ok, a2 :: (pre2 ++ b :: post)))
          | some none =>
            match insertExisting h1 h2 k v mp (pre2 ++ b :: post) with
            | none => none
            | some none => some none
            | some (some (ok, rest2)) => some (some (ok, a :: rest2))) = none
    rw [hall a (by simp), ih fun p hp => hall p (by simp [hp])]

theorem insert_crash_existing [DecidableEq K] (h1 h2 : K → Nat) (k : K)
    (v : Option V) (t : HashTable K V)
    (hie : insertExisting h1 h2 k v t.maxProbes t.subarrays = none) :
    HashTable.insert h1 h2 k v t = none := by
  unfold HashTable.insert
  rw [hie]

theorem insert_crash_lastSearch [DecidableEq K] (h1 h2 : K → Nat) (k : K)
    (v : Option V) (t : HashTable K V) (la : LastSubArray K V)
    (hie : insertExisting h1 h2 k v t.maxProbes t.subarrays = some none)
    (hla : t.last = some la)
    (hcrash : LastSubArray.search h1 h2 k la = none) :
    HashTable.insert h1 h2 k v t = none := by
  unfold HashTable.insert
  simp only [hie, hla, hcrash]

theorem mkTable_subarrays (n mp : Nat) :
    (mkTable n mp : HashTable K V).subarrays =
      (tierSizes (n / 2) (mp / 3)).map SubArray.make := rfl

theorem mkTable_size (n mp : Nat) : (mkTable n mp : HashTable K V).size = n :=
  rfl

theorem mkTable_maxProbes (n mp : Nat) :
    (mkTable n mp : HashTable K V).maxProbes = mp := rfl

theorem mkTable_count (n mp : Nat) :
    (mkTable n mp : HashTable K V).count = 0 := rfl

theorem mkTable_last (n mp : Nat) :
    (mkTable n mp : HashTable K V).last =
      if 0 < n - (tierSizes (n / 2) (mp / 3)).sum
      then some (LastSubArray.make (n - (tierSizes (n / 2) (mp / 3)).sum))
      else none := rfl

/-- Every freshly constructed table satisfies the global invariant: it is a
good state, or it is one of the degenerate configurations on which every
insert raises. -/
theorem inv_mkTable [DecidableEq K] (h1 h2 : K → Nat) (n mp : Nat) :
    Inv h1 h2 (mkTable n mp : HashTable K V) := by
  rcases tierSizes_split (mp / 3) (n / 2) with hall | ⟨pre, heq, hpre⟩
  · by_cases hn : n = 0
    · right
      intro k v
      subst hn
      have hie : insertExisting h1 h2 k v
          (mkTable 0 mp : HashTable K V).maxProbes
          (mkTable 0 mp : HashTable K V).subarrays = some none := by
        rw [mkTable_subarrays]
        simp only [Nat.zero_div, tierSizes_zero, List.map_nil]
        rfl
      have hlast : (mkTable 0 mp : HashTable K V).last = none := by
        rw [mkTable_last]
        simp [Nat.zero_div, tierSizes_zero]
      have hfresh : insertFresh h1 h2 k v (mkTable 0 mp : HashTable K V) =
          none := by
        unfold insertFresh
        rw [if_pos (mkTable_size 0 mp)]
      unfold HashTable.insert
      rw [hie, hlast, hfresh]
    · have hslt : (tierSizes (n / 2) (mp / 3)).sum < n := by
        by_cases hm : n / 2 = 0
        · rw [hm, tierSizes_zero]
          simp
          omega
        · have := tierSizes_sum_le2 (mp / 3) (n / 2) (by omega)
          omega
      have hL1 : 1 ≤ n - (tierSizes (n / 2) (mp / 3)).sum := by omega
      set L := n - (tierSizes (n / 2) (mp / 3)).sum with hLdef
      have hlast : (mkTable n mp : HashTable K V).last =
          some (LastSubArray.make L) := by
        rw [mkTable_last, if_pos (by omega)]
      have hie : ∀ (k : K) (v : Option V),
          insertExisting h1 h2 k v (mkTable n mp : HashTable K V).maxProbes
            (mkTable n mp : HashTable K V).subarrays = some none := by
        intro k v
        rw [mkTable_subarrays, mkTable_maxProbes]
        apply insertExisting_skip
        intro a ha
        rcases List.mem_map.mp ha with ⟨s, hs, rfl⟩
        refine subSearch_absent h1 h2 k _ ?_ ?_
        · rw [size_make]
          exact hall s hs
        · exact keyAbsent_replicate s k
      by_cases hbL : 2 ≤ (LastSubArray.make L : LastSubArray K V).b.length
      · by_cases hcL : 2 ≤ (LastSubArray.make L : LastSubArray K V).c.length
        · left
          refine ⟨?_, ⟨LastSubArray.make L, hlast, hbL, hcL, ?_, ?_⟩, ?_⟩
          · intro a ha
            rw [mkTable_subarrays] at ha
            rcases List.mem_map.mp ha with ⟨s, hs, rfl⟩
            refine ⟨by rw [size_make]; exact hall s hs, ?_⟩
            intro k2
            exact Or.inl (keyAbsent_replicate s k2)
          · intro bk hbk
            have hbk2 : bk = List.replicate (2 * maxAttemptsB L)
                (none : Slot K V) := List.eq_of_mem_replicate hbk
            rw [hbk2]
            simp
            rfl
          · intro k2
            refine Or.inl ⟨keyAbsent_replicate (L / 2) k2, ?_⟩
            intro bi hbi
            exact keyAbsent_c_replicate _ _ bi k2
          · intro k2
            constructor
            · apply atMostOneSubs_of_noSome
              intro a ha
              rw [mkTable_subarrays] at ha
              rcases List.mem_map.mp ha with ⟨s, hs, rfl⟩
              rintro ⟨pos, w, hpos, hslot⟩
              rw [show (SubArray.make s : SubArray K V).table =
                List.replicate s none from rfl, getD_replicate_none] at hslot
              cases hslot
            · intro la2 hla2 hhs
              rw [hlast] at hla2
              injection hla2 with he
              subst he
              exfalso
              rcases hhs with ⟨pos, w, hpos, hslot⟩ | ⟨bi, j, w, hbi, hj, hslot⟩
              · exact keyAbsent_replicate (L / 2) k2 pos hpos (some w) hslot
              · exact keyAbsent_c_replicate
                  ((L - L / 2 + 2 * maxAttemptsB L - 1) / (2 * maxAttemptsB L))
                  (2 * maxAttemptsB L) bi k2 j hj (some w) hslot
        · right
          intro k v
          apply insert_crash_lastSearch h1 h2 k v _ (LastSubArray.make L)
            (hie k v) hlast
          exact lastSearch_crash_smallC h1 h2 k (LastSubArray.make L) hbL
            (keyAbsent_replicate (L / 2) k) (by omega)
      · right
        intro k v
        apply insert_crash_lastSearch h1 h2 k v _ (LastSubArray.make L)
          (hie k v) hlast
        refine lastSearch_crash_smallB h1 h2 k (LastSubArray.make L)
          (by omega) ?_
        exact maxAttemptsB_pos L hL1
  · right
    intro k v
    apply insert_crash_existing
    show insertExisting h1 h2 k v (mkTable n mp : HashTable K V).maxProbes
      (mkTable n mp : HashTable K V).subarrays = none
    rw [mkTable_subarrays, mkTable_maxProbes, heq, List.map_append]
    rw [show (List.map SubArray.make [1] : List (SubArray K V)) =
      (SubArray.make 1 : SubArray K V) :: [] from rfl]
    apply insertExisting_crash h1 h2 k v mp (SubArray.make 1) []
      (subSearch_crash_one h1 h2 k _ (size_make 1))
    intro p hp
    rcases List.mem_map.mp hp with ⟨s, hs, rfl⟩
    exact subSearch_absent h1 h2 k _ (by rw [size_make]; exact hpre s hs)
      (keyAbsent_replicate s k)

/-! ## Invariant preservation along executions -/

theorem inv_step [DecidableEq K] (h1 h2 : K → Nat) (t t2 : HashTable K V)
    (hinv : Inv h1 h2 t) (hstep : Step h1 h2 t t2) : Inv h1 h2 t2 := by
  obtain ⟨k, v, r, hins⟩ := hstep
  rcases hinv with hgood | hdead
  · exact Or.inl (insert_master h1 h2 k v t r t2 hgood hins).1
  · rw [hdead k v] at hins
    cases hins

theorem inv_reach [DecidableEq K] (h1 h2 : K → Nat) (t t2 : HashTable K V)
    (hinv : Inv h1 h2 t) (hreach : Reach h1 h2 t t2) : Inv h1 h2 t2 := by
  induction hreach with
  | refl => exact hinv
  | tail hr hs ih => exact inv_step h1 h2 _ _ ih hs

/-- A table reached from a construction is a good state as soon as any
insert on it returns (a dead table's inserts all raise). -/
theorem good_of_reach_insert [DecidableEq K] (h1 h2 : K → Nat) (n mp : Nat)
    (t : HashTable K V) (hreach : Reach h1 h2 (mkTable n mp) t)
    (k : K) (v : Option V) (r : Bool) (t2 : HashTable K V)
    (hins : HashTable.insert h1 h2 k v t = some (r, t2)) :
    GoodState h1 h2 t := by
  rcases inv_reach h1 h2 _ t (inv_mkTable h1 h2 n mp) hreach with hg | hdead
  · exact hg
  · rw [hdead k v] at hins
    cases hins

theorem searchK_stepAvoid [DecidableEq K] (h1 h2 : K → Nat) (k : K)
    (v : Option V) (t t2 : HashTable K V)
    (hg : GoodState h1 h2 t) (hs : HashTable.search h1 h2 k t = some v)
    (hstep : StepAvoid h1 h2 k t t2) :
    GoodState h1 h2 t2 ∧ HashTable.search h1 h2 k t2 = some v := by
  obtain ⟨k2, v2, r, hins, havoid⟩ := hstep
  obtain ⟨hg2, hs2, hf2, hp2, -⟩ := insert_master h1 h2 k2 v2 t r t2 hg hins
  refine ⟨hg2, ?_⟩
  by_cases hkk : k2 = k
  · subst hkk
    rw [hf2 (havoid rfl)]
    exact hs
  · rw [hp2 k (fun he => hkk he.symm)]
    exact hs

theorem searchK_reachAvoid [DecidableEq K] (h1 h2 : K → Nat) (k : K)
    (v : Option V) (t t2 : HashTable K V)
    (hg : GoodState h1 h2 t) (hs : HashTable.search h1 h2 k t = some v)
    (hreach : ReachAvoid h1 h2 k t t2) :
    GoodState h1 h2 t2 ∧ HashTable.search h1 h2 k t2 = some v := by
  induction hreach with
  | refl => exact ⟨hg, hs⟩
  | tail hr hstep ih => exact searchK_stepAvoid h1 h2 k v _ _ ih.1 ih.2 hstep

/-- **C1**: round-trip.  For every constructed table and every reachable
state of it, after `insert(k, v)` returns `True`, every subsequent
`search(k)` returns the Python value `v`, across any further sequence of
returning inserts as long as no later `insert(k, _)` returns `True`. -/
theorem roundtrip_search [DecidableEq K] (h1 h2 : K → Nat) (n mp : Nat)
    (t t1 t2 : HashTable K V) (k : K) (v : Option V)
    (hreach : Reach h1 h2 (mkTable n mp) t)
    (hins : HashTable.insert h1 h2 k v t = some (true, t1))
    (hafter : ReachAvoid h1 h2 k t1 t2) :
    HashTable.search h1 h2 k t2 = some v := by
  have hg : GoodState h1 h2 t :=
    good_of_reach_insert h1 h2 n mp t hreach k v true t1 hins
  obtain ⟨hg1, hs1, -, -, -⟩ := insert_master h1 h2 k v t true t1 hg hins
  exact (searchK_reachAvoid h1 h2 k v t1 t2 hg1 (hs1 rfl) hafter).2

theorem roundtrip_search_witness :
    HashTable.insert (fun m => m) (fun m => m) 0 (some 7) (mkTable 5 0) =
      some (true, c1T1) ∧
    HashTable.search (fun m => m) (fun m => m) 0 c1T2 = some (some 7) :=
  ⟨by decide,
    roundtrip_search (fun m => m) (fun m => m) 5 0 (mkTable 5 0) c1T1 c1T2 0
      (some 7) (Reach.refl _) (by decide)
      (ReachAvoid.tail (ReachAvoid.refl _)
        (StepAvoid.insert 1 (some 9) true (by decide) (by decide)))⟩

/-- **C2 (counterexample)**: with the unconstrained value `v = None`, a
repeated successful `insert(k, v)` leaves `search(k) == v` but changes
`loadFactor` from 1/5 to 2/5: the existence check tests `search(key) is not
None`, so a stored `None` value is re-counted on every re-insert. -/
theorem idempotence_loadfactor_counterexample :
    HashTable.insert (fun m => m) (fun m => m) 0 none (mkTable 5 0) =
      some (true, c2D1) ∧
    HashTable.insert (fun m => m) (fun m => m) 0 none c2D1 =
      some (true, c2D2) ∧
    HashTable.search (fun m => m) (fun m => m) 0 c2D2 = some none ∧
    HashTable.loadFactor c2D2 ≠ HashTable.loadFactor c2D1 := by
  refine ⟨by decide, by decide, by decide, ?_⟩
  norm_num [HashTable.loadFactor, c2D1, c2D2]

/-- **C2 (amended)**: idempotence restricted to non-`None` values.  If
`insert(k, v)` with `v ≠ None` succeeds twice in a row on a reachable table,
afterwards `search(k) == v` and `loadFactor` is unchanged by the repeated
call. -/
theorem idempotence_insert_some [DecidableEq K] (h1 h2 : K → Nat) (n mp : Nat)
    (t t1 t2 : HashTable K V) (k : K) (w : V)
    (hreach : Reach h1 h2 (mkTable n mp) t)
    (hi1 : HashTable.insert h1 h2 k (some w) t = some (true, t1))
    (hi2 : HashTable.insert h1 h2 k (some w) t1 = some (true, t2)) :
    HashTable.search h1 h2 k t2 = some (some w) ∧
    HashTable.loadFactor t2 = HashTable.loadFactor t1 := by
  have hg : GoodState h1 h2 t :=
    good_of_reach_insert h1 h2 n mp t hreach k (some w) true t1 hi1
  obtain ⟨hg1, hs1, -, -, -⟩ := insert_master h1 h2 k (some w) t true t1 hg hi1
  obtain ⟨-, hs2, -, -, hcnt⟩ :=
    insert_master h1 h2 k (some w) t1 true t2 hg1 hi2
  have hcount : t2.count = t1.count := hcnt w (hs1 rfl)
  have hsize : t2.size = t1.size :=
    (insert_shape h1 h2 k (some w) t1 true t2 hi2).1.1
  refine ⟨hs2 rfl, ?_⟩
  unfold HashTable.loadFactor
  rw [hcount, hsize]

theorem idempotence_insert_some_witness :
    HashTable.insert (fun m => m) (fun m => m) 0 (some 7) (mkTable 5 0) =
      some (true, c2W1) ∧
    HashTable.insert (fun m => m) (fun m => m) 0 (some 7) c2W1 =
      some (true, c2W1) ∧
    (HashTable.search (fun m => m) (fun m => m) 0 c2W1 = some (some 7) ∧
      HashTable.loadFactor c2W1 = HashTable.loadFactor c2W1) :=
  ⟨by decide, by decide,
    idempotence_insert_some (fun m => m) (fun m => m) 5 0 (mkTable 5 0) c2W1
      c2W1 0 7 (Reach.refl _) (by decide) (by decide)⟩

/-- Witness for C7: with two equally empty candidate buckets, placement goes
into the first candidate. -/
theorem two_choice_placement_witness :
    ∃ i, (twoChoiceTier.c.getD 0 []).getD i none = none ∧
      twoChoiceTier2 =
        { twoChoiceTier with
          c := twoChoiceTier.c.set 0
            ((twoChoiceTier.c.getD 0 []).set i (some (0, some 5))),
          count := twoChoiceTier.count + 1 } :=
  ((two_choice_placement (fun n => n) (fun n => n) 0 (some 5) twoChoiceTier
      true twoChoiceTier2 0 1 (by decide) (by decide) (by decide)).1
    (by decide)).1 rfl

end OpenAddressing
